import Mathlib

/-!
# The starling indel overlapper

A shallow embedding of `src/c++/lib/applications/starling/indel_overlapper.cpp`
and a verification of its streaming three-way merge.

Conventions of the embedding.

* POSITIONS: the source type of a position is a signed integer (the source computes
  `siteLocus.pos-indelLocus.pos` and asserts that the difference is `>= 0`); positions
  are embedded as `Int`.
* The two external collaborators (the scoring model and the sink) are parameters,
  both may raise.  Every call made to them is appended to the event log of the
  overlapper, in call order.
* A `std::unique_ptr` owns one heap object; the object identity is kept in the field
  `ptr` of a locus, which no mutation of the annotations touches.
* `assert` is active: a failed assertion, like an access outside a vector, ends the
  run (`Outcome.crashed`).  An exception leaves a state behind (`Outcome.threw`).
-/

namespace GERMLINE_VARIANT_VCF_FILTERS

/-- Modelled from the spec: the enumeration of filter flags is declared in a header
outside the sources at hand; the spec names `IndelConflict` and `SiteConflict`
"plus others defined externally". -/
inductive index_t where
  | IndelConflict
  | SiteConflict
  | Other (n : Nat)
  deriving DecidableEq, Repr

end GERMLINE_VARIANT_VCF_FILTERS

namespace VARQUEUE

/-- The enum `VARQUEUE::index_t` (lines 152-161). -/
inductive index_t where
  | NONE
  | INDEL
  | NONVARIANT_INDEL
  | SITE
  deriving DecidableEq, Repr

end VARQUEUE

open GERMLINE_VARIANT_VCF_FILTERS

/-- A `std::bitset` over the filter enumeration: `set` is `insert`, `none()` is `= ∅`,
`test` is membership. -/
abbrev FilterSet := Finset GERMLINE_VARIANT_VCF_FILTERS.index_t

/-- Per-sample entry of a locus: its filter set and its genotype quality. -/
structure LocusSampleInfo where
  filters : FilterSet
  gqx : Int
  deriving DecidableEq

/-- A site locus: the fields of `GermlineDiploidSiteLocusInfo` that the overlapper reads
or writes. `samples` is what `getSample(i)` indexes and `getSampleCount()` measures. -/
structure GermlineDiploidSiteLocusInfo where
  ptr : Nat
  pos : Int
  filters : FilterSet
  samples : List LocusSampleInfo
  anyVariantAlleleQuality : Int
  evsFeatures : List Int
  deriving DecidableEq

/-- An indel locus: the fields of `GermlineIndelLocusInfo` that the overlapper reads or
writes. `end_` is the value of `end()`. -/
structure GermlineIndelLocusInfo where
  ptr : Nat
  pos : Int
  end_ : Int
  isVariantLocus : Bool
  isAnyForcedOutputAtLocus : Bool
  filters : FilterSet
  samples : List LocusSampleInfo
  anyVariantAlleleQuality : Int
  deriving DecidableEq

/-- What the two overloads of `_sink->process` receive. -/
inductive Locus where
  | site (s : GermlineDiploidSiteLocusInfo)
  | indel (i : GermlineIndelLocusInfo)
  deriving DecidableEq

/-- Position of a record handed to the sink. -/
def Locus.pos : Locus → Int
  | .site s => s.pos
  | .indel i => i.pos

/-- Object identity of a record handed to the sink. -/
def Locus.ptr : Locus → Nat
  | .site s => s.ptr
  | .indel i => i.ptr

/-- An exception value. -/
abbrev Exception := Nat

/-- A call to a collaborator: `model.classify_site(s)` or `_sink->process(l)`, with the
argument as it is when the call is made. -/
inductive Event where
  | classify (s : GermlineDiploidSiteLocusInfo)
  | sink (l : Locus)
  deriving DecidableEq

/-- The external collaborators. `classify_site` rewrites the site it is given or raises;
`sink_process` is told the calls made so far and the record, and says whether it raises. -/
structure Collaborators where
  classify_site : GermlineDiploidSiteLocusInfo → Except Exception GermlineDiploidSiteLocusInfo
  sink_process : List Event → Locus → Option Exception

/-- How a call ends: it returns; an exception escapes it (the state it leaves behind is
kept); the run is ended by a failed assertion or an access outside a vector; or the
bound on loop iterations of the embedding is used up. -/
inductive Outcome (α : Type) where
  | ok (a : α)
  | threw (e : Exception) (a : α)
  | crashed
  | outOfFuel
  deriving DecidableEq

/-- The records handed to the sink so far, in order. -/
def sunk : List Event → List Locus
  | [] => []
  | Event.sink l :: rest => l :: sunk rest
  | Event.classify _ :: rest => sunk rest

/-- The sites handed to the classifier so far, in order. -/
def classified : List Event → List GermlineDiploidSiteLocusInfo
  | [] => []
  | Event.sink _ :: rest => classified rest
  | Event.classify s :: rest => s :: classified rest

/-- The state of an `indel_overlapper`: its four data members and the log of the calls it
has made to its collaborators. -/
structure indel_overlapper where
  _indel_end_pos : Int
  _indel_buffer : List GermlineIndelLocusInfo
  _nonvariant_indel_buffer : List GermlineIndelLocusInfo
  _site_buffer : List GermlineDiploidSiteLocusInfo
  events : List Event
  deriving DecidableEq

/-- A freshly constructed overlapper. -/
def indel_overlapper.empty : indel_overlapper :=
  { _indel_end_pos := 0, _indel_buffer := [], _nonvariant_indel_buffer := [],
    _site_buffer := [], events := [] }

/-- Modelled from the spec: `clearBuffers` is defined in the class header, which is not
among the sources; the spec has it "clear all three buffers and reset `indelEndPos`",
the unset value being `0`. -/
def clearBuffers (ov : indel_overlapper) : indel_overlapper :=
  { ov with _indel_end_pos := 0, _indel_buffer := [], _nonvariant_indel_buffer := [],
            _site_buffer := [] }

/-- Modelled from the spec: `clearEVSFeatures` belongs to the site class, declared outside
the sources; the spec has it "clear the site's derived scoring features". -/
def clearEVSFeatures (siteLocus : GermlineDiploidSiteLocusInfo) : GermlineDiploidSiteLocusInfo :=
  { siteLocus with evsFeatures := [] }

/-- Lines 371-376. -/
def modify_indel_conflict_site (siteLocus : GermlineDiploidSiteLocusInfo) :
    GermlineDiploidSiteLocusInfo :=
  { siteLocus with filters := insert index_t.IndelConflict siteLocus.filters }

/-- A loop `for (sampleIndex = 0; sampleIndex < sampleCount; ++sampleIndex)` over the
samples of the site, each round reading `indelLocus.getSample(sampleIndex)` and rewriting
the site's sample; `none` when the indel has no sample at that index. -/
def forEachSample (indelLocus : GermlineIndelLocusInfo)
    (body : LocusSampleInfo → LocusSampleInfo → LocusSampleInfo) :
    List LocusSampleInfo → Nat → Option (List LocusSampleInfo)
  | [], _ => some []
  | siteSampleInfo :: rest, sampleIndex =>
    match indelLocus.samples[sampleIndex]? with
    | none => none
    | some indelSampleInfo =>
      match forEachSample indelLocus body rest (sampleIndex + 1) with
      | none => none
      | some rest' => some (body indelSampleInfo siteSampleInfo :: rest')

/-- Body of the loop of lines 339-348. -/
def tagSampleBody (indelSampleInfo siteSampleInfo : LocusSampleInfo) : LocusSampleInfo :=
  if indelSampleInfo.filters ≠ ∅ then
    { siteSampleInfo with filters := insert index_t.SiteConflict siteSampleInfo.filters }
  else siteSampleInfo

/-- Body of the loop of lines 356-362. -/
def gqxSampleBody (indelSampleInfo sampleInfo : LocusSampleInfo) : LocusSampleInfo :=
  { sampleInfo with gqx := min sampleInfo.gqx indelSampleInfo.gqx }

/-- Lines 333-348 of `modify_indel_overlap_site`: the `SiteConflict` tagging at locus level
and at sample level. -/
def tagSiteConflict (indelLocus : GermlineIndelLocusInfo)
    (siteLocus : GermlineDiploidSiteLocusInfo) : Option GermlineDiploidSiteLocusInfo :=
  let s1 : GermlineDiploidSiteLocusInfo :=
    if indelLocus.filters ≠ ∅ then
      { siteLocus with filters := insert index_t.SiteConflict siteLocus.filters }
    else siteLocus
  match forEachSample indelLocus tagSampleBody s1.samples 0 with
  | none => none
  | some samples => some { s1 with samples := samples }

/-- Lines 333-365 of `modify_indel_overlap_site`: everything the function does to the site
before it calls the classifier; `none` when an assertion fails or a sample is missing. -/
def overlapSiteMerge (indelLocus : GermlineIndelLocusInfo)
    (siteLocus : GermlineDiploidSiteLocusInfo) : Option GermlineDiploidSiteLocusInfo :=
  match tagSiteConflict indelLocus siteLocus with
  | none => none
  | some s2 =>
    let offset : Int := s2.pos - indelLocus.pos
    if ¬ (offset ≥ 0) then none
    else
      let s3 : GermlineDiploidSiteLocusInfo :=
        { s2 with anyVariantAlleleQuality :=
                    min s2.anyVariantAlleleQuality indelLocus.anyVariantAlleleQuality }
      match forEachSample indelLocus gqxSampleBody s3.samples 0 with
      | none => none
      | some samples => some (clearEVSFeatures { s3 with samples := samples })

/-- Lines 317-367. -/
def modify_indel_overlap_site (model : Collaborators) (indelLocus : GermlineIndelLocusInfo)
    (siteLocus : GermlineDiploidSiteLocusInfo) (events : List Event) :
    Outcome (GermlineDiploidSiteLocusInfo × List Event) :=
  match overlapSiteMerge indelLocus siteLocus with
  | none => .crashed
  | some merged =>
    match model.classify_site merged with
    | .ok classifiedSite => .ok (classifiedSite, events ++ [Event.classify merged])
    | .error e => .threw e (merged, events ++ [Event.classify merged])

/-- Lines 298-313. -/
def modify_overlapping_site (model : Collaborators) (indelLocus : GermlineIndelLocusInfo)
    (siteLocus : GermlineDiploidSiteLocusInfo) (events : List Event) :
    Outcome (GermlineDiploidSiteLocusInfo × List Event) :=
  if index_t.IndelConflict ∈ indelLocus.filters then
    .ok (modify_indel_conflict_site siteLocus, events)
  else
    modify_indel_overlap_site model indelLocus siteLocus events

/-- Line 392, the body of the loop of `modify_conflict_indel_record`. -/
def setIndelConflict (indelLocus : GermlineIndelLocusInfo) : GermlineIndelLocusInfo :=
  { indelLocus with filters := insert index_t.IndelConflict indelLocus.filters }

/-- Lines 380-394; `none` when the assertion on the buffer size fails. -/
def modify_conflict_indel_record (indel_buffer : List GermlineIndelLocusInfo) :
    Option (List GermlineIndelLocusInfo) :=
  if ¬ (indel_buffer.length > 1) then none
  else some (indel_buffer.map setIndelConflict)

/-- Lines 166-211. `x && ((! y) || (a <= b))` is written as the nested conditional it
short-circuits to, so that a buffer is read at its index only where the source reads it. -/
def nextVariantType (indel_buffer nonvariant_indel_buffer : List GermlineIndelLocusInfo)
    (site_buffer : List GermlineDiploidSiteLocusInfo)
    (indel_index nonvariant_indel_index site_index : Nat) : VARQUEUE.index_t :=
  let is_indel : Bool := decide (indel_index < indel_buffer.length)
  let is_nonvariant_indel : Bool :=
    decide (nonvariant_indel_index < nonvariant_indel_buffer.length)
  let is_site : Bool := decide (site_index < site_buffer.length)
  if (!is_indel) && (!is_nonvariant_indel) && (!is_site) then VARQUEUE.index_t.NONE
  else
    let AlessB : Bool :=
      if hi : indel_index < indel_buffer.length then
        if hn : nonvariant_indel_index < nonvariant_indel_buffer.length then
          decide (indel_buffer[indel_index].pos ≤
            nonvariant_indel_buffer[nonvariant_indel_index].pos)
        else true
      else false
    let AlessC : Bool :=
      if hi : indel_index < indel_buffer.length then
        if hs : site_index < site_buffer.length then
          decide (indel_buffer[indel_index].pos ≤ site_buffer[site_index].pos)
        else true
      else false
    let BlessC : Bool :=
      if hn : nonvariant_indel_index < nonvariant_indel_buffer.length then
        if hs : site_index < site_buffer.length then
          decide (nonvariant_indel_buffer[nonvariant_indel_index].pos ≤
            site_buffer[site_index].pos)
        else true
      else false
    if AlessB then
      if AlessC then VARQUEUE.index_t.INDEL else VARQUEUE.index_t.SITE
    else
      if BlessC then VARQUEUE.index_t.NONVARIANT_INDEL else VARQUEUE.index_t.SITE

/-- The `for` loop of lines 242-248: every buffered site, in order, is modified against
`_indel_buffer.front()`; reading `front()` of an empty vector ends the run. -/
def modify_buffered_sites (model : Collaborators) (indel_buffer : List GermlineIndelLocusInfo) :
    List GermlineDiploidSiteLocusInfo → List Event →
    Outcome (List GermlineDiploidSiteLocusInfo × List Event)
  | [], events => .ok ([], events)
  | siteLocus :: rest, events =>
    match indel_buffer.head? with
    | none => .crashed
    | some front =>
      match modify_overlapping_site model front siteLocus events with
      | .ok (siteLocus', events') =>
        match modify_buffered_sites model indel_buffer rest events' with
        | .ok (rest', events'') => .ok (siteLocus' :: rest', events'')
        | .threw e (rest', events'') => .threw e (siteLocus' :: rest', events'')
        | .crashed => .crashed
        | .outOfFuel => .outOfFuel
      | .threw e (siteLocus', events') => .threw e (siteLocus' :: rest, events')
      | .crashed => .crashed
      | .outOfFuel => .outOfFuel

/-- One call `_sink->process(std::move(locus))`: the call is logged, then the sink accepts
or raises. -/
def sink_call (env : Collaborators) (locus : Locus) (events : List Event) :
    Outcome (List Event) :=
  match env.sink_process events locus with
  | none => .ok (events ++ [Event.sink locus])
  | some e => .threw e (events ++ [Event.sink locus])

/-- The `while (true)` loop of lines 255-291, with its three indices. The first argument
bounds the number of iterations. The buffers are not written by the loop (a slot whose
record has been moved to the sink is not read again, see `nextVariantType`). -/
def process_overlaps_loop (env : Collaborators) (is_conflict : Bool)
    (indel_buffer nonvariant_indel_buffer : List GermlineIndelLocusInfo)
    (site_buffer : List GermlineDiploidSiteLocusInfo) :
    Nat → Nat → Nat → Nat → List Event → Outcome (List Event)
  | 0, _, _, _, _ => .outOfFuel
  | fuel + 1, indel_index, nonvariant_indel_index, site_index, events =>
    match nextVariantType indel_buffer nonvariant_indel_buffer site_buffer
        indel_index nonvariant_indel_index site_index with
    | VARQUEUE.index_t.NONE => .ok events
    | VARQUEUE.index_t.INDEL =>
      match indel_buffer[indel_index]? with
      | none => .crashed
      | some locus =>
        match sink_call env (Locus.indel locus) events with
        | .ok events' =>
          process_overlaps_loop env is_conflict indel_buffer nonvariant_indel_buffer site_buffer
            fuel (if is_conflict then indel_index + 1 else indel_buffer.length)
            nonvariant_indel_index site_index events'
        | other => other
    | VARQUEUE.index_t.NONVARIANT_INDEL =>
      match nonvariant_indel_buffer[nonvariant_indel_index]? with
      | none => .crashed
      | some locus =>
        match sink_call env (Locus.indel locus) events with
        | .ok events' =>
          process_overlaps_loop env is_conflict indel_buffer nonvariant_indel_buffer site_buffer
            fuel indel_index (nonvariant_indel_index + 1) site_index events'
        | other => other
    | VARQUEUE.index_t.SITE =>
      match site_buffer[site_index]? with
      | none => .crashed
      | some locus =>
        match sink_call env (Locus.site locus) events with
        | .ok events' =>
          process_overlaps_loop env is_conflict indel_buffer nonvariant_indel_buffer site_buffer
            fuel indel_index nonvariant_indel_index (site_index + 1) events'
        | other => other

/-- Lines 215-294. -/
def process_overlaps_impl (env : Collaborators) (ov : indel_overlapper) :
    Outcome indel_overlapper :=
  if ov._indel_buffer.isEmpty && ov._nonvariant_indel_buffer.isEmpty then .ok ov
  else
    let is_conflict : Bool := decide (ov._indel_buffer.length > 1)
    match (if is_conflict then modify_conflict_indel_record ov._indel_buffer
           else some ov._indel_buffer) with
    | none => .crashed
    | some indel_buffer =>
      if ¬ (ov._site_buffer.isEmpty || !indel_buffer.isEmpty) then .crashed
      else
        match modify_buffered_sites env indel_buffer ov._site_buffer ov.events with
        | .ok (site_buffer, events) =>
          let ov1 : indel_overlapper :=
            { ov with _indel_buffer := indel_buffer, _site_buffer := site_buffer,
                      events := events }
          match process_overlaps_loop env is_conflict indel_buffer ov._nonvariant_indel_buffer
              site_buffer
              (indel_buffer.length + ov._nonvariant_indel_buffer.length + site_buffer.length + 1)
              0 0 0 events with
          | .ok events' => .ok (clearBuffers { ov1 with events := events' })
          | .threw e events' => .threw e { ov1 with events := events' }
          | .crashed => .crashed
          | .outOfFuel => .outOfFuel
        | .threw e (site_buffer, events) =>
          .threw e { ov with _indel_buffer := indel_buffer, _site_buffer := site_buffer,
                             events := events }
        | .crashed => .crashed
        | .outOfFuel => .outOfFuel

/-- Lines 130-149: on any exception the state is dumped to the log (no effect on the
state), the buffers are cleared and the exception is raised again. -/
def process_overlaps (env : Collaborators) (ov : indel_overlapper) :
    Outcome indel_overlapper :=
  match process_overlaps_impl env ov with
  | .threw e ov' => .threw e (clearBuffers ov')
  | other => other

/-- Lines 34-55, `process` for a site. -/
def process_site (env : Collaborators) (ov : indel_overlapper)
    (si : GermlineDiploidSiteLocusInfo) : Outcome indel_overlapper :=
  if si.pos ≥ ov._indel_end_pos then
    match process_overlaps env ov with
    | .ok ov1 =>
      if ¬ (si.pos ≥ ov1._indel_end_pos) then .crashed
      else if ¬ ov1._nonvariant_indel_buffer.isEmpty then .crashed
      else
        match sink_call env (Locus.site si) ov1.events with
        | .ok events => .ok { ov1 with events := events }
        | .threw e events => .threw e { ov1 with events := events }
        | .crashed => .crashed
        | .outOfFuel => .outOfFuel
    | other => other
  else
    .ok { ov with _site_buffer := ov._site_buffer ++ [si] }

/-- Lines 59-82, `process` for an indel. -/
def process_indel (env : Collaborators) (ov : indel_overlapper)
    (indelLocusPtr : GermlineIndelLocusInfo) : Outcome indel_overlapper :=
  let isNonVariantLocus : Bool := !indelLocusPtr.isVariantLocus
  if isNonVariantLocus && !indelLocusPtr.isAnyForcedOutputAtLocus then .ok ov
  else
    match (if indelLocusPtr.pos > ov._indel_end_pos then process_overlaps env ov
           else .ok ov) with
    | .ok ov1 =>
      if isNonVariantLocus then
        .ok { ov1 with _nonvariant_indel_buffer :=
                         ov1._nonvariant_indel_buffer ++ [indelLocusPtr] }
      else
        .ok { ov1 with _indel_end_pos := max ov1._indel_end_pos indelLocusPtr.end_,
                       _indel_buffer := ov1._indel_buffer ++ [indelLocusPtr] }
    | other => other

/-- One call of the upstream feed. -/
inductive Submission where
  | site (s : GermlineDiploidSiteLocusInfo)
  | indel (i : GermlineIndelLocusInfo)
  deriving DecidableEq

/-- Position of a submitted record. -/
def Submission.pos : Submission → Int
  | .site s => s.pos
  | .indel i => i.pos

/-- Object identity of a submitted record. -/
def Submission.ptr : Submission → Nat
  | .site s => s.ptr
  | .indel i => i.ptr

/-- Dispatch of one submission to the matching overload of `process`. -/
def submit (env : Collaborators) (ov : indel_overlapper) : Submission → Outcome indel_overlapper
  | .site s => process_site env ov s
  | .indel i => process_indel env ov i

/-- A caller that feeds the records one after the other and stops at the first call that
does not return. -/
def submitAll (env : Collaborators) : List Submission → indel_overlapper → Outcome indel_overlapper
  | [], ov => .ok ov
  | x :: rest, ov =>
    match submit env ov x with
    | .ok ov' => submitAll env rest ov'
    | other => other

/-- The whole run of a caller: the submissions to a fresh overlapper, then the final
`process_overlaps`. -/
def runAndFlush (env : Collaborators) (subs : List Submission) : Outcome indel_overlapper :=
  match submitAll env subs indel_overlapper.empty with
  | .ok ov => process_overlaps env ov
  | other => other

/-- Collaborators that never raise: the classifier returns the site as it is. -/
def quietCollaborators : Collaborators :=
  { classify_site := fun s => .ok s, sink_process := fun _ _ => none }

/-! ## The selection rule of the specification, and concrete inputs -/

/-- Position of the record a buffer holds at `index`; `none` when the buffer is exhausted
there. -/
def headPos {α : Type} (pos : α → Int) (buffer : List α) (index : Nat) : Option Int :=
  (buffer[index]?).map pos

/-- Comparison `a <= b` of two heads, an exhausted head (`none`) counting as `+infinity`. -/
def leInf : Option Int → Option Int → Bool
  | some a, some b => decide (a ≤ b)
  | some _, none => true
  | none, some _ => false
  | none, none => true

/-- The selection rule in the words of the specification (section 4.2, step 3): `NONE` when
the three buffers are exhausted; else `INDEL` when the indel head exists and is `<=` both
other heads; else `NONVARIANT_INDEL` when that head exists and is `<=` the site head; else
`SITE`. -/
def selectionRule (indelHead nonvariantHead siteHead : Option Int) : VARQUEUE.index_t :=
  if indelHead.isNone && nonvariantHead.isNone && siteHead.isNone then VARQUEUE.index_t.NONE
  else if indelHead.isSome && leInf indelHead nonvariantHead && leInf indelHead siteHead then
    VARQUEUE.index_t.INDEL
  else if nonvariantHead.isSome && leInf nonvariantHead siteHead then
    VARQUEUE.index_t.NONVARIANT_INDEL
  else VARQUEUE.index_t.SITE

/-- A scoring model that sets one more filter flag on the site it classifies. -/
def flaggingCollaborators : Collaborators :=
  { classify_site := fun s => .ok { s with filters := insert (index_t.Other 0) s.filters },
    sink_process := fun _ _ => none }

/-- An unfiltered variant indel over `[10,15)`. -/
def c7Indel : GermlineIndelLocusInfo :=
  { ptr := 1, pos := 10, end_ := 15, isVariantLocus := true, isAnyForcedOutputAtLocus := false,
    filters := ∅, samples := [{ filters := ∅, gqx := 30 }], anyVariantAlleleQuality := 40 }

/-- An unfiltered site at 12. -/
def c7Site : GermlineDiploidSiteLocusInfo :=
  { ptr := 2, pos := 12, filters := ∅, samples := [{ filters := ∅, gqx := 50 }],
    anyVariantAlleleQuality := 60, evsFeatures := [7] }

/-- The indel `c7Indel` with a filter on its only sample and none at locus level. -/
def c7SampleFilteredIndel : GermlineIndelLocusInfo :=
  { c7Indel with samples := [{ filters := {index_t.Other 3}, gqx := 30 }] }

/-- The site `modify_indel_overlap_site` hands to the classifier for `c7SampleFilteredIndel`
and `c7Site`. -/
def c7Handed : GermlineDiploidSiteLocusInfo :=
  { ptr := 2, pos := 12, filters := ∅, samples := [{ filters := {index_t.SiteConflict}, gqx := 30 }],
    anyVariantAlleleQuality := 40, evsFeatures := [] }

/-! ## The merged order of the specification -/

/-- Hand the records of a list to the sink, one call after the other, up to the first call
that raises. -/
def sinkAll (env : Collaborators) : List Locus → List Event → Outcome (List Event)
  | [], events => .ok events
  | locus :: rest, events =>
    match sink_call env locus events with
    | .ok events' => sinkAll env rest events'
    | other => other

/-- The emission order in the words of the specification (section 4.2, step 3): at each
step the selection rule is evaluated on the heads of what is left of the three buffers;
`INDEL` emits the indel head and, outside conflict mode, skips the remainder of the indel
buffer; `NONVARIANT_INDEL` and `SITE` emit their head and advance by one; `NONE` ends.
The first argument bounds the number of steps. -/
def mergedOrderAux (is_conflict : Bool) :
    Nat → List GermlineIndelLocusInfo → List GermlineIndelLocusInfo →
    List GermlineDiploidSiteLocusInfo → List Locus
  | 0, _, _, _ => []
  | fuel + 1, indels, nonvariants, sites =>
    match selectionRule (indels.head?.map GermlineIndelLocusInfo.pos)
        (nonvariants.head?.map GermlineIndelLocusInfo.pos)
        (sites.head?.map GermlineDiploidSiteLocusInfo.pos) with
    | VARQUEUE.index_t.NONE => []
    | VARQUEUE.index_t.INDEL =>
      match indels.head? with
      | none => []
      | some a =>
        Locus.indel a ::
          mergedOrderAux is_conflict fuel (if is_conflict then indels.tail else [])
            nonvariants sites
    | VARQUEUE.index_t.NONVARIANT_INDEL =>
      match nonvariants.head? with
      | none => []
      | some b =>
        Locus.indel b :: mergedOrderAux is_conflict fuel indels nonvariants.tail sites
    | VARQUEUE.index_t.SITE =>
      match sites.head? with
      | none => []
      | some c =>
        Locus.site c :: mergedOrderAux is_conflict fuel indels nonvariants sites.tail

/-- The emission order of the specification for three whole buffers. -/
def mergedOrder (is_conflict : Bool) (indels nonvariants : List GermlineIndelLocusInfo)
    (sites : List GermlineDiploidSiteLocusInfo) : List Locus :=
  mergedOrderAux is_conflict (indels.length + nonvariants.length + sites.length + 1)
    indels nonvariants sites

/-- The indel buffer as the emission loop sees it: every record tagged `IndelConflict` when
the buffer holds more than one, the buffer as it is otherwise (lines 225-233). -/
def conflictMarked (indel_buffer : List GermlineIndelLocusInfo) : List GermlineIndelLocusInfo :=
  if indel_buffer.length > 1 then indel_buffer.map setIndelConflict else indel_buffer

/-- How `modify_overlapping_site` turns a buffered site `s` into `s'` when it returns:
tagged `IndelConflict` under a conflicting indel, else merged and then classified. -/
def SiteResolved (env : Collaborators) (front : GermlineIndelLocusInfo)
    (s s' : GermlineDiploidSiteLocusInfo) : Prop :=
  (index_t.IndelConflict ∈ front.filters ∧ s' = modify_indel_conflict_site s) ∨
  (index_t.IndelConflict ∉ front.filters ∧
    ∃ merged, overlapSiteMerge front s = some merged ∧ env.classify_site merged = .ok s')

/-- A scoring model that raises exception `7` on every site. -/
def raisingCollaborators : Collaborators :=
  { classify_site := fun _ => .error 7, sink_process := fun _ _ => none }

/-- The site `c7Site` after the merge with `c7Indel`, as handed to the classifier. -/
def c7Merged : GermlineDiploidSiteLocusInfo :=
  { ptr := 2, pos := 12, filters := ∅, samples := [{ filters := ∅, gqx := 30 }],
    anyVariantAlleleQuality := 40, evsFeatures := [] }

/-- An overlapper that buffers the indel `c7Indel` over `[10,15)` and the site `c7Site`. -/
def c9State : indel_overlapper :=
  { _indel_end_pos := 15, _indel_buffer := [c7Indel], _nonvariant_indel_buffer := [],
    _site_buffer := [c7Site], events := [] }

/-- The state of `c9State` at the moment the classifier raises in a resolve cycle. -/
def c9Mid : indel_overlapper :=
  { _indel_end_pos := 15, _indel_buffer := [c7Indel], _nonvariant_indel_buffer := [],
    _site_buffer := [c7Merged], events := [Event.classify c7Merged] }

/-- A site at position 20, behind the span of `c7Indel`. -/
def c10Site : GermlineDiploidSiteLocusInfo :=
  { ptr := 3, pos := 20, filters := ∅, samples := [{ filters := ∅, gqx := 45 }],
    anyVariantAlleleQuality := 55, evsFeatures := [] }

/-- The state `c9State` after `c10Site` was submitted, with collaborators that never
raise. -/
def c10After : indel_overlapper :=
  { _indel_end_pos := 0, _indel_buffer := [], _nonvariant_indel_buffer := [],
    _site_buffer := [],
    events := [Event.classify c7Merged, Event.sink (Locus.indel c7Indel),
               Event.sink (Locus.site c7Merged), Event.sink (Locus.site c10Site)] }

/-- A second variant indel at position 10, over `[10,13)`. -/
def c8Indel : GermlineIndelLocusInfo :=
  { ptr := 4, pos := 10, end_ := 13, isVariantLocus := true, isAnyForcedOutputAtLocus := false,
    filters := ∅, samples := [{ filters := ∅, gqx := 20 }], anyVariantAlleleQuality := 35 }

/-- A site at position 10 with a filtered sample. -/
def c8Site : GermlineDiploidSiteLocusInfo :=
  { ptr := 5, pos := 10, filters := {index_t.Other 1},
    samples := [{ filters := {index_t.Other 2}, gqx := 50 }],
    anyVariantAlleleQuality := 60, evsFeatures := [7] }

/-- The overlapper after `c7Indel`, `c8Site` and `c8Indel` were submitted in this order. -/
def c8State : indel_overlapper :=
  { _indel_end_pos := 15, _indel_buffer := [c7Indel, c8Indel], _nonvariant_indel_buffer := [],
    _site_buffer := [c8Site], events := [] }

/-- The numeric part of the merge of a site `s` with an indel, as claimed for the value `m`
handed to the classifier: the quality is the minimum of the two qualities, and for every
sample index of the site the `gqx` is the minimum of the two `gqx` at that index. -/
def NumericallyMerged (indelLocus : GermlineIndelLocusInfo)
    (s m : GermlineDiploidSiteLocusInfo) : Prop :=
  m.anyVariantAlleleQuality
    = min s.anyVariantAlleleQuality indelLocus.anyVariantAlleleQuality ∧
  m.samples.length = s.samples.length ∧
  ∀ (i : Nat) (siteSample : LocusSampleInfo), s.samples[i]? = some siteSample →
    ∃ indelSample mergedSample,
      indelLocus.samples[i]? = some indelSample ∧ m.samples[i]? = some mergedSample ∧
      mergedSample.gqx = min siteSample.gqx indelSample.gqx

/-- A variant indel at position 100, over `[100,105)`. -/
def c3Indel : GermlineIndelLocusInfo :=
  { ptr := 1, pos := 100, end_ := 105, isVariantLocus := true, isAnyForcedOutputAtLocus := false,
    filters := ∅, samples := [], anyVariantAlleleQuality := 40 }

/-- A forced-output non-variant indel at position 100. -/
def c3NonVariant : GermlineIndelLocusInfo :=
  { ptr := 2, pos := 100, end_ := 101, isVariantLocus := false, isAnyForcedOutputAtLocus := true,
    filters := ∅, samples := [], anyVariantAlleleQuality := 0 }

/-- A site at position 100. -/
def c3Site : GermlineDiploidSiteLocusInfo :=
  { ptr := 3, pos := 100, filters := ∅, samples := [], anyVariantAlleleQuality := 30,
    evsFeatures := [] }

/-- The classifier leaves the position of the site it classifies as it is. -/
def ClassifierKeepsPos (env : Collaborators) : Prop :=
  ∀ a b : GermlineDiploidSiteLocusInfo, env.classify_site a = .ok b → b.pos = a.pos

/-- The classifier returns the object it was given. -/
def ClassifierKeepsPtr (env : Collaborators) : Prop :=
  ∀ a b : GermlineDiploidSiteLocusInfo, env.classify_site a = .ok b → b.ptr = a.ptr

/-- The state after the run of `c3Indel`, `c3Site`, `c3NonVariant`, in this order, with
collaborators that never raise. -/
def c3After : indel_overlapper :=
  { _indel_end_pos := 0, _indel_buffer := [], _nonvariant_indel_buffer := [],
    _site_buffer := [],
    events := [Event.classify c3Site, Event.sink (Locus.indel c3Indel),
               Event.sink (Locus.indel c3NonVariant), Event.sink (Locus.site c3Site)] }

/-- The records held by an overlapper, in its buffers. -/
def buffered (ov : indel_overlapper) : List Locus :=
  ov._indel_buffer.map Locus.indel ++ ov._nonvariant_indel_buffer.map Locus.indel ++
    ov._site_buffer.map Locus.site

/-- A submission that `process` does not discard: every site, and every indel that is a
variant locus or has forced output. -/
def Submission.kept : Submission → Bool
  | .site _ => true
  | .indel i => i.isVariantLocus || i.isAnyForcedOutputAtLocus

/-- The site submissions of a run have non-negative positions. -/
def SitesNonNegative (subs : List Submission) : Prop :=
  ∀ s : GermlineDiploidSiteLocusInfo, Submission.site s ∈ subs → 0 ≤ s.pos

/-- Kind (site on the left, indel on the right) and object identity of a record handed to
the sink. -/
def Locus.ident : Locus → Nat ⊕ Nat
  | .site s => Sum.inl s.ptr
  | .indel i => Sum.inr i.ptr

/-- Kind and object identity of a submitted record. -/
def Submission.ident : Submission → Nat ⊕ Nat
  | .site s => Sum.inl s.ptr
  | .indel i => Sum.inr i.ptr

/-- Two facts that hold of the buffers whenever the submitted sites have non-negative
positions: `_indel_end_pos` is `0` while the indel buffer is empty, and a site is buffered
only under a buffered variant indel. -/
def BuffersConsistent (ov : indel_overlapper) : Prop :=
  (ov._indel_buffer = [] → ov._indel_end_pos = 0) ∧
  (ov._site_buffer ≠ [] → ov._indel_buffer ≠ [])

/-- A site at position `-1`. -/
def c2Site : GermlineDiploidSiteLocusInfo :=
  { ptr := 1, pos := -1, filters := ∅, samples := [], anyVariantAlleleQuality := 30,
    evsFeatures := [] }

/-- A non-variant indel at position 13 without forced output. -/
def c2Discarded : GermlineIndelLocusInfo :=
  { ptr := 6, pos := 13, end_ := 14, isVariantLocus := false, isAnyForcedOutputAtLocus := false,
    filters := ∅, samples := [], anyVariantAlleleQuality := 0 }

/-- A run: the indel over `[10,15)`, the site at 12, the discarded non-variant indel, the
site at 20. -/
def c2Run : List Submission :=
  [Submission.indel c7Indel, Submission.site c7Site, Submission.indel c2Discarded,
   Submission.site c10Site]

/-- Everything an overlapper has handed to the sink or still buffers. -/
def held (ov : indel_overlapper) : List Locus :=
  sunk ov.events ++ buffered ov

/-- The records handed to the sink are in non-decreasing position order, so is each buffer,
and no buffered record lies before a record already handed to the sink. -/
def Ordered (ov : indel_overlapper) : Prop :=
  (sunk ov.events).Pairwise (fun a b => a.pos ≤ b.pos) ∧
  ov._indel_buffer.Pairwise (fun a b => a.pos ≤ b.pos) ∧
  ov._nonvariant_indel_buffer.Pairwise (fun a b => a.pos ≤ b.pos) ∧
  ov._site_buffer.Pairwise (fun a b => a.pos ≤ b.pos) ∧
  (∀ a ∈ sunk ov.events, ∀ b ∈ buffered ov, a.pos ≤ b.pos)

/-- A site at position 10. -/
def c1Site : GermlineDiploidSiteLocusInfo :=
  { ptr := 1, pos := 10, filters := ∅, samples := [], anyVariantAlleleQuality := 30,
    evsFeatures := [] }

/-- A variant indel at position 5, over `[5,8)`. -/
def c1Indel : GermlineIndelLocusInfo :=
  { ptr := 2, pos := 5, end_ := 8, isVariantLocus := true, isAnyForcedOutputAtLocus := false,
    filters := ∅, samples := [], anyVariantAlleleQuality := 40 }

/-- The state after the run of `c1Site` then `c1Indel`. -/
def c1After : indel_overlapper :=
  { _indel_end_pos := 0, _indel_buffer := [], _nonvariant_indel_buffer := [],
    _site_buffer := [],
    events := [Event.sink (Locus.site c1Site), Event.sink (Locus.indel c1Indel)] }

/-- The two overlapping indels `a` then `b` are either both still in the indel buffer, in
this order, or were both handed to the sink, tagged `IndelConflict`, as two records. -/
def PairPending (a b : GermlineIndelLocusInfo) (ov : indel_overlapper) : Prop :=
  List.Sublist [a, b] ov._indel_buffer ∨
  List.Sublist [Locus.indel (setIndelConflict a), Locus.indel (setIndelConflict b)]
    (sunk ov.events)

/-- The state after the run of `c7Indel`, `c8Site`, `c8Indel` and the final
`process_overlaps`. -/
def c5After : indel_overlapper :=
  { _indel_end_pos := 0, _indel_buffer := [], _nonvariant_indel_buffer := [],
    _site_buffer := [],
    events := [Event.sink (Locus.indel (setIndelConflict c7Indel)),
               Event.sink (Locus.indel (setIndelConflict c8Indel)),
               Event.sink (Locus.site (modify_indel_conflict_site c8Site))] }

/-- A run in one position order across all kinds that begins with a site at position `-5`:
sites at `-5` and `7`, variant indels over `[8,12)` and `[9,12)`, a site at `13`. -/
def c1NegativeRun : List Submission :=
  [Submission.site { c1Site with ptr := 1, pos := -5 },
   Submission.site { c1Site with ptr := 2, pos := 7 },
   Submission.indel { c1Indel with ptr := 3, pos := 8, end_ := 12 },
   Submission.indel { c1Indel with ptr := 4, pos := 9, end_ := 12 },
   Submission.site { c1Site with ptr := 5, pos := 13 }]

/-- A variant indel at position 100 with `end = pos` (an insertion). -/
def c3Insertion : GermlineIndelLocusInfo :=
  { c3Indel with end_ := 100 }

/-- A non-variant indel at position 30 without forced output. -/
def c11Indel : GermlineIndelLocusInfo :=
  { ptr := 7, pos := 30, end_ := 31, isVariantLocus := false, isAnyForcedOutputAtLocus := false,
    filters := ∅, samples := [], anyVariantAlleleQuality := 0 }

/-- The slots the emission loop moves to the sink, in order, each as the buffer it belongs
to and its index: the loop of lines 255-291 followed through its index updates alone (a
sink that accepts every record). The first argument bounds the number of iterations. -/
def slotTrace (is_conflict : Bool)
    (indel_buffer nonvariant_indel_buffer : List GermlineIndelLocusInfo)
    (site_buffer : List GermlineDiploidSiteLocusInfo) :
    Nat → Nat → Nat → Nat → List (VARQUEUE.index_t × Nat)
  | 0, _, _, _ => []
  | fuel + 1, indel_index, nonvariant_indel_index, site_index =>
    match nextVariantType indel_buffer nonvariant_indel_buffer site_buffer
        indel_index nonvariant_indel_index site_index with
    | VARQUEUE.index_t.NONE => []
    | VARQUEUE.index_t.INDEL =>
      (VARQUEUE.index_t.INDEL, indel_index) ::
        slotTrace is_conflict indel_buffer nonvariant_indel_buffer site_buffer fuel
          (if is_conflict then indel_index + 1 else indel_buffer.length)
          nonvariant_indel_index site_index
    | VARQUEUE.index_t.NONVARIANT_INDEL =>
      (VARQUEUE.index_t.NONVARIANT_INDEL, nonvariant_indel_index) ::
        slotTrace is_conflict indel_buffer nonvariant_indel_buffer site_buffer fuel
          indel_index (nonvariant_indel_index + 1) site_index
    | VARQUEUE.index_t.SITE =>
      (VARQUEUE.index_t.SITE, site_index) ::
        slotTrace is_conflict indel_buffer nonvariant_indel_buffer site_buffer fuel
          indel_index nonvariant_indel_index (site_index + 1)

/-- The record in a slot, if the slot exists. -/
def slotRecord (indel_buffer nonvariant_indel_buffer : List GermlineIndelLocusInfo)
    (site_buffer : List GermlineDiploidSiteLocusInfo) :
    VARQUEUE.index_t × Nat → Option Locus
  | (VARQUEUE.index_t.INDEL, j) => (indel_buffer[j]?).map Locus.indel
  | (VARQUEUE.index_t.NONVARIANT_INDEL, j) => (nonvariant_indel_buffer[j]?).map Locus.indel
  | (VARQUEUE.index_t.SITE, j) => (site_buffer[j]?).map Locus.site
  | (VARQUEUE.index_t.NONE, _) => none

/-- The current index of the buffer a slot belongs to. -/
def bufferIndex (indel_index nonvariant_indel_index site_index : Nat) : VARQUEUE.index_t → Nat
  | VARQUEUE.index_t.INDEL => indel_index
  | VARQUEUE.index_t.NONVARIANT_INDEL => nonvariant_indel_index
  | VARQUEUE.index_t.SITE => site_index
  | VARQUEUE.index_t.NONE => 0

/-- The size of the buffer a slot belongs to. -/
def bufferSize (indel_buffer nonvariant_indel_buffer : List GermlineIndelLocusInfo)
    (site_buffer : List GermlineDiploidSiteLocusInfo) : VARQUEUE.index_t → Nat
  | VARQUEUE.index_t.INDEL => indel_buffer.length
  | VARQUEUE.index_t.NONVARIANT_INDEL => nonvariant_indel_buffer.length
  | VARQUEUE.index_t.SITE => site_buffer.length
  | VARQUEUE.index_t.NONE => 0

/-- A sequence of calls made on an overlapper, in any order: `process` for a site or an
indel, and `process_overlaps`, each of which returned or let an exception escape.
`Calls env ov xs ov'` says that such a sequence leads from the state `ov` to the state
`ov'`, the records submitted on the way being `xs`, in order. A call that ends the run
(failed assertion) leads nowhere. -/
inductive Calls (env : Collaborators) :
    indel_overlapper → List Submission → indel_overlapper → Prop where
  | start (ov : indel_overlapper) : Calls env ov [] ov
  | submit_ok {ov ov1 ov2 : indel_overlapper} {xs : List Submission} (x : Submission)
      (h : Calls env ov xs ov1) (hx : submit env ov1 x = .ok ov2) :
      Calls env ov (xs ++ [x]) ov2
  | submit_threw {ov ov1 ov2 : indel_overlapper} {xs : List Submission} (x : Submission)
      (e : Exception) (h : Calls env ov xs ov1) (hx : submit env ov1 x = .threw e ov2) :
      Calls env ov (xs ++ [x]) ov2
  | flush_ok {ov ov1 ov2 : indel_overlapper} {xs : List Submission}
      (h : Calls env ov xs ov1) (hx : process_overlaps env ov1 = .ok ov2) :
      Calls env ov xs ov2
  | flush_threw {ov ov1 ov2 : indel_overlapper} {xs : List Submission}
      (e : Exception) (h : Calls env ov xs ov1) (hx : process_overlaps env ov1 = .threw e ov2) :
      Calls env ov xs ov2

/-- The value line 79 computes over a whole indel buffer: `std::max` folded over the
`end()` of the records, from the initial `0` of `_indel_end_pos`. -/
def maxEnd (indel_buffer : List GermlineIndelLocusInfo) : Int :=
  indel_buffer.foldl (fun m indelLocus => max m indelLocus.end_) 0

/-- Every record of an indel buffer other than the first starts at or before the largest
`end()` of the records before it (or at or before `0`). -/
def Chained (indel_buffer : List GermlineIndelLocusInfo) : Prop :=
  ∀ (earlier later : List GermlineIndelLocusInfo) (x : GermlineIndelLocusInfo),
    indel_buffer = earlier ++ x :: later → earlier ≠ [] → x.pos ≤ maxEnd earlier

/-- A site at position `-5`. -/
def c12Site : GermlineDiploidSiteLocusInfo :=
  { ptr := 1, pos := -5, filters := ∅, samples := [], anyVariantAlleleQuality := 30,
    evsFeatures := [] }

/-- A forced-output non-variant indel at position 3. -/
def c12NonVariant : GermlineIndelLocusInfo :=
  { ptr := 2, pos := 3, end_ := 4, isVariantLocus := false, isAnyForcedOutputAtLocus := true,
    filters := ∅, samples := [], anyVariantAlleleQuality := 0 }

/-- The empty overlapper after the site `c12Site` was submitted. -/
def c12After : indel_overlapper :=
  { _indel_end_pos := 0, _indel_buffer := [], _nonvariant_indel_buffer := [],
    _site_buffer := [c12Site], events := [] }

/-- A variant indel over `[15,20)`, which starts where `c7Indel` ends. -/
def c13Indel : GermlineIndelLocusInfo :=
  { ptr := 8, pos := 15, end_ := 20, isVariantLocus := true, isAnyForcedOutputAtLocus := false,
    filters := ∅, samples := [{ filters := ∅, gqx := 25 }], anyVariantAlleleQuality := 45 }

/-- The empty overlapper after `c7Indel` and `c13Indel` were submitted. -/
def c13After : indel_overlapper :=
  { _indel_end_pos := 20, _indel_buffer := [c7Indel, c13Indel], _nonvariant_indel_buffer := [],
    _site_buffer := [], events := [] }

/-- A variant indel over `[-5,-3)`. -/
def c14Indel : GermlineIndelLocusInfo :=
  { ptr := 9, pos := -5, end_ := -3, isVariantLocus := true, isAnyForcedOutputAtLocus := false,
    filters := ∅, samples := [], anyVariantAlleleQuality := 40 }

/-- The empty overlapper after `c14Indel` was submitted. -/
def c14After : indel_overlapper :=
  { _indel_end_pos := 0, _indel_buffer := [c14Indel], _nonvariant_indel_buffer := [],
    _site_buffer := [], events := [] }

/-- The empty overlapper after `c7Indel` was submitted. -/
def c13Mid : indel_overlapper :=
  { _indel_end_pos := 15, _indel_buffer := [c7Indel], _nonvariant_indel_buffer := [],
    _site_buffer := [], events := [] }

/-- Every buffered site lies at or behind the first buffered variant indel: the offset
`siteLocus.pos - indelLocus.pos` of line 350 is non-negative for each of them. -/
def FrontBeforeSites (ov : indel_overlapper) : Prop :=
  ∀ front, ov._indel_buffer.head? = some front → ∀ s ∈ ov._site_buffer, front.pos ≤ s.pos

/-- Every buffered site has at most `sampleCount` samples and every buffered variant indel
at least `sampleCount`, so that `getSample(sampleIndex)` of the indel exists for every
sample index of a site. -/
def SamplesWithin (sampleCount : Nat) (ov : indel_overlapper) : Prop :=
  (∀ s ∈ ov._site_buffer, s.samples.length ≤ sampleCount) ∧
  (∀ i ∈ ov._indel_buffer, sampleCount ≤ i.samples.length)

/-- A run in one position order across all kinds that begins with a site at position `-3`:
sites at `-3` and `2`, variant indels over `[4,9)` and `[5,9)`. -/
def c16Run : List Submission :=
  [Submission.site { c1Site with ptr := 1, pos := -3 },
   Submission.site { c1Site with ptr := 2, pos := 2 },
   Submission.indel { c1Indel with ptr := 3, pos := 4, end_ := 9 },
   Submission.indel { c1Indel with ptr := 4, pos := 5, end_ := 9 }]

/-- The run of `c3Indel`, `c3Site` and `c3NonVariant`, all at position 100. -/
def c16Sorted : List Submission :=
  [Submission.indel c3Indel, Submission.site c3Site, Submission.indel c3NonVariant]

/-- A run in one position order: the indel over `[10,15)`, the site at 12, the site at 20,
each record with one sample. -/
def c17Run : List Submission :=
  [Submission.indel c7Indel, Submission.site c7Site, Submission.site c10Site]

/-! # Theorems -/

theorem headPos_of_lt {α : Type} (pos : α → Int) (buffer : List α) (index : Nat)
    (h : index < buffer.length) : headPos pos buffer index = some (pos buffer[index]) := by
  simp [headPos, List.getElem?_eq_getElem h]

theorem headPos_of_not_lt {α : Type} (pos : α → Int) (buffer : List α) (index : Nat)
    (h : ¬ index < buffer.length) : headPos pos buffer index = none := by
  simp [headPos, List.getElem?_eq_none (Nat.le_of_not_lt h)]

/-- The three comparisons of `nextVariantType` amount to the selection rule on the heads. -/
theorem nextVariantType_eq_rule
    (indel_buffer nonvariant_indel_buffer : List GermlineIndelLocusInfo)
    (site_buffer : List GermlineDiploidSiteLocusInfo)
    (indel_index nonvariant_indel_index site_index : Nat) :
    nextVariantType indel_buffer nonvariant_indel_buffer site_buffer
        indel_index nonvariant_indel_index site_index
      = selectionRule (headPos GermlineIndelLocusInfo.pos indel_buffer indel_index)
          (headPos GermlineIndelLocusInfo.pos nonvariant_indel_buffer nonvariant_indel_index)
          (headPos GermlineDiploidSiteLocusInfo.pos site_buffer site_index) := by
  unfold nextVariantType selectionRule
  by_cases hi : indel_index < indel_buffer.length <;>
  by_cases hn : nonvariant_indel_index < nonvariant_indel_buffer.length <;>
  by_cases hs : site_index < site_buffer.length <;>
  simp only [headPos_of_lt, headPos_of_not_lt, hi, hn, hs, not_false_eq_true] <;>
  simp [leInf] <;>
  split_ifs <;>
  first
  | rfl
  | omega

/-- C4: `nextVariantType` computes the selection rule of the specification on the three
current heads (an exhausted buffer counting as `+infinity`), for all buffers and indices;
in particular, on equal positions the indel is chosen before both others and the
non-variant indel before the site. -/
theorem nextVariantType_refines_selectionRule
    (indel_buffer nonvariant_indel_buffer : List GermlineIndelLocusInfo)
    (site_buffer : List GermlineDiploidSiteLocusInfo)
    (indel_index nonvariant_indel_index site_index : Nat) :
    nextVariantType indel_buffer nonvariant_indel_buffer site_buffer
        indel_index nonvariant_indel_index site_index
      = selectionRule (headPos GermlineIndelLocusInfo.pos indel_buffer indel_index)
          (headPos GermlineIndelLocusInfo.pos nonvariant_indel_buffer nonvariant_indel_index)
          (headPos GermlineDiploidSiteLocusInfo.pos site_buffer site_index)
    ∧ (∀ p : Int, selectionRule (some p) (some p) (some p) = VARQUEUE.index_t.INDEL
        ∧ selectionRule (some p) (some p) none = VARQUEUE.index_t.INDEL
        ∧ selectionRule (some p) none (some p) = VARQUEUE.index_t.INDEL
        ∧ selectionRule none (some p) (some p) = VARQUEUE.index_t.NONVARIANT_INDEL) :=
  ⟨nextVariantType_eq_rule _ _ _ _ _ _, fun p => by simp [selectionRule, leInf]⟩

theorem forEachSample_spec (indelLocus : GermlineIndelLocusInfo)
    (body : LocusSampleInfo → LocusSampleInfo → LocusSampleInfo) :
    ∀ (samples : List LocusSampleInfo) (start : Nat) (out : List LocusSampleInfo),
      forEachSample indelLocus body samples start = some out →
      out.length = samples.length ∧
      ∀ (i : Nat) (s : LocusSampleInfo), samples[i]? = some s →
        ∃ indelSampleInfo, indelLocus.samples[start + i]? = some indelSampleInfo ∧
          out[i]? = some (body indelSampleInfo s) := by
  intro samples
  induction samples with
  | nil =>
    intro start out h
    simp [forEachSample] at h
    subst h
    simp
  | cons s0 rest ih =>
    intro start out h
    unfold forEachSample at h
    cases hI : indelLocus.samples[start]? with
    | none => simp [hI] at h
    | some isi =>
      cases hR : forEachSample indelLocus body rest (start + 1) with
      | none => simp [hI, hR] at h
      | some rest' =>
        simp [hI, hR] at h
        subst h
        obtain ⟨hlen, hget⟩ := ih (start + 1) rest' hR
        refine ⟨by simp [hlen], ?_⟩
        intro i s hs
        cases i with
        | zero =>
          simp at hs
          subst hs
          exact ⟨isi, by simpa using hI, by simp⟩
        | succ j =>
          simp at hs
          obtain ⟨x, hx1, hx2⟩ := hget j s hs
          refine ⟨x, ?_, by simpa using hx2⟩
          have : start + (j + 1) = start + 1 + j := by omega
          rw [this]
          exact hx1

/-- What `tagSiteConflict` returns, field by field. -/
theorem tagSiteConflict_spec (indelLocus : GermlineIndelLocusInfo)
    (siteLocus tagged : GermlineDiploidSiteLocusInfo)
    (h : tagSiteConflict indelLocus siteLocus = some tagged) :
    tagged.filters = (if indelLocus.filters = ∅ then siteLocus.filters
                      else insert index_t.SiteConflict siteLocus.filters)
    ∧ tagged.ptr = siteLocus.ptr ∧ tagged.pos = siteLocus.pos
    ∧ tagged.anyVariantAlleleQuality = siteLocus.anyVariantAlleleQuality
    ∧ tagged.evsFeatures = siteLocus.evsFeatures
    ∧ tagged.samples.length = siteLocus.samples.length
    ∧ ∀ (i : Nat) (s : LocusSampleInfo), siteLocus.samples[i]? = some s →
        ∃ indelSampleInfo, indelLocus.samples[i]? = some indelSampleInfo ∧
          tagged.samples[i]? = some (tagSampleBody indelSampleInfo s) := by
  unfold tagSiteConflict at h
  by_cases hf : indelLocus.filters = ∅
  · simp only [hf, ne_eq, not_true_eq_false, if_false] at h
    cases hS : forEachSample indelLocus tagSampleBody siteLocus.samples 0 with
    | none => simp [hS] at h
    | some out =>
      simp [hS] at h
      subst h
      obtain ⟨hlen, hget⟩ := forEachSample_spec indelLocus tagSampleBody _ 0 out hS
      refine ⟨by simp [hf], rfl, rfl, rfl, rfl, hlen, ?_⟩
      intro i s hs
      simpa using hget i s hs
  · simp only [hf, ne_eq, not_false_eq_true, if_true] at h
    cases hS : forEachSample indelLocus tagSampleBody siteLocus.samples 0 with
    | none => simp [hS] at h
    | some out =>
      simp [hS] at h
      subst h
      obtain ⟨hlen, hget⟩ := forEachSample_spec indelLocus tagSampleBody _ 0 out hS
      refine ⟨by simp [hf], rfl, rfl, rfl, rfl, hlen, ?_⟩
      intro i s hs
      simpa using hget i s hs

/-- What `overlapSiteMerge` returns, field by field: the value the classifier is handed. -/
theorem overlapSiteMerge_spec (indelLocus : GermlineIndelLocusInfo)
    (siteLocus merged : GermlineDiploidSiteLocusInfo)
    (h : overlapSiteMerge indelLocus siteLocus = some merged) :
    merged.filters = (if indelLocus.filters = ∅ then siteLocus.filters
                      else insert index_t.SiteConflict siteLocus.filters)
    ∧ merged.ptr = siteLocus.ptr ∧ merged.pos = siteLocus.pos
    ∧ indelLocus.pos ≤ siteLocus.pos
    ∧ merged.anyVariantAlleleQuality
        = min siteLocus.anyVariantAlleleQuality indelLocus.anyVariantAlleleQuality
    ∧ merged.evsFeatures = []
    ∧ merged.samples.length = siteLocus.samples.length
    ∧ ∀ (i : Nat) (s : LocusSampleInfo), siteLocus.samples[i]? = some s →
        ∃ indelSampleInfo, indelLocus.samples[i]? = some indelSampleInfo ∧
          merged.samples[i]? = some (gqxSampleBody indelSampleInfo (tagSampleBody indelSampleInfo s)) := by
  unfold overlapSiteMerge at h
  cases hT : tagSiteConflict indelLocus siteLocus with
  | none => simp [hT] at h
  | some s2 =>
    obtain ⟨hf, hp, hpos, hq, he, hlen, hget⟩ := tagSiteConflict_spec _ _ _ hT
    simp only [hT] at h
    by_cases hoff : s2.pos - indelLocus.pos ≥ 0
    · simp only [hoff, not_true_eq_false, if_false] at h
      cases hS : forEachSample indelLocus gqxSampleBody s2.samples 0 with
      | none => simp [hS] at h
      | some out =>
        simp [hS] at h
        subst h
        obtain ⟨hlen2, hget2⟩ := forEachSample_spec indelLocus gqxSampleBody _ 0 out hS
        refine ⟨by simpa [clearEVSFeatures] using hf, by simpa [clearEVSFeatures] using hp,
          by simpa [clearEVSFeatures] using hpos, by omega,
          by simp [clearEVSFeatures, hq], by simp [clearEVSFeatures],
          by simp [clearEVSFeatures, hlen2, hlen], ?_⟩
        intro i s hs
        obtain ⟨x, hx1, hx2⟩ := hget i s hs
        obtain ⟨y, hy1, hy2⟩ := hget2 i _ hx2
        simp only [Nat.zero_add] at hy1
        rw [hx1] at hy1
        cases hy1
        exact ⟨x, hx1, by simpa [clearEVSFeatures] using hy2⟩
    · simp [hoff] at h

/-- Whenever `modify_indel_overlap_site` gets as far as the classifier, the site it hands
over is `overlapSiteMerge`, and the call is the last entry of the log. -/
theorem modify_indel_overlap_site_handed (model : Collaborators)
    (indelLocus : GermlineIndelLocusInfo) (siteLocus r : GermlineDiploidSiteLocusInfo)
    (events events' : List Event)
    (h : modify_indel_overlap_site model indelLocus siteLocus events = .ok (r, events') ∨
         ∃ e, modify_indel_overlap_site model indelLocus siteLocus events = .threw e (r, events')) :
    ∃ merged, overlapSiteMerge indelLocus siteLocus = some merged ∧
      events' = events ++ [Event.classify merged] ∧
      (model.classify_site merged = .ok r ∨
        ∃ e, model.classify_site merged = .error e ∧ r = merged) := by
  unfold modify_indel_overlap_site at h
  cases hM : overlapSiteMerge indelLocus siteLocus with
  | none => simp [hM] at h
  | some merged =>
    refine ⟨merged, rfl, ?_⟩
    simp only [hM] at h
    cases hC : model.classify_site merged with
    | ok c =>
      simp only [hC] at h
      rcases h with h | ⟨e, h⟩
      · injection h with h
        injection h with h1 h2
        exact ⟨h2.symm, Or.inl (by rw [h1])⟩
      · cases h
    | error e0 =>
      simp only [hC] at h
      rcases h with h | ⟨e, h⟩
      · cases h
      · injection h with _ h
        injection h with h1 h2
        exact ⟨h2.symm, Or.inr ⟨e0, rfl, h1.symm⟩⟩

/-- C7, as stated, fails: the call ends in the classifier, which rewrites the filter set.
Here the indel carries no filter at all, yet after the call the site's locus-level filter
set is not what it was before the call. -/
theorem siteConflict_tagging_counterexample :
    c7Indel.filters = ∅ ∧
    ∃ r events', modify_indel_overlap_site flaggingCollaborators c7Indel c7Site [] = .ok (r, events')
      ∧ r.filters ≠ c7Site.filters := by
  refine ⟨rfl, ?_⟩
  refine ⟨{ c7Site with filters := {index_t.Other 0},
                        samples := [{ filters := ∅, gqx := 30 }],
                        anyVariantAlleleQuality := 40, evsFeatures := [] }, _, rfl, ?_⟩
  decide

/-- C7, amended: whenever `modify_indel_overlap_site` reaches the classifier, the site it
hands to the classifier has as locus-level filter set the previous set plus `SiteConflict`
if the indel's locus-level set is non-empty and the previous set otherwise; and for every
sample index `i` of the site, the indel has a sample `i` and the site's sample-`i` filter
set is the previous one plus `SiteConflict` if the indel's sample-`i` set is non-empty and
the previous one otherwise (the locus level playing no part in it). -/
theorem siteConflict_tagging_before_classifier (model : Collaborators)
    (indelLocus : GermlineIndelLocusInfo) (siteLocus r : GermlineDiploidSiteLocusInfo)
    (events events' : List Event)
    (h : modify_indel_overlap_site model indelLocus siteLocus events = .ok (r, events') ∨
         ∃ e, modify_indel_overlap_site model indelLocus siteLocus events = .threw e (r, events')) :
    ∃ handed, events' = events ++ [Event.classify handed] ∧
      handed.filters = (if indelLocus.filters = ∅ then siteLocus.filters
                        else insert index_t.SiteConflict siteLocus.filters) ∧
      handed.samples.length = siteLocus.samples.length ∧
      ∀ (i : Nat) (s : LocusSampleInfo), siteLocus.samples[i]? = some s →
        ∃ indelSampleInfo handedSample,
          indelLocus.samples[i]? = some indelSampleInfo ∧
          handed.samples[i]? = some handedSample ∧
          handedSample.filters = (if indelSampleInfo.filters = ∅ then s.filters
                                  else insert index_t.SiteConflict s.filters) := by
  obtain ⟨merged, hM, hev, _⟩ := modify_indel_overlap_site_handed model _ _ _ _ _ h
  obtain ⟨hf, _, _, _, _, _, hlen, hget⟩ := overlapSiteMerge_spec _ _ _ hM
  refine ⟨merged, hev, hf, hlen, ?_⟩
  intro i s hs
  obtain ⟨x, hx1, hx2⟩ := hget i s hs
  refine ⟨x, _, hx1, hx2, ?_⟩
  by_cases hx : x.filters = ∅ <;> simp [gqxSampleBody, tagSampleBody, hx]

/-- C7, amended, at a concrete input: a filtered indel sample tags the site sample although
the indel's locus-level filter set is empty. -/
theorem siteConflict_tagging_before_classifier_witness :
    ∃ handed, [Event.classify c7Handed] = [] ++ [Event.classify handed] ∧
      handed.filters = (if c7SampleFilteredIndel.filters = ∅ then c7Site.filters
                        else insert index_t.SiteConflict c7Site.filters) ∧
      handed.samples.length = c7Site.samples.length ∧
      ∀ (i : Nat) (s : LocusSampleInfo), c7Site.samples[i]? = some s →
        ∃ indelSampleInfo handedSample,
          c7SampleFilteredIndel.samples[i]? = some indelSampleInfo ∧
          handed.samples[i]? = some handedSample ∧
          handedSample.filters = (if indelSampleInfo.filters = ∅ then s.filters
                                  else insert index_t.SiteConflict s.filters) :=
  siteConflict_tagging_before_classifier quietCollaborators c7SampleFilteredIndel c7Site
    c7Handed [] [Event.classify c7Handed] (Or.inl rfl)

/-! ## The selection rule picks a present head of least position -/

theorem selectionRule_none (a b c : Option Int)
    (h : selectionRule a b c = VARQUEUE.index_t.NONE) : a = none ∧ b = none ∧ c = none := by
  unfold selectionRule at h
  cases a <;> cases b <;> cases c <;> simp [leInf] at h ⊢
  all_goals try split_ifs at h

theorem selectionRule_indel (a b c : Option Int)
    (h : selectionRule a b c = VARQUEUE.index_t.INDEL) :
    ∃ x, a = some x ∧ (∀ y, b = some y → x ≤ y) ∧ (∀ z, c = some z → x ≤ z) := by
  unfold selectionRule at h
  cases a <;> cases b <;> cases c <;> simp [leInf] at h ⊢
  all_goals try split_ifs at h
  all_goals try simp at h
  all_goals omega

theorem selectionRule_nonvariant (a b c : Option Int)
    (h : selectionRule a b c = VARQUEUE.index_t.NONVARIANT_INDEL) :
    ∃ y, b = some y ∧ (∀ x, a = some x → y ≤ x) ∧ (∀ z, c = some z → y ≤ z) := by
  unfold selectionRule at h
  cases a <;> cases b <;> cases c <;> simp [leInf] at h ⊢
  all_goals try split_ifs at h
  all_goals try simp at h
  all_goals omega

theorem selectionRule_site (a b c : Option Int)
    (h : selectionRule a b c = VARQUEUE.index_t.SITE) :
    ∃ z, c = some z ∧ (∀ x, a = some x → z ≤ x) ∧ (∀ y, b = some y → z ≤ y) := by
  unfold selectionRule at h
  cases a <;> cases b <;> cases c <;> simp [leInf] at h ⊢
  all_goals try split_ifs at h
  all_goals try simp at h
  all_goals omega

/-! ## The emission loop walks the merged order -/

theorem headPos_eq_head_drop {α : Type} (pos : α → Int) (buffer : List α) (index : Nat) :
    ((buffer.drop index).head?).map pos = headPos pos buffer index := by
  simp [headPos]

theorem headPos_some_drop {α : Type} (pos : α → Int) (buffer : List α) (index : Nat) (x : Int)
    (h : headPos pos buffer index = some x) :
    ∃ a, buffer[index]? = some a ∧ pos a = x ∧ index < buffer.length ∧
      buffer.drop index = a :: buffer.drop (index + 1) := by
  unfold headPos at h
  cases hg : buffer[index]? with
  | none => simp [hg] at h
  | some a =>
    simp [hg] at h
    obtain ⟨hlt, ha⟩ := List.getElem?_eq_some.mp hg
    refine ⟨a, rfl, h, hlt, ?_⟩
    rw [List.drop_eq_getElem_cons hlt, ha]

/-- The loop of `process_overlaps_impl`, started anywhere with enough iterations allowed,
hands to the sink what is left of the merged order, record by record, up to the first call
that raises. -/
theorem process_overlaps_loop_eq (env : Collaborators) (is_conflict : Bool)
    (ib nvb : List GermlineIndelLocusInfo) (sb : List GermlineDiploidSiteLocusInfo) :
    ∀ (fuel ii ni si : Nat) (events : List Event),
      (ib.length - ii) + (nvb.length - ni) + (sb.length - si) < fuel →
      process_overlaps_loop env is_conflict ib nvb sb fuel ii ni si events
        = sinkAll env (mergedOrderAux is_conflict fuel (ib.drop ii) (nvb.drop ni) (sb.drop si))
            events := by
  intro fuel
  induction fuel with
  | zero => intro ii ni si events h; omega
  | succ n ih =>
    intro ii ni si events h
    unfold process_overlaps_loop mergedOrderAux
    rw [nextVariantType_eq_rule]
    simp only [headPos_eq_head_drop]
    cases hsel : selectionRule (headPos GermlineIndelLocusInfo.pos ib ii)
        (headPos GermlineIndelLocusInfo.pos nvb ni)
        (headPos GermlineDiploidSiteLocusInfo.pos sb si) with
    | NONE => simp [sinkAll]
    | INDEL =>
      obtain ⟨x, hx, _, _⟩ := selectionRule_indel _ _ _ hsel
      obtain ⟨a, hget, _, hlt, hdrop⟩ := headPos_some_drop _ _ _ _ hx
      simp only [hget, hdrop, sinkAll, List.head?_cons, List.tail_cons]
      cases hcall : sink_call env (Locus.indel a) events with
      | ok events' =>
        simp only []
        cases is_conflict with
        | true =>
          simp only [if_true]
          exact ih (ii + 1) ni si events' (by omega)
        | false =>
          have := ih ib.length ni si events' (by omega)
          simpa using this
      | threw e ev => rfl
      | crashed => rfl
      | outOfFuel => rfl
    | NONVARIANT_INDEL =>
      obtain ⟨x, hx, _, _⟩ := selectionRule_nonvariant _ _ _ hsel
      obtain ⟨a, hget, _, hlt, hdrop⟩ := headPos_some_drop _ _ _ _ hx
      simp only [hget, hdrop, sinkAll, List.head?_cons, List.tail_cons]
      cases hcall : sink_call env (Locus.indel a) events with
      | ok events' => exact ih ii (ni + 1) si events' (by omega)
      | threw e ev => rfl
      | crashed => rfl
      | outOfFuel => rfl
    | SITE =>
      obtain ⟨x, hx, _, _⟩ := selectionRule_site _ _ _ hsel
      obtain ⟨a, hget, _, hlt, hdrop⟩ := headPos_some_drop _ _ _ _ hx
      simp only [hget, hdrop, sinkAll, List.head?_cons, List.tail_cons]
      cases hcall : sink_call env (Locus.site a) events with
      | ok events' => exact ih ii ni (si + 1) events' (by omega)
      | threw e ev => rfl
      | crashed => rfl
      | outOfFuel => rfl

/-! ## Properties of the merged order -/

theorem head?_map_eq_some {α : Type} (pos : α → Int) (l : List α) (x : Int)
    (h : l.head?.map pos = some x) : ∃ a rest, l = a :: rest ∧ pos a = x := by
  cases l with
  | nil => simp at h
  | cons a rest => exact ⟨a, rest, rfl, by simpa using h⟩

theorem pairwise_head_le {α : Type} (pos : α → Int) (l : List α)
    (hs : l.Pairwise (fun a b => pos a ≤ pos b)) (x : Int)
    (hx : ∀ z, l.head?.map pos = some z → x ≤ z) : ∀ y ∈ l, x ≤ pos y := by
  cases l with
  | nil => intro y hy; simp at hy
  | cons a rest =>
    intro y hy
    have ha : x ≤ pos a := hx (pos a) (by simp)
    rcases List.mem_cons.mp hy with rfl | hmem
    · exact ha
    · exact le_trans ha ((List.pairwise_cons.mp hs).1 y hmem)

/-- Every record of the merged order comes from one of the three buffers. -/
theorem mergedOrderAux_mem (c : Bool) :
    ∀ (fuel : Nat) (ib nvb : List GermlineIndelLocusInfo) (sb : List GermlineDiploidSiteLocusInfo)
      (x : Locus), x ∈ mergedOrderAux c fuel ib nvb sb →
      (∃ a ∈ ib, x = Locus.indel a) ∨ (∃ b ∈ nvb, x = Locus.indel b) ∨
        (∃ s ∈ sb, x = Locus.site s) := by
  intro fuel
  induction fuel with
  | zero => intro ib nvb sb x h; simp [mergedOrderAux] at h
  | succ n ih =>
    intro ib nvb sb x h
    unfold mergedOrderAux at h
    cases hsel : selectionRule (ib.head?.map GermlineIndelLocusInfo.pos)
        (nvb.head?.map GermlineIndelLocusInfo.pos)
        (sb.head?.map GermlineDiploidSiteLocusInfo.pos) with
    | NONE => simp [hsel] at h
    | INDEL =>
      rw [hsel] at h
      obtain ⟨p, hp, _, _⟩ := selectionRule_indel _ _ _ hsel
      obtain ⟨a, rest, rfl, _⟩ := head?_map_eq_some _ _ _ hp
      simp only [List.head?_cons, List.tail_cons, List.mem_cons] at h
      rcases h with rfl | h
      · exact Or.inl ⟨a, by simp, rfl⟩
      · rcases ih _ _ _ _ h with ⟨a', ha', rfl⟩ | h2
        · refine Or.inl ⟨a', ?_, rfl⟩
          cases c <;> simp at ha' ⊢
          exact Or.inr ha'
        · exact Or.inr h2
    | NONVARIANT_INDEL =>
      rw [hsel] at h
      obtain ⟨p, hp, _, _⟩ := selectionRule_nonvariant _ _ _ hsel
      obtain ⟨a, rest, rfl, _⟩ := head?_map_eq_some _ _ _ hp
      simp only [List.head?_cons, List.tail_cons, List.mem_cons] at h
      rcases h with rfl | h
      · exact Or.inr (Or.inl ⟨a, by simp, rfl⟩)
      · rcases ih _ _ _ _ h with h1 | ⟨b, hb, rfl⟩ | h3
        · exact Or.inl h1
        · exact Or.inr (Or.inl ⟨b, by simp [hb], rfl⟩)
        · exact Or.inr (Or.inr h3)
    | SITE =>
      rw [hsel] at h
      obtain ⟨p, hp, _, _⟩ := selectionRule_site _ _ _ hsel
      obtain ⟨a, rest, rfl, _⟩ := head?_map_eq_some _ _ _ hp
      simp only [List.head?_cons, List.tail_cons, List.mem_cons] at h
      rcases h with rfl | h
      · exact Or.inr (Or.inr ⟨a, by simp, rfl⟩)
      · rcases ih _ _ _ _ h with h1 | h2 | ⟨s, hs, rfl⟩
        · exact Or.inl h1
        · exact Or.inr (Or.inl h2)
        · exact Or.inr (Or.inr ⟨s, by simp [hs], rfl⟩)

/-- With enough steps allowed, and the indel buffer holding at most one record outside
conflict mode, the merged order is a rearrangement of the three buffers. -/
theorem mergedOrderAux_perm (c : Bool) :
    ∀ (fuel : Nat) (ib nvb : List GermlineIndelLocusInfo) (sb : List GermlineDiploidSiteLocusInfo),
      ib.length + nvb.length + sb.length ≤ fuel → (c = true ∨ ib.length ≤ 1) →
      List.Perm (mergedOrderAux c fuel ib nvb sb)
        (ib.map Locus.indel ++ nvb.map Locus.indel ++ sb.map Locus.site) := by
  intro fuel
  induction fuel with
  | zero =>
    intro ib nvb sb h _
    have h1 : ib = [] := List.length_eq_zero.mp (by omega)
    have h2 : nvb = [] := List.length_eq_zero.mp (by omega)
    have h3 : sb = [] := List.length_eq_zero.mp (by omega)
    subst h1 h2 h3
    simp [mergedOrderAux]
  | succ n ih =>
    intro ib nvb sb h hc
    unfold mergedOrderAux
    cases hsel : selectionRule (ib.head?.map GermlineIndelLocusInfo.pos)
        (nvb.head?.map GermlineIndelLocusInfo.pos)
        (sb.head?.map GermlineDiploidSiteLocusInfo.pos) with
    | NONE =>
      obtain ⟨h1, h2, h3⟩ := selectionRule_none _ _ _ hsel
      cases ib <;> cases nvb <;> cases sb <;> simp at h1 h2 h3 ⊢
    | INDEL =>
      obtain ⟨p, hp, _, _⟩ := selectionRule_indel _ _ _ hsel
      obtain ⟨a, rest, rfl, _⟩ := head?_map_eq_some _ _ _ hp
      simp only [List.head?_cons, List.tail_cons, List.map_cons, List.cons_append]
      refine List.Perm.cons _ ?_
      cases c with
      | true =>
        simp only [if_true]
        exact ih rest nvb sb (by simp only [List.length_cons] at h; omega) (Or.inl rfl)
      | false =>
        have hrest : rest = [] := by
          rcases hc with hc | hc
          · cases hc
          · exact List.length_eq_zero.mp (by simp only [List.length_cons] at hc; omega)
        subst hrest
        simpa using ih [] nvb sb (by simp only [List.length_cons, List.length_nil] at h ⊢; omega) (Or.inr (by simp))
    | NONVARIANT_INDEL =>
      obtain ⟨p, hp, _, _⟩ := selectionRule_nonvariant _ _ _ hsel
      obtain ⟨a, rest, rfl, _⟩ := head?_map_eq_some _ _ _ hp
      simp only [List.head?_cons, List.tail_cons, List.map_cons]
      have := ih ib rest sb (by simp only [List.length_cons] at h; omega) hc
      refine (List.Perm.cons _ this).trans ?_
      simp only [List.append_assoc, List.cons_append]
      exact List.perm_middle.symm
    | SITE =>
      obtain ⟨p, hp, _, _⟩ := selectionRule_site _ _ _ hsel
      obtain ⟨a, rest, rfl, _⟩ := head?_map_eq_some _ _ _ hp
      simp only [List.head?_cons, List.tail_cons, List.map_cons]
      have := ih ib nvb rest (by simp only [List.length_cons] at h; omega) hc
      exact (List.Perm.cons _ this).trans List.perm_middle.symm

/-- The merged order of three buffers, each in non-decreasing position order, is in
non-decreasing position order. -/
theorem mergedOrderAux_sorted (c : Bool) :
    ∀ (fuel : Nat) (ib nvb : List GermlineIndelLocusInfo) (sb : List GermlineDiploidSiteLocusInfo),
      ib.Pairwise (fun a b => a.pos ≤ b.pos) → nvb.Pairwise (fun a b => a.pos ≤ b.pos) →
      sb.Pairwise (fun a b => a.pos ≤ b.pos) →
      (mergedOrderAux c fuel ib nvb sb).Pairwise (fun a b => a.pos ≤ b.pos) := by
  intro fuel
  induction fuel with
  | zero => intro ib nvb sb _ _ _; simp [mergedOrderAux]
  | succ n ih =>
    intro ib nvb sb h1 h2 h3
    unfold mergedOrderAux
    cases hsel : selectionRule (ib.head?.map GermlineIndelLocusInfo.pos)
        (nvb.head?.map GermlineIndelLocusInfo.pos)
        (sb.head?.map GermlineDiploidSiteLocusInfo.pos) with
    | NONE => simp
    | INDEL =>
      obtain ⟨p, hp, hb, hs⟩ := selectionRule_indel _ _ _ hsel
      obtain ⟨a, rest, rfl, rfl⟩ := head?_map_eq_some _ _ _ hp
      simp only [List.head?_cons, List.tail_cons]
      have hrest : (if c = true then rest else []).Pairwise (fun a b => a.pos ≤ b.pos) := by
        cases c
        · simp
        · simpa using (List.pairwise_cons.mp h1).2
      refine List.pairwise_cons.mpr ⟨?_, ih _ _ _ hrest h2 h3⟩
      intro y hy
      rcases mergedOrderAux_mem c n _ _ _ y hy with ⟨a', ha', rfl⟩ | ⟨b, hb', rfl⟩ | ⟨s, hs', rfl⟩
      · have : a' ∈ rest := by
          cases c
          · simp at ha'
          · simpa using ha'
        exact (List.pairwise_cons.mp h1).1 a' this
      · exact pairwise_head_le _ nvb h2 _ hb b hb'
      · exact pairwise_head_le _ sb h3 _ hs s hs'
    | NONVARIANT_INDEL =>
      obtain ⟨p, hp, ha, hs⟩ := selectionRule_nonvariant _ _ _ hsel
      obtain ⟨b0, rest, rfl, rfl⟩ := head?_map_eq_some _ _ _ hp
      simp only [List.head?_cons, List.tail_cons]
      refine List.pairwise_cons.mpr ⟨?_, ih _ _ _ h1 (List.pairwise_cons.mp h2).2 h3⟩
      intro y hy
      rcases mergedOrderAux_mem c n _ _ _ y hy with ⟨a', ha', rfl⟩ | ⟨b, hb', rfl⟩ | ⟨s, hs', rfl⟩
      · exact pairwise_head_le _ ib h1 _ ha a' ha'
      · exact (List.pairwise_cons.mp h2).1 b hb'
      · exact pairwise_head_le _ sb h3 _ hs s hs'
    | SITE =>
      obtain ⟨p, hp, ha, hb⟩ := selectionRule_site _ _ _ hsel
      obtain ⟨s0, rest, rfl, rfl⟩ := head?_map_eq_some _ _ _ hp
      simp only [List.head?_cons, List.tail_cons]
      refine List.pairwise_cons.mpr ⟨?_, ih _ _ _ h1 h2 (List.pairwise_cons.mp h3).2⟩
      intro y hy
      rcases mergedOrderAux_mem c n _ _ _ y hy with ⟨a', ha', rfl⟩ | ⟨b, hb', rfl⟩ | ⟨s, hs', rfl⟩
      · exact pairwise_head_le _ ib h1 _ ha a' ha'
      · exact pairwise_head_le _ nvb h2 _ hb b hb'
      · exact (List.pairwise_cons.mp h3).1 s hs'

/-! ## The event log -/

@[simp] theorem sunk_append (xs ys : List Event) : sunk (xs ++ ys) = sunk xs ++ sunk ys := by
  induction xs with
  | nil => simp [sunk]
  | cons x rest ih => cases x <;> simp [sunk, ih]

@[simp] theorem classified_append (xs ys : List Event) :
    classified (xs ++ ys) = classified xs ++ classified ys := by
  induction xs with
  | nil => simp [classified]
  | cons x rest ih => cases x <;> simp [classified, ih]

@[simp] theorem sunk_map_sink (ls : List Locus) : sunk (ls.map Event.sink) = ls := by
  induction ls with
  | nil => simp [sunk]
  | cons x rest ih => simp [sunk, ih]

@[simp] theorem classified_map_sink (ls : List Locus) : classified (ls.map Event.sink) = [] := by
  induction ls with
  | nil => simp [classified]
  | cons x rest ih => simp [classified, ih]

@[simp] theorem sunk_map_classify (ss : List GermlineDiploidSiteLocusInfo) :
    sunk (ss.map Event.classify) = [] := by
  induction ss with
  | nil => simp [sunk]
  | cons x rest ih => simp [sunk, ih]

@[simp] theorem classified_map_classify (ss : List GermlineDiploidSiteLocusInfo) :
    classified (ss.map Event.classify) = ss := by
  induction ss with
  | nil => simp [classified]
  | cons x rest ih => simp [classified, ih]

@[simp] theorem sunk_take_map_sink (ls : List Locus) (k : Nat) :
    sunk ((ls.map Event.sink).take k) = ls.take k := by
  rw [← List.map_take, sunk_map_sink]

@[simp] theorem classified_take_map_sink (ls : List Locus) (k : Nat) :
    classified ((ls.map Event.sink).take k) = [] := by
  rw [← List.map_take, classified_map_sink]

/-! ## Handing a list of records to the sink -/

theorem sink_call_cases (env : Collaborators) (l : Locus) (events : List Event) :
    sink_call env l events = .ok (events ++ [Event.sink l]) ∨
    ∃ e, sink_call env l events = .threw e (events ++ [Event.sink l]) := by
  unfold sink_call
  cases env.sink_process events l with
  | none => exact Or.inl rfl
  | some e => exact Or.inr ⟨e, rfl⟩

/-- The outcome of `sinkAll`: all records handed over and accepted, or a non-empty initial
part handed over, the last of these calls raising. -/
theorem sinkAll_cases (env : Collaborators) :
    ∀ (ls : List Locus) (events : List Event),
      sinkAll env ls events = .ok (events ++ ls.map Event.sink) ∨
      ∃ e k, k < ls.length ∧
        sinkAll env ls events = .threw e (events ++ (ls.take (k + 1)).map Event.sink) := by
  intro ls
  induction ls with
  | nil => intro events; left; simp [sinkAll]
  | cons l rest ih =>
    intro events
    unfold sinkAll
    rcases sink_call_cases env l events with h | ⟨e, h⟩
    · rw [h]
      rcases ih (events ++ [Event.sink l]) with h2 | ⟨e, k, hk, h2⟩
      · left; simp [h2]
      · right
        exact ⟨e, k + 1, by simp; omega, by simp [h2]⟩
    · right
      exact ⟨e, 0, by simp, by simp [h]⟩

theorem sinkAll_ok (env : Collaborators) (ls : List Locus) (events events' : List Event)
    (h : sinkAll env ls events = .ok events') : events' = events ++ ls.map Event.sink := by
  rcases sinkAll_cases env ls events with h2 | ⟨e, k, _, h2⟩
  · rw [h2] at h; injection h with h; exact h.symm
  · rw [h2] at h; cases h

theorem sinkAll_threw (env : Collaborators) (ls : List Locus) (events events' : List Event)
    (e : Exception) (h : sinkAll env ls events = .threw e events') :
    ∃ k, k < ls.length ∧ events' = events ++ (ls.take (k + 1)).map Event.sink := by
  rcases sinkAll_cases env ls events with h2 | ⟨e2, k, hk, h2⟩
  · rw [h2] at h; cases h
  · rw [h2] at h; injection h with _ h; exact ⟨k, hk, h.symm⟩

theorem sinkAll_ne_crashed (env : Collaborators) (ls : List Locus) (events : List Event) :
    sinkAll env ls events ≠ .crashed ∧ sinkAll env ls events ≠ .outOfFuel := by
  rcases sinkAll_cases env ls events with h2 | ⟨e2, k, hk, h2⟩ <;> rw [h2] <;> simp

/-! ## The site loop of a resolve cycle -/

theorem modify_overlapping_site_ok (env : Collaborators) (front : GermlineIndelLocusInfo)
    (s s' : GermlineDiploidSiteLocusInfo) (ev ev' : List Event)
    (h : modify_overlapping_site env front s ev = .ok (s', ev')) :
    SiteResolved env front s s' ∧
    ((index_t.IndelConflict ∈ front.filters ∧ ev' = ev) ∨
     (index_t.IndelConflict ∉ front.filters ∧
        ∃ merged, overlapSiteMerge front s = some merged ∧ ev' = ev ++ [Event.classify merged])) := by
  unfold modify_overlapping_site at h
  by_cases hc : index_t.IndelConflict ∈ front.filters
  · simp only [hc, if_true] at h
    injection h with h
    injection h with h1 h2
    exact ⟨Or.inl ⟨hc, h1.symm⟩, Or.inl ⟨hc, h2.symm⟩⟩
  · simp only [hc, if_false] at h
    obtain ⟨merged, hM, hev, hcl⟩ := modify_indel_overlap_site_handed env _ _ _ _ _ (Or.inl h)
    have hok : env.classify_site merged = .ok s' := by
      rcases hcl with hcl | ⟨e, hcl, _⟩
      · exact hcl
      · unfold modify_indel_overlap_site at h
        simp [hM, hcl] at h
    exact ⟨Or.inr ⟨hc, merged, hM, hok⟩, Or.inr ⟨hc, merged, hM, hev⟩⟩

theorem modify_overlapping_site_threw (env : Collaborators) (front : GermlineIndelLocusInfo)
    (s s' : GermlineDiploidSiteLocusInfo) (ev ev' : List Event) (e : Exception)
    (h : modify_overlapping_site env front s ev = .threw e (s', ev')) :
    index_t.IndelConflict ∉ front.filters ∧
      ∃ merged, overlapSiteMerge front s = some merged ∧ ev' = ev ++ [Event.classify merged] ∧
        env.classify_site merged = .error e := by
  unfold modify_overlapping_site at h
  by_cases hc : index_t.IndelConflict ∈ front.filters
  · simp [hc] at h
  · simp only [hc, if_false] at h
    obtain ⟨merged, hM, hev, hcl⟩ :=
      modify_indel_overlap_site_handed env _ _ _ _ _ (Or.inr ⟨e, h⟩)
    refine ⟨hc, merged, hM, hev, ?_⟩
    unfold modify_indel_overlap_site at h
    rcases hcl with hcl | ⟨e2, hcl, _⟩
    · simp [hM, hcl] at h
    · simp [hM, hcl] at h
      rw [hcl, h.1]

theorem modify_overlapping_site_ne_outOfFuel (env : Collaborators)
    (front : GermlineIndelLocusInfo) (s : GermlineDiploidSiteLocusInfo) (ev : List Event) :
    modify_overlapping_site env front s ev ≠ .outOfFuel := by
  unfold modify_overlapping_site modify_indel_overlap_site
  split_ifs
  · simp
  · cases overlapSiteMerge front s with
    | none => simp
    | some m =>
      simp only
      split <;> simp

/-- The site loop when it returns: every site is resolved against the first indel, and the
log has grown by one classifier call for each site exactly when that indel does not carry
`IndelConflict`. -/
theorem modify_buffered_sites_ok (env : Collaborators) (ib : List GermlineIndelLocusInfo) :
    ∀ (sb sb' : List GermlineDiploidSiteLocusInfo) (ev ev' : List Event),
      modify_buffered_sites env ib sb ev = .ok (sb', ev') →
      (sb ≠ [] → ib ≠ []) ∧
      (∀ front, ib.head? = some front →
        List.Forall₂ (SiteResolved env front) sb sb' ∧
        ∃ ms, ev' = ev ++ ms.map Event.classify ∧
          (index_t.IndelConflict ∈ front.filters → ms = []) ∧
          (index_t.IndelConflict ∉ front.filters →
            List.Forall₂ (fun s m => overlapSiteMerge front s = some m) sb ms)) ∧
      (sb = [] → sb' = [] ∧ ev' = ev) := by
  intro sb
  induction sb with
  | nil =>
    intro sb' ev ev' h
    simp [modify_buffered_sites] at h
    obtain ⟨rfl, rfl⟩ := h
    refine ⟨by simp, ?_, by simp⟩
    intro front _
    exact ⟨List.Forall₂.nil, [], by simp, by simp, by simp⟩
  | cons s rest ih =>
    intro sb' ev ev' h
    unfold modify_buffered_sites at h
    cases hh : ib.head? with
    | none => simp [hh] at h
    | some front =>
      simp only [hh] at h
      cases h1 : modify_overlapping_site env front s ev with
      | ok r1 =>
        obtain ⟨s1, ev1⟩ := r1
        simp only [h1] at h
        cases h2 : modify_buffered_sites env ib rest ev1 with
        | ok r2 =>
          obtain ⟨rest', ev2⟩ := r2
          simp only [h2] at h
          injection h with h
          injection h with ha hb
          subst ha hb
          obtain ⟨hres, hev⟩ := modify_overlapping_site_ok env front s s1 ev ev1 h1
          obtain ⟨_, ih2, _⟩ := ih rest' ev1 ev2 h2
          obtain ⟨hF, ms, hms, hmc, hmn⟩ := ih2 front hh
          refine ⟨fun _ hnil => by simp [hnil] at hh, ?_, by simp⟩
          intro front' hfront'
          simp only [hh, Option.some.injEq] at hfront'
          subst hfront'
          refine ⟨List.Forall₂.cons hres hF, ?_⟩
          rcases hev with ⟨hc, rfl⟩ | ⟨hc, merged, hM, rfl⟩
          · exact ⟨ms, hms, hmc, fun hn => absurd hc hn⟩
          · refine ⟨merged :: ms, by simp [hms], fun hc' => absurd hc' hc, fun hn => ?_⟩
            exact List.Forall₂.cons hM (hmn hn)
        | threw e r2 => simp [h2] at h
        | crashed => simp [h2] at h
        | outOfFuel => simp [h2] at h
      | threw e r1 => simp [h1] at h
      | crashed => simp [h1] at h
      | outOfFuel => simp [h1] at h

/-- The site loop when an exception escapes it: the first indel carries no `IndelConflict`
and the log has grown by classifier calls on an initial part of the site buffer, the last of
which raised. -/
theorem modify_buffered_sites_threw (env : Collaborators) (ib : List GermlineIndelLocusInfo) :
    ∀ (sb sb' : List GermlineDiploidSiteLocusInfo) (ev ev' : List Event) (e : Exception),
      modify_buffered_sites env ib sb ev = .threw e (sb', ev') →
      ∃ front, ib.head? = some front ∧ index_t.IndelConflict ∉ front.filters ∧
        ∃ ms last, ev' = ev ++ (ms ++ [last]).map Event.classify ∧
          env.classify_site last = .error e ∧
          List.Forall₂ (fun s m => overlapSiteMerge front s = some m)
            (sb.take (ms.length + 1)) (ms ++ [last]) ∧ ms.length < sb.length := by
  intro sb
  induction sb with
  | nil => intro sb' ev ev' e h; simp [modify_buffered_sites] at h
  | cons s rest ih =>
    intro sb' ev ev' e h
    unfold modify_buffered_sites at h
    cases hh : ib.head? with
    | none => simp [hh] at h
    | some front =>
      simp only [hh] at h
      cases h1 : modify_overlapping_site env front s ev with
      | ok r1 =>
        obtain ⟨s1, ev1⟩ := r1
        simp only [h1] at h
        cases h2 : modify_buffered_sites env ib rest ev1 with
        | ok r2 => simp [h2] at h
        | threw e2 r2 =>
          obtain ⟨rest', ev2⟩ := r2
          simp only [h2] at h
          injection h with he h
          injection h with ha hb
          subst he ha hb
          obtain ⟨front', hf', hnc, ms, last, hev, hcl, hF, hlen⟩ := ih rest' ev1 ev2 e2 h2
          simp only [hh, Option.some.injEq] at hf'
          subst hf'
          obtain ⟨_, hev1⟩ := modify_overlapping_site_ok env front s s1 ev ev1 h1
          rcases hev1 with ⟨hc, _⟩ | ⟨_, merged, hM, rfl⟩
          · exact absurd hc hnc
          · refine ⟨front, rfl, hnc, merged :: ms, last, by simp [hev], hcl, ?_, by simp; omega⟩
            simp only [List.length_cons, List.take_succ_cons, List.cons_append]
            exact List.Forall₂.cons hM hF
        | crashed => simp [h2] at h
        | outOfFuel => simp [h2] at h
      | threw e1 r1 =>
        obtain ⟨s1, ev1⟩ := r1
        simp only [h1] at h
        injection h with he h
        injection h with ha hb
        subst he ha hb
        obtain ⟨hnc, merged, hM, hev, hcl⟩ := modify_overlapping_site_threw env front s s1 ev ev1 e1 h1
        refine ⟨front, rfl, hnc, [], merged, by simp [hev], hcl, ?_, by simp⟩
        simp only [List.length_nil, List.take_succ_cons, List.nil_append, List.take_zero]
        exact List.Forall₂.cons hM List.Forall₂.nil
      | crashed => simp [h1] at h
      | outOfFuel => simp [h1] at h

theorem modify_buffered_sites_ne_outOfFuel (env : Collaborators)
    (ib : List GermlineIndelLocusInfo) :
    ∀ (sb : List GermlineDiploidSiteLocusInfo) (ev : List Event),
      modify_buffered_sites env ib sb ev ≠ .outOfFuel := by
  intro sb
  induction sb with
  | nil => intro ev; simp [modify_buffered_sites]
  | cons s rest ih =>
    intro ev
    unfold modify_buffered_sites
    cases hh : ib.head? with
    | none => simp
    | some front =>
      simp only
      cases h1 : modify_overlapping_site env front s ev with
      | ok r1 =>
        obtain ⟨s1, ev1⟩ := r1
        simp only
        cases h2 : modify_buffered_sites env ib rest ev1 with
        | ok r2 => simp
        | threw e2 r2 => simp
        | crashed => simp
        | outOfFuel => exact absurd h2 (ih ev1)
      | threw e1 r1 => simp
      | crashed => simp
      | outOfFuel => exact absurd h1 (modify_overlapping_site_ne_outOfFuel env front s ev)

/-! ## One resolve cycle -/

theorem conflict_record_eq (ib : List GermlineIndelLocusInfo) :
    (if decide (ib.length > 1) = true then modify_conflict_indel_record ib else some ib)
      = some (conflictMarked ib) := by
  unfold modify_conflict_indel_record conflictMarked
  by_cases h : ib.length > 1 <;> simp [h]

theorem conflictMarked_length (ib : List GermlineIndelLocusInfo) :
    (conflictMarked ib).length = ib.length := by
  unfold conflictMarked
  split_ifs <;> simp

theorem conflictMarked_eq_nil (ib : List GermlineIndelLocusInfo) :
    conflictMarked ib = [] ↔ ib = [] := by
  rw [← List.length_eq_zero, conflictMarked_length, List.length_eq_zero]

/-- The body of `process_overlaps_impl` with its loop replaced by what the loop does: the
merged order of the buffers is handed to the sink. -/
theorem process_overlaps_impl_eq (env : Collaborators) (ov : indel_overlapper) :
    process_overlaps_impl env ov =
      if ov._indel_buffer = [] ∧ ov._nonvariant_indel_buffer = [] then .ok ov
      else if ov._site_buffer ≠ [] ∧ ov._indel_buffer = [] then .crashed
      else
        match modify_buffered_sites env (conflictMarked ov._indel_buffer) ov._site_buffer
            ov.events with
        | .ok (site_buffer, events) =>
          match sinkAll env (mergedOrder (decide (ov._indel_buffer.length > 1))
              (conflictMarked ov._indel_buffer) ov._nonvariant_indel_buffer site_buffer)
              events with
          | .ok events' => .ok (clearBuffers { ov with events := events' })
          | .threw e events' =>
            .threw e { ov with _indel_buffer := conflictMarked ov._indel_buffer,
                               _site_buffer := site_buffer, events := events' }
          | .crashed => .crashed
          | .outOfFuel => .outOfFuel
        | .threw e (site_buffer, events) =>
          .threw e { ov with _indel_buffer := conflictMarked ov._indel_buffer,
                             _site_buffer := site_buffer, events := events }
        | .crashed => .crashed
        | .outOfFuel => .outOfFuel := by
  unfold process_overlaps_impl
  simp only [conflict_record_eq]
  by_cases h1 : ov._indel_buffer = [] ∧ ov._nonvariant_indel_buffer = []
  · rw [if_pos h1, if_pos (by simp [h1.1, h1.2])]
  · rw [if_neg h1, if_neg (by simpa [List.isEmpty_iff] using h1)]
    by_cases h2 : ov._site_buffer ≠ [] ∧ ov._indel_buffer = []
    · rw [if_pos h2, if_pos (by simp [List.isEmpty_iff, conflictMarked_eq_nil, h2.1, h2.2])]
    · have h3 : (ov._site_buffer.isEmpty || !(conflictMarked ov._indel_buffer).isEmpty) = true := by
        by_cases h3 : ov._site_buffer = []
        · simp [h3]
        · have h4 : ¬ conflictMarked ov._indel_buffer = [] := fun h4 =>
            h2 ⟨h3, (conflictMarked_eq_nil _).mp h4⟩
          simp [List.isEmpty_iff, h4]
      rw [if_neg h2, if_neg (by simp [h3])]
      cases hm : modify_buffered_sites env (conflictMarked ov._indel_buffer) ov._site_buffer
          ov.events with
      | ok r =>
        obtain ⟨sb, ev⟩ := r
        simp only
        rw [process_overlaps_loop_eq env _ _ _ _ _ 0 0 0 ev (by omega)]
        simp only [List.drop_zero]
        unfold mergedOrder
        cases sinkAll env (mergedOrderAux (decide (ov._indel_buffer.length > 1))
            ((conflictMarked ov._indel_buffer).length + ov._nonvariant_indel_buffer.length
              + sb.length + 1)
            (conflictMarked ov._indel_buffer) ov._nonvariant_indel_buffer sb) ev with
        | ok ev' => simp [clearBuffers]
        | threw e ev' => rfl
        | crashed => rfl
        | outOfFuel => rfl
      | threw e r => rfl
      | crashed => rfl
      | outOfFuel => rfl

theorem sinkAll_threw_raised (env : Collaborators) :
    ∀ (ls : List Locus) (events events' : List Event) (e : Exception),
      sinkAll env ls events = .threw e events' →
      ∃ evs l, env.sink_process evs l = some e := by
  intro ls
  induction ls with
  | nil => intro events events' e h; simp [sinkAll] at h
  | cons l rest ih =>
    intro events events' e h
    unfold sinkAll at h
    cases hs : env.sink_process events l with
    | none =>
      simp only [sink_call, hs] at h
      exact ih _ _ _ h
    | some e0 =>
      simp only [sink_call, hs] at h
      injection h with he _
      exact ⟨events, l, by rw [hs, he]⟩

theorem process_overlaps_impl_ne_outOfFuel (env : Collaborators) (ov : indel_overlapper) :
    process_overlaps_impl env ov ≠ .outOfFuel := by
  rw [process_overlaps_impl_eq]
  by_cases h1 : ov._indel_buffer = [] ∧ ov._nonvariant_indel_buffer = []
  · rw [if_pos h1]; simp
  · rw [if_neg h1]
    by_cases h2 : ov._site_buffer ≠ [] ∧ ov._indel_buffer = []
    · rw [if_pos h2]; simp
    · rw [if_neg h2]
      cases hm : modify_buffered_sites env (conflictMarked ov._indel_buffer) ov._site_buffer
          ov.events with
      | ok r =>
        obtain ⟨sb, ev⟩ := r
        simp only
        cases hs : sinkAll env (mergedOrder (decide (ov._indel_buffer.length > 1))
            (conflictMarked ov._indel_buffer) ov._nonvariant_indel_buffer sb) ev with
        | ok ev' => simp
        | threw e ev' => simp
        | crashed => simp
        | outOfFuel => exact absurd hs (sinkAll_ne_crashed env _ _).2
      | threw e r => simp
      | crashed => simp
      | outOfFuel => exact absurd hm (modify_buffered_sites_ne_outOfFuel env _ _ _)

/-- A resolve cycle that returns: either there was nothing to resolve and the state is
untouched, or the sites were resolved, the merged order was handed to the sink and the
buffers were cleared. -/
theorem process_overlaps_impl_ok (env : Collaborators) (ov ov' : indel_overlapper)
    (h : process_overlaps_impl env ov = .ok ov') :
    (ov._indel_buffer = [] ∧ ov._nonvariant_indel_buffer = [] ∧ ov' = ov) ∨
    (¬ (ov._indel_buffer = [] ∧ ov._nonvariant_indel_buffer = []) ∧
      ∃ sb' ev1,
        modify_buffered_sites env (conflictMarked ov._indel_buffer) ov._site_buffer ov.events
          = .ok (sb', ev1) ∧
        ov' = { _indel_end_pos := 0, _indel_buffer := [], _nonvariant_indel_buffer := [],
                _site_buffer := [],
                events := ev1 ++ (mergedOrder (decide (ov._indel_buffer.length > 1))
                  (conflictMarked ov._indel_buffer) ov._nonvariant_indel_buffer sb').map
                    Event.sink }) := by
  rw [process_overlaps_impl_eq] at h
  by_cases h1 : ov._indel_buffer = [] ∧ ov._nonvariant_indel_buffer = []
  · rw [if_pos h1] at h
    injection h with h
    exact Or.inl ⟨h1.1, h1.2, h.symm⟩
  · rw [if_neg h1] at h
    right
    refine ⟨h1, ?_⟩
    by_cases h2 : ov._site_buffer ≠ [] ∧ ov._indel_buffer = []
    · rw [if_pos h2] at h; cases h
    · rw [if_neg h2] at h
      cases hm : modify_buffered_sites env (conflictMarked ov._indel_buffer) ov._site_buffer
          ov.events with
      | ok r =>
        obtain ⟨sb, ev⟩ := r
        simp only [hm] at h
        cases hs : sinkAll env (mergedOrder (decide (ov._indel_buffer.length > 1))
            (conflictMarked ov._indel_buffer) ov._nonvariant_indel_buffer sb) ev with
        | ok ev' =>
          simp only [hs] at h
          injection h with h
          have := sinkAll_ok env _ _ _ hs
          subst this
          exact ⟨sb, ev, rfl, by rw [← h]; rfl⟩
        | threw e ev' => simp [hs] at h
        | crashed => simp [hs] at h
        | outOfFuel => simp [hs] at h
      | threw e r => simp [hm] at h
      | crashed => simp [hm] at h
      | outOfFuel => simp [hm] at h

theorem process_overlaps_ok_iff (env : Collaborators) (ov ov' : indel_overlapper) :
    process_overlaps env ov = .ok ov' ↔ process_overlaps_impl env ov = .ok ov' := by
  unfold process_overlaps
  cases process_overlaps_impl env ov <;> simp

theorem process_overlaps_threw (env : Collaborators) (ov ov' : indel_overlapper)
    (e : Exception) (h : process_overlaps env ov = .threw e ov') :
    ∃ mid, process_overlaps_impl env ov = .threw e mid ∧ ov' = clearBuffers mid := by
  unfold process_overlaps at h
  cases hi : process_overlaps_impl env ov with
  | ok a => simp [hi] at h
  | threw e2 mid =>
    simp only [hi] at h
    injection h with he h
    exact ⟨mid, by rw [he], h.symm⟩
  | crashed => simp [hi] at h
  | outOfFuel => simp [hi] at h

/-- An exception that escapes a resolve cycle was raised by the classifier or by the sink. -/
theorem process_overlaps_impl_threw_raised (env : Collaborators) (ov mid : indel_overlapper)
    (e : Exception) (h : process_overlaps_impl env ov = .threw e mid) :
    (∃ s, env.classify_site s = .error e) ∨ (∃ evs l, env.sink_process evs l = some e) := by
  rw [process_overlaps_impl_eq] at h
  by_cases h1 : ov._indel_buffer = [] ∧ ov._nonvariant_indel_buffer = []
  · rw [if_pos h1] at h; cases h
  · rw [if_neg h1] at h
    by_cases h2 : ov._site_buffer ≠ [] ∧ ov._indel_buffer = []
    · rw [if_pos h2] at h; cases h
    · rw [if_neg h2] at h
      cases hm : modify_buffered_sites env (conflictMarked ov._indel_buffer) ov._site_buffer
          ov.events with
      | ok r =>
        obtain ⟨sb, ev⟩ := r
        simp only [hm] at h
        cases hs : sinkAll env (mergedOrder (decide (ov._indel_buffer.length > 1))
            (conflictMarked ov._indel_buffer) ov._nonvariant_indel_buffer sb) ev with
        | ok ev' => simp [hs] at h
        | threw e2 ev' =>
          simp only [hs] at h
          injection h with he _
          subst he
          exact Or.inr (sinkAll_threw_raised env _ _ _ _ hs)
        | crashed => simp [hs] at h
        | outOfFuel => simp [hs] at h
      | threw e2 r =>
        obtain ⟨sb, ev⟩ := r
        simp only [hm] at h
        injection h with he _
        subst he
        obtain ⟨_, _, _, _, last, _, hcl, _⟩ := modify_buffered_sites_threw env _ _ _ _ _ _ hm
        exact Or.inl ⟨last, hcl⟩
      | crashed => simp [hm] at h
      | outOfFuel => simp [hm] at h

/-! ## C9: failure cleanliness -/

/-- C9: if an exception escapes `process_overlaps_impl` (it was then raised by the classifier
or by the sink), `process_overlaps` hands the same exception to its caller and leaves the
three buffers empty and `_indel_end_pos` reset, the log being the one at the failure. A
`process` call for a site or for an indel that triggers this resolution ends in the same
way, whatever the incoming record is: the record is not buffered and not handed to the
sink. -/
theorem failure_cleanliness (env : Collaborators) (ov mid : indel_overlapper) (e : Exception)
    (h : process_overlaps_impl env ov = .threw e mid) :
    ((∃ s, env.classify_site s = .error e) ∨ (∃ evs l, env.sink_process evs l = some e)) ∧
    process_overlaps env ov = .threw e (clearBuffers mid) ∧
    (clearBuffers mid)._site_buffer = [] ∧ (clearBuffers mid)._indel_buffer = [] ∧
    (clearBuffers mid)._nonvariant_indel_buffer = [] ∧ (clearBuffers mid)._indel_end_pos = 0 ∧
    (clearBuffers mid).events = mid.events ∧
    (∀ si : GermlineDiploidSiteLocusInfo, si.pos ≥ ov._indel_end_pos →
      process_site env ov si = .threw e (clearBuffers mid)) ∧
    (∀ indelLocus : GermlineIndelLocusInfo,
      (indelLocus.isVariantLocus = true ∨ indelLocus.isAnyForcedOutputAtLocus = true) →
      indelLocus.pos > ov._indel_end_pos →
      process_indel env ov indelLocus = .threw e (clearBuffers mid)) := by
  have hp : process_overlaps env ov = .threw e (clearBuffers mid) := by
    unfold process_overlaps; rw [h]
  refine ⟨process_overlaps_impl_threw_raised env ov mid e h, hp, rfl, rfl, rfl, rfl, rfl, ?_, ?_⟩
  · intro si hsi
    unfold process_site
    rw [if_pos hsi, hp]
  · intro indelLocus hkept hpos
    unfold process_indel
    have hk : (!indelLocus.isVariantLocus && !indelLocus.isAnyForcedOutputAtLocus) = false := by
      rcases hkept with hk | hk <;> simp [hk]
    simp only [hk, Bool.false_eq_true, if_false, if_pos hpos, hp]

/-- C9 at a concrete input: the classifier raises on the buffered site. -/
theorem failure_cleanliness_witness :
    ((∃ s, raisingCollaborators.classify_site s = .error 7) ∨
      (∃ evs l, raisingCollaborators.sink_process evs l = some 7)) ∧
    process_overlaps raisingCollaborators c9State = .threw 7 (clearBuffers c9Mid) ∧
    (clearBuffers c9Mid)._site_buffer = [] ∧ (clearBuffers c9Mid)._indel_buffer = [] ∧
    (clearBuffers c9Mid)._nonvariant_indel_buffer = [] ∧
    (clearBuffers c9Mid)._indel_end_pos = 0 ∧
    (clearBuffers c9Mid).events = c9Mid.events ∧
    (∀ si : GermlineDiploidSiteLocusInfo, si.pos ≥ c9State._indel_end_pos →
      process_site raisingCollaborators c9State si = .threw 7 (clearBuffers c9Mid)) ∧
    (∀ indelLocus : GermlineIndelLocusInfo,
      (indelLocus.isVariantLocus = true ∨ indelLocus.isAnyForcedOutputAtLocus = true) →
      indelLocus.pos > c9State._indel_end_pos →
      process_indel raisingCollaborators c9State indelLocus = .threw 7 (clearBuffers c9Mid)) :=
  failure_cleanliness raisingCollaborators c9State c9Mid 7 (by decide)

/-! ## C10: flush on advance -/

/-- C10: in any state with a non-empty indel buffer, a site at `pos >= _indel_end_pos` whose
`process` call returns has made the overlapper resolve the buffered sites against the first
buffered indel and hand to the sink the merged order of all buffered records (each of them
once), then the new site as the last record; the new site is not in the site buffer, the
three buffers are empty, and the site's position is `>=` the new `_indel_end_pos`. -/
theorem flush_on_advance (env : Collaborators) (ov ov' : indel_overlapper)
    (si : GermlineDiploidSiteLocusInfo)
    (hne : ov._indel_buffer ≠ []) (hpos : si.pos ≥ ov._indel_end_pos)
    (h : process_site env ov si = .ok ov') :
    ∃ front resolvedSites,
      (conflictMarked ov._indel_buffer).head? = some front ∧
      List.Forall₂ (SiteResolved env front) ov._site_buffer resolvedSites ∧
      sunk ov'.events =
        sunk ov.events ++
          mergedOrder (decide (ov._indel_buffer.length > 1)) (conflictMarked ov._indel_buffer)
            ov._nonvariant_indel_buffer resolvedSites ++
          [Locus.site si] ∧
      List.Perm
        (mergedOrder (decide (ov._indel_buffer.length > 1)) (conflictMarked ov._indel_buffer)
          ov._nonvariant_indel_buffer resolvedSites)
        ((conflictMarked ov._indel_buffer).map Locus.indel ++
          ov._nonvariant_indel_buffer.map Locus.indel ++ resolvedSites.map Locus.site) ∧
      ov'._site_buffer = [] ∧ ov'._indel_buffer = [] ∧ ov'._nonvariant_indel_buffer = [] ∧
      si.pos ≥ ov'._indel_end_pos := by
  unfold process_site at h
  rw [if_pos hpos] at h
  cases hp : process_overlaps env ov with
  | ok ov1 =>
    simp only [hp] at h
    rcases process_overlaps_impl_ok env ov ov1 ((process_overlaps_ok_iff env ov ov1).mp hp) with
      ⟨hib, _, _⟩ | ⟨_, sb', ev1, hm, hov1⟩
    · exact absurd hib hne
    · subst hov1
      have hcm : conflictMarked ov._indel_buffer ≠ [] := fun hc =>
        hne ((conflictMarked_eq_nil _).mp hc)
      obtain ⟨front, hfront⟩ : ∃ front, (conflictMarked ov._indel_buffer).head? = some front := by
        cases hcmb : conflictMarked ov._indel_buffer with
        | nil => exact absurd hcmb hcm
        | cons a rest => exact ⟨a, rfl⟩
      obtain ⟨_, hres, _⟩ := modify_buffered_sites_ok env _ _ _ _ _ hm
      obtain ⟨hF, ms, hev1, _, _⟩ := hres front hfront
      by_cases hge : si.pos ≥ 0
      · simp only [hge, not_true_eq_false, if_false, List.isEmpty_nil] at h
        rcases sink_call_cases env (Locus.site si)
            (ev1 ++ (mergedOrder (decide (ov._indel_buffer.length > 1))
              (conflictMarked ov._indel_buffer) ov._nonvariant_indel_buffer sb').map
                Event.sink) with hs | ⟨e, hs⟩
        · simp only [hs] at h
          injection h with h
          subst h
          refine ⟨front, sb', hfront, hF, ?_, ?_, rfl, rfl, rfl, hge⟩
          · simp [hev1, sunk]
          · unfold mergedOrder
            refine mergedOrderAux_perm _ _ _ _ _ (by omega) ?_
            by_cases hl : ov._indel_buffer.length > 1
            · left; simp [hl]
            · right; rw [conflictMarked_length]; omega
        · simp [hs] at h
      · simp [hge] at h
  | threw e a => simp [hp] at h
  | crashed => simp [hp] at h
  | outOfFuel => simp [hp] at h

/-- C10 at a concrete input: the site at 20 flushes the indel over `[10,15)` and the site
at 12 buffered under it. -/
theorem flush_on_advance_witness :
    ∃ front resolvedSites,
      (conflictMarked c9State._indel_buffer).head? = some front ∧
      List.Forall₂ (SiteResolved quietCollaborators front) c9State._site_buffer resolvedSites ∧
      sunk c10After.events =
        sunk c9State.events ++
          mergedOrder (decide (c9State._indel_buffer.length > 1))
            (conflictMarked c9State._indel_buffer)
            c9State._nonvariant_indel_buffer resolvedSites ++
          [Locus.site c10Site] ∧
      List.Perm
        (mergedOrder (decide (c9State._indel_buffer.length > 1))
          (conflictMarked c9State._indel_buffer)
          c9State._nonvariant_indel_buffer resolvedSites)
        ((conflictMarked c9State._indel_buffer).map Locus.indel ++
          c9State._nonvariant_indel_buffer.map Locus.indel ++ resolvedSites.map Locus.site) ∧
      c10After._site_buffer = [] ∧ c10After._indel_buffer = [] ∧
      c10After._nonvariant_indel_buffer = [] ∧
      c10Site.pos ≥ c10After._indel_end_pos :=
  flush_on_advance quietCollaborators c9State c10After c10Site (by decide) (by decide)
    (by decide)

/-- The ways a resolve cycle can end. -/
theorem process_overlaps_impl_cases (env : Collaborators) (ov : indel_overlapper) :
    (ov._indel_buffer = [] ∧ ov._nonvariant_indel_buffer = [] ∧
      process_overlaps_impl env ov = .ok ov) ∨
    (¬ (ov._indel_buffer = [] ∧ ov._nonvariant_indel_buffer = []) ∧
      (process_overlaps_impl env ov = .crashed ∨
       (∃ sb' ev1,
          modify_buffered_sites env (conflictMarked ov._indel_buffer) ov._site_buffer ov.events
            = .ok (sb', ev1) ∧
          process_overlaps_impl env ov = .ok
            { _indel_end_pos := 0, _indel_buffer := [], _nonvariant_indel_buffer := [],
              _site_buffer := [],
              events := ev1 ++ (mergedOrder (decide (ov._indel_buffer.length > 1))
                (conflictMarked ov._indel_buffer) ov._nonvariant_indel_buffer sb').map
                  Event.sink }) ∨
       (∃ sb' ev1 e k,
          modify_buffered_sites env (conflictMarked ov._indel_buffer) ov._site_buffer ov.events
            = .ok (sb', ev1) ∧
          k < (mergedOrder (decide (ov._indel_buffer.length > 1))
                (conflictMarked ov._indel_buffer) ov._nonvariant_indel_buffer sb').length ∧
          process_overlaps_impl env ov = .threw e
            { ov with _indel_buffer := conflictMarked ov._indel_buffer, _site_buffer := sb',
                      events := ev1 ++ ((mergedOrder (decide (ov._indel_buffer.length > 1))
                        (conflictMarked ov._indel_buffer) ov._nonvariant_indel_buffer sb').take
                          (k + 1)).map Event.sink }) ∨
       (∃ sb' ev1 e,
          modify_buffered_sites env (conflictMarked ov._indel_buffer) ov._site_buffer ov.events
            = .threw e (sb', ev1) ∧
          process_overlaps_impl env ov = .threw e
            { ov with _indel_buffer := conflictMarked ov._indel_buffer, _site_buffer := sb',
                      events := ev1 }))) := by
  rw [process_overlaps_impl_eq]
  by_cases h1 : ov._indel_buffer = [] ∧ ov._nonvariant_indel_buffer = []
  · left
    exact ⟨h1.1, h1.2, by rw [if_pos h1]⟩
  · right
    refine ⟨h1, ?_⟩
    rw [if_neg h1]
    by_cases h2 : ov._site_buffer ≠ [] ∧ ov._indel_buffer = []
    · left; rw [if_pos h2]
    · rw [if_neg h2]
      cases hm : modify_buffered_sites env (conflictMarked ov._indel_buffer) ov._site_buffer
          ov.events with
      | ok r =>
        obtain ⟨sb, ev⟩ := r
        simp only
        rcases sinkAll_cases env (mergedOrder (decide (ov._indel_buffer.length > 1))
            (conflictMarked ov._indel_buffer) ov._nonvariant_indel_buffer sb) ev with
          hs | ⟨e, k, hk, hs⟩
        · right; left
          exact ⟨sb, ev, rfl, by rw [hs]; rfl⟩
        · right; right; left
          exact ⟨sb, ev, e, k, rfl, hk, by rw [hs]⟩
      | threw e r =>
        obtain ⟨sb, ev⟩ := r
        right; right; right
        exact ⟨sb, ev, e, rfl, rfl⟩
      | crashed => left; rfl
      | outOfFuel => exact absurd hm (modify_buffered_sites_ne_outOfFuel env _ _ _)

/-! ## C8: a site under conflicting indels -/

theorem modify_buffered_sites_conflict (env : Collaborators) (ib : List GermlineIndelLocusInfo)
    (front : GermlineIndelLocusInfo) (hf : ib.head? = some front)
    (hc : index_t.IndelConflict ∈ front.filters) :
    ∀ (sb : List GermlineDiploidSiteLocusInfo) (ev : List Event),
      modify_buffered_sites env ib sb ev = .ok (sb.map modify_indel_conflict_site, ev) := by
  intro sb
  induction sb with
  | nil => intro ev; rfl
  | cons s rest ih =>
    intro ev
    unfold modify_buffered_sites
    simp only [hf, modify_overlapping_site, hc, if_true, ih, List.map_cons]

theorem conflictMarked_of_two (ib : List GermlineIndelLocusInfo) (h : ib.length ≥ 2) :
    conflictMarked ib = ib.map setIndelConflict ∧
    ∃ front, (conflictMarked ib).head? = some front ∧ index_t.IndelConflict ∈ front.filters := by
  have hcm : conflictMarked ib = ib.map setIndelConflict := by
    unfold conflictMarked
    rw [if_pos (by omega)]
  refine ⟨hcm, ?_⟩
  rw [hcm]
  cases ib with
  | nil => simp at h
  | cons a rest => exact ⟨setIndelConflict a, rfl, by simp [setIndelConflict]⟩

/-- C8: in a resolve cycle whose indel buffer holds two or more variant indels, the
classifier is never called, the cycle cannot end in a failed assertion, and what the sink
is handed is an initial part of the merged order of the indels tagged `IndelConflict`, the
non-variant indels and the buffered sites tagged `IndelConflict` (all of it when the cycle
returns, every buffered site then being among it); a site so tagged carries `IndelConflict`
and has its `SiteConflict` flag, its quality and all its samples (their `gqx` and filter
sets) as they were in the buffer, where `process` put the site as submitted. -/
theorem conflict_context_site (env : Collaborators) (ov : indel_overlapper)
    (h2 : ov._indel_buffer.length ≥ 2) :
    process_overlaps_impl env ov ≠ .crashed ∧ process_overlaps_impl env ov ≠ .outOfFuel ∧
    (∀ st, (process_overlaps_impl env ov = .ok st ∨
            ∃ e, process_overlaps_impl env ov = .threw e st) →
      classified st.events = classified ov.events ∧
      ∃ k, sunk st.events = sunk ov.events ++
        (mergedOrder true (ov._indel_buffer.map setIndelConflict) ov._nonvariant_indel_buffer
          (ov._site_buffer.map modify_indel_conflict_site)).take k) ∧
    (∀ st, process_overlaps_impl env ov = .ok st →
      sunk st.events = sunk ov.events ++
        mergedOrder true (ov._indel_buffer.map setIndelConflict) ov._nonvariant_indel_buffer
          (ov._site_buffer.map modify_indel_conflict_site) ∧
      ∀ s ∈ ov._site_buffer, Locus.site (modify_indel_conflict_site s) ∈ sunk st.events) ∧
    (∀ t, Locus.site t ∈ mergedOrder true (ov._indel_buffer.map setIndelConflict)
        ov._nonvariant_indel_buffer (ov._site_buffer.map modify_indel_conflict_site) →
      ∃ s ∈ ov._site_buffer, t = modify_indel_conflict_site s) ∧
    (∀ s : GermlineDiploidSiteLocusInfo,
      index_t.IndelConflict ∈ (modify_indel_conflict_site s).filters ∧
      (index_t.SiteConflict ∈ (modify_indel_conflict_site s).filters ↔
        index_t.SiteConflict ∈ s.filters) ∧
      (modify_indel_conflict_site s).anyVariantAlleleQuality = s.anyVariantAlleleQuality ∧
      (modify_indel_conflict_site s).samples = s.samples) ∧
    (∀ si : GermlineDiploidSiteLocusInfo, si.pos < ov._indel_end_pos →
      process_site env ov si = .ok { ov with _site_buffer := ov._site_buffer ++ [si] }) := by
  obtain ⟨hcm, front, hfront, hconf⟩ := conflictMarked_of_two ov._indel_buffer h2
  have hmbs := modify_buffered_sites_conflict env _ front hfront hconf ov._site_buffer ov.events
  have hdec : decide (ov._indel_buffer.length > 1) = true := by simp; omega
  have hne : ¬ (ov._indel_buffer = [] ∧ ov._nonvariant_indel_buffer = []) := by
    intro h
    rw [h.1] at h2
    simp at h2
  have hperm := mergedOrderAux_perm true
    ((ov._indel_buffer.map setIndelConflict).length + ov._nonvariant_indel_buffer.length +
      (ov._site_buffer.map modify_indel_conflict_site).length + 1)
    (ov._indel_buffer.map setIndelConflict) ov._nonvariant_indel_buffer
    (ov._site_buffer.map modify_indel_conflict_site) (by omega) (Or.inl rfl)
  have hcases := process_overlaps_impl_cases env ov
  rw [hdec, hcm] at hcases
  rw [hcm] at hmbs
  rcases hcases with ⟨hib, hnv, _⟩ |
    ⟨_, hcr | ⟨sb', ev1, hm, hok⟩ | ⟨sb', ev1, e, k, hm, hk, hth⟩ | ⟨sb', ev1, e, hm, hth⟩⟩
  · exact absurd ⟨hib, hnv⟩ hne
  · -- a failed assertion is excluded: the site loop returns
    rw [process_overlaps_impl_eq, if_neg hne,
      if_neg (by intro h; rw [h.2] at h2; simp at h2), hcm, hmbs] at hcr
    simp only at hcr
    exact absurd hcr (by
      have := (sinkAll_ne_crashed env (mergedOrder (decide (ov._indel_buffer.length > 1))
        (ov._indel_buffer.map setIndelConflict) ov._nonvariant_indel_buffer
        (ov._site_buffer.map modify_indel_conflict_site)) ov.events).1
      intro hcr
      apply this
      cases hs : sinkAll env (mergedOrder (decide (ov._indel_buffer.length > 1))
        (ov._indel_buffer.map setIndelConflict) ov._nonvariant_indel_buffer
        (ov._site_buffer.map modify_indel_conflict_site)) ov.events with
      | ok a => rw [hs] at hcr; cases hcr
      | threw e a => rw [hs] at hcr; cases hcr
      | crashed => rfl
      | outOfFuel => rw [hs] at hcr; cases hcr)
  · rw [hmbs] at hm
    injection hm with hm
    injection hm with hsb hev
    subst hsb hev
    refine ⟨by rw [hok]; simp, by rw [hok]; simp, ?_, ?_, ?_, ?_, ?_⟩
    · intro st hst
      rcases hst with hst | ⟨e, hst⟩
      · rw [hok] at hst
        injection hst with hst
        subst hst
        exact ⟨by simp, (mergedOrder true (ov._indel_buffer.map setIndelConflict)
          ov._nonvariant_indel_buffer (ov._site_buffer.map modify_indel_conflict_site)).length,
          by simp⟩
      · rw [hok] at hst; cases hst
    · intro st hst
      rw [hok] at hst
      injection hst with hst
      subst hst
      refine ⟨by simp, ?_⟩
      intro s hs
      simp only [sunk_append, sunk_map_sink, List.mem_append]
      right
      unfold mergedOrder
      exact hperm.symm.subset (List.mem_append_right _
        (List.mem_map.mpr ⟨modify_indel_conflict_site s, List.mem_map.mpr ⟨s, hs, rfl⟩, rfl⟩))
    · intro t ht
      rcases mergedOrderAux_mem true _ _ _ _ _ ht with ⟨a, _, ha⟩ | ⟨b, _, hb⟩ | ⟨s, hs, hst⟩
      · cases ha
      · cases hb
      · injection hst with hst
        obtain ⟨s0, hs0, rfl⟩ := List.mem_map.mp hs
        exact ⟨s0, hs0, hst⟩
    · intro s
      simp [modify_indel_conflict_site]
    · intro si hsi
      unfold process_site
      rw [if_neg (by omega)]
  · rw [hmbs] at hm
    injection hm with hm
    injection hm with hsb hev
    subst hsb hev
    refine ⟨by rw [hth]; simp, by rw [hth]; simp, ?_, ?_, ?_, ?_, ?_⟩
    · intro st hst
      rcases hst with hst | ⟨e', hst⟩
      · rw [hth] at hst; cases hst
      · rw [hth] at hst
        injection hst with _ hst
        subst hst
        exact ⟨by simp, k + 1, by simp⟩
    · intro st hst
      rw [hth] at hst; cases hst
    · intro t ht
      rcases mergedOrderAux_mem true _ _ _ _ _ ht with ⟨a, _, ha⟩ | ⟨b, _, hb⟩ | ⟨s, hs, hst⟩
      · cases ha
      · cases hb
      · injection hst with hst
        obtain ⟨s0, hs0, rfl⟩ := List.mem_map.mp hs
        exact ⟨s0, hs0, hst⟩
    · intro s
      simp [modify_indel_conflict_site]
    · intro si hsi
      unfold process_site
      rw [if_neg (by omega)]
  · rw [hmbs] at hm
    cases hm

/-- C8 at the input of the specification: two overlapping indels at position 10 and a site
at position 10 submitted after the first of them. -/
theorem conflict_context_site_witness :
    submitAll quietCollaborators
        [Submission.indel c7Indel, Submission.site c8Site, Submission.indel c8Indel]
        indel_overlapper.empty = .ok c8State ∧
    process_overlaps_impl quietCollaborators c8State ≠ .crashed ∧
    (∀ st, process_overlaps_impl quietCollaborators c8State = .ok st →
      sunk st.events = sunk c8State.events ++
        mergedOrder true (c8State._indel_buffer.map setIndelConflict)
          c8State._nonvariant_indel_buffer
          (c8State._site_buffer.map modify_indel_conflict_site) ∧
      ∀ s ∈ c8State._site_buffer, Locus.site (modify_indel_conflict_site s) ∈ sunk st.events) :=
  ⟨by decide,
   (conflict_context_site quietCollaborators c8State (by decide)).1,
   (conflict_context_site quietCollaborators c8State (by decide)).2.2.2.1⟩

/-! ## C6: the numeric merge under a single indel -/

theorem overlapSiteMerge_numeric (indelLocus : GermlineIndelLocusInfo)
    (s m : GermlineDiploidSiteLocusInfo) (h : overlapSiteMerge indelLocus s = some m) :
    NumericallyMerged indelLocus s m := by
  obtain ⟨_, _, _, _, hq, _, hlen, hget⟩ := overlapSiteMerge_spec _ _ _ h
  refine ⟨hq, hlen, ?_⟩
  intro i ss hss
  obtain ⟨x, hx1, hx2⟩ := hget i ss hss
  refine ⟨x, _, hx1, hx2, ?_⟩
  unfold gqxSampleBody tagSampleBody
  split_ifs <;> rfl

theorem forall₂_numeric (indelLocus : GermlineIndelLocusInfo)
    (sb ms : List GermlineDiploidSiteLocusInfo)
    (h : List.Forall₂ (fun s m => overlapSiteMerge indelLocus s = some m) sb ms) :
    List.Forall₂ (NumericallyMerged indelLocus) sb ms :=
  List.Forall₂.imp (fun s m hsm => overlapSiteMerge_numeric indelLocus s m hsm) h

/-- C6: in a resolve cycle whose indel buffer holds exactly one variant indel, which does
not carry `IndelConflict`, the sites handed to the classifier are, in buffer order, the
buffered sites (all of them when the cycle returns, an initial part of them when an
exception escapes), each with `anyVariantAlleleQuality` the minimum of the site's and the
indel's and, at every sample index, `gqx` the minimum of the site's and the indel's at that
index. Hence neither value is ever raised, and a site quality above the indel quality
becomes the indel quality. -/
theorem single_indel_numeric_merge (env : Collaborators) (ov : indel_overlapper)
    (indelLocus : GermlineIndelLocusInfo)
    (hib : ov._indel_buffer = [indelLocus])
    (hnc : index_t.IndelConflict ∉ indelLocus.filters) :
    (∀ st, (process_overlaps_impl env ov = .ok st ∨
            ∃ e, process_overlaps_impl env ov = .threw e st) →
      ∃ handed, classified st.events = classified ov.events ++ handed ∧
        List.Forall₂ (NumericallyMerged indelLocus) (ov._site_buffer.take handed.length) handed ∧
        (process_overlaps_impl env ov = .ok st → handed.length = ov._site_buffer.length)) ∧
    (∀ s m : GermlineDiploidSiteLocusInfo, NumericallyMerged indelLocus s m →
      m.anyVariantAlleleQuality ≤ s.anyVariantAlleleQuality ∧
      (s.anyVariantAlleleQuality > indelLocus.anyVariantAlleleQuality →
        m.anyVariantAlleleQuality = indelLocus.anyVariantAlleleQuality) ∧
      ∀ (i : Nat) (siteSample mergedSample : LocusSampleInfo),
        s.samples[i]? = some siteSample → m.samples[i]? = some mergedSample →
        mergedSample.gqx ≤ siteSample.gqx) := by
  have hcm : conflictMarked ov._indel_buffer = [indelLocus] := by
    unfold conflictMarked; rw [hib]; simp
  have hhead : (conflictMarked ov._indel_buffer).head? = some indelLocus := by rw [hcm]; rfl
  constructor
  · intro st hst
    rcases process_overlaps_impl_cases env ov with ⟨hnil, _, _⟩ |
      ⟨_, hcr | ⟨sb', ev1, hm, hok⟩ | ⟨sb', ev1, e, k, hm, hk, hth⟩ | ⟨sb', ev1, e, hm, hth⟩⟩
    · rw [hib] at hnil; cases hnil
    · rw [hcr] at hst
      rcases hst with hst | ⟨e, hst⟩ <;> cases hst
    · obtain ⟨_, hres, _⟩ := modify_buffered_sites_ok env _ _ _ _ _ hm
      obtain ⟨_, ms, hev, _, hF⟩ := hres indelLocus hhead
      have hF2 := hF hnc
      have hlen : ms.length = ov._site_buffer.length := (List.Forall₂.length_eq hF2).symm
      rcases hst with hst | ⟨e, hst⟩
      · rw [hok] at hst
        injection hst with hst
        subst hst
        refine ⟨ms, by simp [hev], ?_, fun _ => hlen⟩
        rw [hlen, List.take_length]
        exact forall₂_numeric _ _ _ hF2
      · rw [hok] at hst; cases hst
    · obtain ⟨_, hres, _⟩ := modify_buffered_sites_ok env _ _ _ _ _ hm
      obtain ⟨_, ms, hev, _, hF⟩ := hres indelLocus hhead
      have hF2 := hF hnc
      have hlen : ms.length = ov._site_buffer.length := (List.Forall₂.length_eq hF2).symm
      rcases hst with hst | ⟨e', hst⟩
      · rw [hth] at hst; cases hst
      · rw [hth] at hst
        injection hst with _ hst
        subst hst
        refine ⟨ms, by simp [hev], ?_, fun h => by rw [hth] at h; cases h⟩
        rw [hlen, List.take_length]
        exact forall₂_numeric _ _ _ hF2
    · obtain ⟨front, hfront, _, ms, last, hev, _, hF, hlt⟩ :=
        modify_buffered_sites_threw env _ _ _ _ _ _ hm
      rw [hhead] at hfront
      injection hfront with hfront
      subst hfront
      rcases hst with hst | ⟨e', hst⟩
      · rw [hth] at hst; cases hst
      · rw [hth] at hst
        injection hst with _ hst
        subst hst
        refine ⟨ms ++ [last], by simp [hev, classified], ?_, fun h => by rw [hth] at h; cases h⟩
        have : (ms ++ [last]).length = ms.length + 1 := by simp
        rw [this]
        exact forall₂_numeric _ _ _ hF
  · intro s m hsm
    obtain ⟨hq, _, hget⟩ := hsm
    refine ⟨by rw [hq]; exact min_le_left _ _, fun hgt => by rw [hq]; exact min_eq_right (le_of_lt hgt), ?_⟩
    intro i ss msam hss hms
    obtain ⟨x, y, _, hy, hg⟩ := hget i ss hss
    rw [hms] at hy
    injection hy with hy
    subst hy
    rw [hg]
    exact min_le_left _ _

/-- C6 at the input of the specification: one indel over `[10,15)` of quality 40 and a
site at 12 of quality 60. -/
theorem single_indel_numeric_merge_witness :
    (∀ st, (process_overlaps_impl quietCollaborators c9State = .ok st ∨
            ∃ e, process_overlaps_impl quietCollaborators c9State = .threw e st) →
      ∃ handed, classified st.events = classified c9State.events ++ handed ∧
        List.Forall₂ (NumericallyMerged c7Indel) (c9State._site_buffer.take handed.length)
          handed ∧
        (process_overlaps_impl quietCollaborators c9State = .ok st →
          handed.length = c9State._site_buffer.length)) ∧
    (∀ s m : GermlineDiploidSiteLocusInfo, NumericallyMerged c7Indel s m →
      m.anyVariantAlleleQuality ≤ s.anyVariantAlleleQuality ∧
      (s.anyVariantAlleleQuality > c7Indel.anyVariantAlleleQuality →
        m.anyVariantAlleleQuality = c7Indel.anyVariantAlleleQuality) ∧
      ∀ (i : Nat) (siteSample mergedSample : LocusSampleInfo),
        s.samples[i]? = some siteSample → m.samples[i]? = some mergedSample →
        mergedSample.gqx ≤ siteSample.gqx) :=
  single_indel_numeric_merge quietCollaborators c9State c7Indel rfl (by decide)

/-! ## Whole runs -/

theorem siteResolved_pos (env : Collaborators) (front : GermlineIndelLocusInfo)
    (s s' : GermlineDiploidSiteLocusInfo) (hk : ClassifierKeepsPos env)
    (h : SiteResolved env front s s') : s'.pos = s.pos := by
  rcases h with ⟨_, rfl⟩ | ⟨_, m, hm, hc⟩
  · rfl
  · rw [hk m s' hc]
    exact (overlapSiteMerge_spec _ _ _ hm).2.2.1

theorem siteResolved_ptr (env : Collaborators) (front : GermlineIndelLocusInfo)
    (s s' : GermlineDiploidSiteLocusInfo) (hk : ClassifierKeepsPtr env)
    (h : SiteResolved env front s s') : s'.ptr = s.ptr := by
  rcases h with ⟨_, rfl⟩ | ⟨_, m, hm, hc⟩
  · rfl
  · rw [hk m s' hc]
    exact (overlapSiteMerge_spec _ _ _ hm).2.1

theorem process_overlaps_noop (env : Collaborators) (ov : indel_overlapper)
    (h1 : ov._indel_buffer = []) (h2 : ov._nonvariant_indel_buffer = []) :
    process_overlaps env ov = .ok ov := by
  unfold process_overlaps
  rw [process_overlaps_impl_eq, if_pos ⟨h1, h2⟩]

/-! ## C3: the tie-break, end to end -/

/-- C3, as stated, fails: with the three records at position 100 submitted in the order
site, variant indel, forced non-variant indel, the site is handed to the sink first; in the
order non-variant indel, variant indel, site, the non-variant indel is; and with the variant
indel first but ending where it starts (`end = pos`), the site that follows it is handed to
the sink before the non-variant indel that comes last. -/
theorem tie_break_counterexample :
    (∃ st, runAndFlush quietCollaborators
        [Submission.site c3Site, Submission.indel c3Indel, Submission.indel c3NonVariant]
        = .ok st ∧
      sunk st.events = [Locus.site c3Site, Locus.indel c3Indel, Locus.indel c3NonVariant]) ∧
    (∃ st, runAndFlush quietCollaborators
        [Submission.indel c3NonVariant, Submission.indel c3Indel, Submission.site c3Site]
        = .ok st ∧
      sunk st.events = [Locus.indel c3NonVariant, Locus.indel c3Indel, Locus.site c3Site]) ∧
    (∃ st, runAndFlush quietCollaborators
        [Submission.indel c3Insertion, Submission.site c3Site, Submission.indel c3NonVariant]
        = .ok st ∧
      sunk st.events = [Locus.indel c3Insertion, Locus.site c3Site, Locus.indel c3NonVariant]) := by
  refine ⟨⟨_, rfl, ?_⟩, ⟨_, rfl, ?_⟩, ⟨_, rfl, ?_⟩⟩ <;> decide

/-- C3, amended: for every position `p`, when the variant indel (with `end > p`) is
submitted first and the forced non-variant indel and the site, all at `p`, follow in either
order, a run that returns, with a classifier that keeps positions, hands the sink exactly
the indel, then the non-variant indel, then the resolved site. -/
theorem tie_break_indel_first (env : Collaborators) (p : Int)
    (v n : GermlineIndelLocusInfo) (s : GermlineDiploidSiteLocusInfo)
    (rest : List Submission) (st : indel_overlapper)
    (hk : ClassifierKeepsPos env)
    (hv : v.isVariantLocus = true) (hvp : v.pos = p) (hve : v.end_ > p)
    (hn : n.isVariantLocus = false) (hnf : n.isAnyForcedOutputAtLocus = true) (hnp : n.pos = p)
    (hsp : s.pos = p)
    (hrest : rest = [Submission.indel n, Submission.site s] ∨
             rest = [Submission.site s, Submission.indel n])
    (h : runAndFlush env (Submission.indel v :: rest) = .ok st) :
    ∃ s', SiteResolved env v s s' ∧
      sunk st.events = [Locus.indel v, Locus.indel n, Locus.site s'] := by
  have hend : ¬ (p > max 0 v.end_) := by
    intro hgt
    have := le_max_right (0 : Int) v.end_
    omega
  have hend2 : ¬ (p ≥ max 0 v.end_) := by
    intro hgt
    have := le_max_right (0 : Int) v.end_
    omega
  have hfinal : process_overlaps env
      { _indel_end_pos := max 0 v.end_, _indel_buffer := [v], _nonvariant_indel_buffer := [n],
        _site_buffer := [s], events := [] } = .ok st := by
    rcases hrest with rfl | rfl
    · by_cases hp0 : p > 0 <;>
      simpa [runAndFlush, submitAll, submit, process_indel, process_site, hv, hn, hnf, hvp, hnp,
        hsp, hend, hend2, hp0, indel_overlapper.empty, process_overlaps_noop] using h
    · by_cases hp0 : p > 0 <;>
      simpa [runAndFlush, submitAll, submit, process_indel, process_site, hv, hn, hnf, hvp, hnp,
        hsp, hend, hend2, hp0, indel_overlapper.empty, process_overlaps_noop] using h
  rcases process_overlaps_impl_ok env _ st ((process_overlaps_ok_iff env _ st).mp hfinal) with
    ⟨hnil, _, _⟩ | ⟨_, sb', ev1, hm, hst⟩
  · cases hnil
  · have hcm : conflictMarked [v] = [v] := by simp [conflictMarked]
    simp only [hcm] at hm hst
    obtain ⟨_, hres, _⟩ := modify_buffered_sites_ok env _ _ _ _ _ hm
    obtain ⟨hF, ms, hev, _, _⟩ := hres v rfl
    obtain ⟨s', rest', hs', hnil, rfl⟩ := List.forall₂_cons_left_iff.mp hF
    have hrest' : rest' = [] := List.forall₂_nil_left_iff.mp hnil
    subst hrest'
    refine ⟨s', hs', ?_⟩
    have hs'p : s'.pos = p := by rw [siteResolved_pos env v s s' hk hs', hsp]
    subst hst
    simp [hev, mergedOrder, mergedOrderAux, selectionRule, leInf, hvp, hnp, hs'p, sunk]

theorem quiet_keeps_pos : ClassifierKeepsPos quietCollaborators := by
  intro a b h
  simp only [quietCollaborators] at h
  injection h with h
  rw [h]

theorem quiet_keeps_ptr : ClassifierKeepsPtr quietCollaborators := by
  intro a b h
  simp only [quietCollaborators] at h
  injection h with h
  rw [h]

/-- C3, amended, at the input of the specification: position 100, the indel first, then the
site, then the non-variant indel. -/
theorem tie_break_indel_first_witness :
    ∃ s', SiteResolved quietCollaborators c3Indel c3Site s' ∧
      sunk c3After.events = [Locus.indel c3Indel, Locus.indel c3NonVariant, Locus.site s'] :=
  tie_break_indel_first quietCollaborators 100 c3Indel c3NonVariant c3Site
    [Submission.site c3Site, Submission.indel c3NonVariant] c3After quiet_keeps_pos
    (by decide) (by decide) (by decide) (by decide) (by decide) (by decide) (by decide)
    (Or.inr rfl) (by decide)

/-! ## What one call of `process` does when it returns -/

theorem process_site_ok (env : Collaborators) (ov ov' : indel_overlapper)
    (si : GermlineDiploidSiteLocusInfo) (h : process_site env ov si = .ok ov') :
    (si.pos < ov._indel_end_pos ∧ ov' = { ov with _site_buffer := ov._site_buffer ++ [si] }) ∨
    (si.pos ≥ ov._indel_end_pos ∧
      ∃ ov1, process_overlaps env ov = .ok ov1 ∧ ov1._nonvariant_indel_buffer = [] ∧
        si.pos ≥ ov1._indel_end_pos ∧
        ov' = { ov1 with events := ov1.events ++ [Event.sink (Locus.site si)] }) := by
  unfold process_site at h
  by_cases hpos : si.pos ≥ ov._indel_end_pos
  · right
    refine ⟨hpos, ?_⟩
    rw [if_pos hpos] at h
    cases hp : process_overlaps env ov with
    | ok ov1 =>
      simp only [hp] at h
      by_cases h1 : si.pos ≥ ov1._indel_end_pos
      · by_cases h2 : ov1._nonvariant_indel_buffer = []
        · simp only [h1, not_true_eq_false, if_false, h2, List.isEmpty_nil] at h
          rcases sink_call_cases env (Locus.site si) ov1.events with hs | ⟨e, hs⟩
          · simp only [hs] at h
            injection h with h
            exact ⟨ov1, rfl, h2, h1, by rw [h2]; exact h.symm⟩
          · simp [hs] at h
        · simp [h1, List.isEmpty_iff, h2] at h
      · simp [h1] at h
    | threw e a => simp [hp] at h
    | crashed => simp [hp] at h
    | outOfFuel => simp [hp] at h
  · left
    rw [if_neg hpos] at h
    injection h with h
    exact ⟨by omega, h.symm⟩

theorem process_indel_ok (env : Collaborators) (ov ov' : indel_overlapper)
    (i : GermlineIndelLocusInfo) (h : process_indel env ov i = .ok ov') :
    ((Submission.indel i).kept = false ∧ ov' = ov) ∨
    ((Submission.indel i).kept = true ∧
      ∃ ov1, ((i.pos > ov._indel_end_pos ∧ process_overlaps env ov = .ok ov1) ∨
              (¬ i.pos > ov._indel_end_pos ∧ ov1 = ov)) ∧
        ((i.isVariantLocus = false ∧
            ov' = { ov1 with _nonvariant_indel_buffer := ov1._nonvariant_indel_buffer ++ [i] }) ∨
         (i.isVariantLocus = true ∧
            ov' = { ov1 with _indel_end_pos := max ov1._indel_end_pos i.end_,
                             _indel_buffer := ov1._indel_buffer ++ [i] }))) := by
  unfold process_indel at h
  by_cases hd : (!i.isVariantLocus && !i.isAnyForcedOutputAtLocus) = true
  · left
    simp only [hd, if_true] at h
    injection h with h
    refine ⟨?_, h.symm⟩
    simp only [Bool.and_eq_true, Bool.not_eq_true'] at hd
    simp [Submission.kept, hd.1, hd.2]
  · right
    simp only [hd, if_false] at h
    have hk : (Submission.indel i).kept = true := by
      simp only [Submission.kept]
      cases hv : i.isVariantLocus <;> cases hf : i.isAnyForcedOutputAtLocus <;>
        simp [hv, hf] at hd ⊢
    refine ⟨hk, ?_⟩
    by_cases hpos : i.pos > ov._indel_end_pos
    · rw [if_pos hpos] at h
      cases hp : process_overlaps env ov with
      | ok ov1 =>
        simp only [hp] at h
        refine ⟨ov1, Or.inl ⟨hpos, rfl⟩, ?_⟩
        cases hv : i.isVariantLocus with
        | true =>
          simp only [hv, Bool.not_true, Bool.false_eq_true, if_false] at h
          injection h with h
          exact Or.inr ⟨rfl, h.symm⟩
        | false =>
          simp only [hv, Bool.not_false, if_true] at h
          injection h with h
          exact Or.inl ⟨rfl, h.symm⟩
      | threw e a => simp [hp] at h
      | crashed => simp [hp] at h
      | outOfFuel => simp [hp] at h
    · rw [if_neg hpos] at h
      refine ⟨ov, Or.inr ⟨hpos, rfl⟩, ?_⟩
      cases hv : i.isVariantLocus with
      | true =>
        simp only [hv, Bool.not_true, Bool.false_eq_true, if_false] at h
        injection h with h
        exact Or.inr ⟨rfl, h.symm⟩
      | false =>
        simp only [hv, Bool.not_false, if_true] at h
        injection h with h
        exact Or.inl ⟨rfl, h.symm⟩

/-! ## What a resolve cycle hands to the sink, in terms of the buffers before it -/

theorem conflictMarked_map_pos (ib : List GermlineIndelLocusInfo) :
    (conflictMarked ib).map GermlineIndelLocusInfo.pos = ib.map GermlineIndelLocusInfo.pos := by
  unfold conflictMarked
  split_ifs
  · rw [List.map_map]; rfl
  · rfl

theorem conflictMarked_map_ptr (ib : List GermlineIndelLocusInfo) :
    (conflictMarked ib).map GermlineIndelLocusInfo.ptr = ib.map GermlineIndelLocusInfo.ptr := by
  unfold conflictMarked
  split_ifs
  · rw [List.map_map]; rfl
  · rfl

theorem forall₂_resolved_map_pos (env : Collaborators) (front : GermlineIndelLocusInfo)
    (hk : ClassifierKeepsPos env) (sb sb' : List GermlineDiploidSiteLocusInfo)
    (h : List.Forall₂ (SiteResolved env front) sb sb') :
    sb'.map GermlineDiploidSiteLocusInfo.pos = sb.map GermlineDiploidSiteLocusInfo.pos := by
  induction h with
  | nil => rfl
  | cons hab _ ih => simp [ih, siteResolved_pos env front _ _ hk hab]

theorem forall₂_resolved_map_ptr (env : Collaborators) (front : GermlineIndelLocusInfo)
    (hk : ClassifierKeepsPtr env) (sb sb' : List GermlineDiploidSiteLocusInfo)
    (h : List.Forall₂ (SiteResolved env front) sb sb') :
    sb'.map GermlineDiploidSiteLocusInfo.ptr = sb.map GermlineDiploidSiteLocusInfo.ptr := by
  induction h with
  | nil => rfl
  | cons hab _ ih => simp [ih, siteResolved_ptr env front _ _ hk hab]

/-- The site loop keeps the positions of the sites when the classifier does. -/
theorem modify_buffered_sites_map_pos (env : Collaborators) (hk : ClassifierKeepsPos env)
    (ib : List GermlineIndelLocusInfo) (sb sb' : List GermlineDiploidSiteLocusInfo)
    (ev ev' : List Event) (h : modify_buffered_sites env ib sb ev = .ok (sb', ev')) :
    sb'.map GermlineDiploidSiteLocusInfo.pos = sb.map GermlineDiploidSiteLocusInfo.pos := by
  obtain ⟨hne, hres, hnil⟩ := modify_buffered_sites_ok env ib sb sb' ev ev' h
  cases hh : ib.head? with
  | none =>
    have hsb : sb = [] := by
      by_contra hc
      have := hne hc
      cases ib with
      | nil => exact this rfl
      | cons a r => simp at hh
    rw [hsb, (hnil hsb).1]
  | some front => exact forall₂_resolved_map_pos env front hk _ _ (hres front hh).1

/-- The site loop keeps the identity of the sites when the classifier does. -/
theorem modify_buffered_sites_map_ptr (env : Collaborators) (hk : ClassifierKeepsPtr env)
    (ib : List GermlineIndelLocusInfo) (sb sb' : List GermlineDiploidSiteLocusInfo)
    (ev ev' : List Event) (h : modify_buffered_sites env ib sb ev = .ok (sb', ev')) :
    sb'.map GermlineDiploidSiteLocusInfo.ptr = sb.map GermlineDiploidSiteLocusInfo.ptr := by
  obtain ⟨hne, hres, hnil⟩ := modify_buffered_sites_ok env ib sb sb' ev ev' h
  cases hh : ib.head? with
  | none =>
    have hsb : sb = [] := by
      by_contra hc
      have := hne hc
      cases ib with
      | nil => exact this rfl
      | cons a r => simp at hh
    rw [hsb, (hnil hsb).1]
  | some front => exact forall₂_resolved_map_ptr env front hk _ _ (hres front hh).1

theorem modify_buffered_sites_sunk (env : Collaborators)
    (ib : List GermlineIndelLocusInfo) (sb sb' : List GermlineDiploidSiteLocusInfo)
    (ev ev' : List Event) (h : modify_buffered_sites env ib sb ev = .ok (sb', ev')) :
    sunk ev' = sunk ev := by
  obtain ⟨hne, hres, hnil⟩ := modify_buffered_sites_ok env ib sb sb' ev ev' h
  cases hh : ib.head? with
  | none =>
    have hsb : sb = [] := by
      by_contra hc
      have := hne hc
      cases ib with
      | nil => exact this rfl
      | cons a r => simp at hh
    rw [(hnil hsb).2]
  | some front =>
    obtain ⟨_, ms, hev, _, _⟩ := hres front hh
    simp [hev]

/-- In conflict mode the indels come out of the merged order one by one, in buffer order. -/
theorem mergedOrderAux_sublist_indels :
    ∀ (fuel : Nat) (ib nvb : List GermlineIndelLocusInfo) (sb : List GermlineDiploidSiteLocusInfo),
      ib.length + nvb.length + sb.length ≤ fuel →
      List.Sublist (ib.map Locus.indel) (mergedOrderAux true fuel ib nvb sb) := by
  intro fuel
  induction fuel with
  | zero =>
    intro ib nvb sb h
    have h1 : ib = [] := List.length_eq_zero.mp (by omega)
    subst h1
    simp
  | succ n ih =>
    intro ib nvb sb h
    unfold mergedOrderAux
    cases hsel : selectionRule (ib.head?.map GermlineIndelLocusInfo.pos)
        (nvb.head?.map GermlineIndelLocusInfo.pos)
        (sb.head?.map GermlineDiploidSiteLocusInfo.pos) with
    | NONE =>
      obtain ⟨h1, _, _⟩ := selectionRule_none _ _ _ hsel
      cases ib with
      | nil => simp
      | cons a r => simp at h1
    | INDEL =>
      obtain ⟨p, hp, _, _⟩ := selectionRule_indel _ _ _ hsel
      obtain ⟨a, rest, rfl, _⟩ := head?_map_eq_some _ _ _ hp
      simp only [List.head?_cons, List.tail_cons, List.map_cons, if_true]
      exact List.Sublist.cons₂ _ (ih rest nvb sb (by simp only [List.length_cons] at h; omega))
    | NONVARIANT_INDEL =>
      obtain ⟨p, hp, _, _⟩ := selectionRule_nonvariant _ _ _ hsel
      obtain ⟨a, rest, rfl, _⟩ := head?_map_eq_some _ _ _ hp
      simp only [List.head?_cons, List.tail_cons]
      exact List.Sublist.cons _ (ih ib rest sb (by simp only [List.length_cons] at h; omega))
    | SITE =>
      obtain ⟨p, hp, _, _⟩ := selectionRule_site _ _ _ hsel
      obtain ⟨a, rest, rfl, _⟩ := head?_map_eq_some _ _ _ hp
      simp only [List.head?_cons, List.tail_cons]
      exact List.Sublist.cons _ (ih ib nvb rest (by simp only [List.length_cons] at h; omega))

/-- A call of `process_overlaps` that returns: nothing happened (both indel buffers were
empty), or the buffers were emptied and the sink was handed a list `L` of records which is
a rearrangement of the buffered records as far as identity and, with a classifier that keeps
positions, position go; `L` is in position order when the buffers were; in conflict mode the
tagged indels are in `L` in buffer order. -/
theorem process_overlaps_ok_effect (env : Collaborators) (ov ov' : indel_overlapper)
    (h : process_overlaps env ov = .ok ov') :
    (ov' = ov ∧ ov._indel_buffer = [] ∧ ov._nonvariant_indel_buffer = []) ∨
    (¬ (ov._indel_buffer = [] ∧ ov._nonvariant_indel_buffer = []) ∧
      ov'._indel_end_pos = 0 ∧ ov'._indel_buffer = [] ∧ ov'._nonvariant_indel_buffer = [] ∧
      ov'._site_buffer = [] ∧
      ∃ L, sunk ov'.events = sunk ov.events ++ L ∧
        (ov._indel_buffer.length ≥ 2 →
          List.Sublist ((ov._indel_buffer.map setIndelConflict).map Locus.indel) L) ∧
        (ClassifierKeepsPtr env → List.Perm (L.map Locus.ident) ((buffered ov).map Locus.ident)) ∧
        (ClassifierKeepsPos env →
          List.Perm (L.map Locus.pos) ((buffered ov).map Locus.pos) ∧
          (ov._indel_buffer.Pairwise (fun a b => a.pos ≤ b.pos) →
           ov._nonvariant_indel_buffer.Pairwise (fun a b => a.pos ≤ b.pos) →
           ov._site_buffer.Pairwise (fun a b => a.pos ≤ b.pos) →
           L.Pairwise (fun a b => a.pos ≤ b.pos)))) := by
  rcases process_overlaps_impl_ok env ov ov' ((process_overlaps_ok_iff env ov ov').mp h) with
    ⟨h1, h2, h3⟩ | ⟨hne, sb', ev1, hm, hov'⟩
  · exact Or.inl ⟨h3, h1, h2⟩
  · right
    subst hov'
    refine ⟨hne, rfl, rfl, rfl, rfl,
      mergedOrder (decide (ov._indel_buffer.length > 1)) (conflictMarked ov._indel_buffer)
        ov._nonvariant_indel_buffer sb', ?_, ?_, ?_, ?_⟩
    · simp only [sunk_append, sunk_map_sink, modify_buffered_sites_sunk env _ _ _ _ _ hm]
    · intro h2
      have hdec : decide (ov._indel_buffer.length > 1) = true := by simp; omega
      rw [hdec, (conflictMarked_of_two _ h2).1]
      unfold mergedOrder
      exact mergedOrderAux_sublist_indels _ _ _ _ (by omega)
    · intro hk
      have hperm : List.Perm (mergedOrder (decide (ov._indel_buffer.length > 1))
          (conflictMarked ov._indel_buffer) ov._nonvariant_indel_buffer sb')
          ((conflictMarked ov._indel_buffer).map Locus.indel ++
            ov._nonvariant_indel_buffer.map Locus.indel ++ sb'.map Locus.site) := by
        unfold mergedOrder
        refine mergedOrderAux_perm _ _ _ _ _ (by omega) ?_
        by_cases hl : ov._indel_buffer.length > 1
        · left; simp [hl]
        · right; rw [conflictMarked_length]; omega
      refine (hperm.map Locus.ident).trans ?_
      have e1 : ((conflictMarked ov._indel_buffer).map Locus.indel).map Locus.ident
          = (ov._indel_buffer.map Locus.indel).map Locus.ident := by
        have := congrArg (List.map (Sum.inr : Nat → Nat ⊕ Nat)) (conflictMarked_map_ptr ov._indel_buffer)
        simpa [List.map_map, Function.comp_def, Locus.ident] using this
      have e2 : (sb'.map Locus.site).map Locus.ident
          = (ov._site_buffer.map Locus.site).map Locus.ident := by
        have := congrArg (List.map (Sum.inl : Nat → Nat ⊕ Nat)) (modify_buffered_sites_map_ptr env hk _ _ _ _ _ hm)
        simpa [List.map_map, Function.comp_def, Locus.ident] using this
      simp only [buffered, List.map_append, e1, e2]
      exact List.Perm.refl _
    · intro hk
      have hperm : List.Perm (mergedOrder (decide (ov._indel_buffer.length > 1))
          (conflictMarked ov._indel_buffer) ov._nonvariant_indel_buffer sb')
          ((conflictMarked ov._indel_buffer).map Locus.indel ++
            ov._nonvariant_indel_buffer.map Locus.indel ++ sb'.map Locus.site) := by
        unfold mergedOrder
        refine mergedOrderAux_perm _ _ _ _ _ (by omega) ?_
        by_cases hl : ov._indel_buffer.length > 1
        · left; simp [hl]
        · right; rw [conflictMarked_length]; omega
      have hsbpos := modify_buffered_sites_map_pos env hk _ _ _ _ _ hm
      constructor
      · refine (hperm.map Locus.pos).trans ?_
        have e1 : ((conflictMarked ov._indel_buffer).map Locus.indel).map Locus.pos
            = (ov._indel_buffer.map Locus.indel).map Locus.pos := by
          simpa [List.map_map, Function.comp_def, Locus.pos] using
            conflictMarked_map_pos ov._indel_buffer
        have e2 : (sb'.map Locus.site).map Locus.pos
            = (ov._site_buffer.map Locus.site).map Locus.pos := by
          simpa [List.map_map, Function.comp_def, Locus.pos] using hsbpos
        simp only [buffered, List.map_append, e1, e2]
        exact List.Perm.refl _
      · intro s1 s2 s3
        unfold mergedOrder
        refine mergedOrderAux_sorted _ _ _ _ _ ?_ s2 ?_
        · have : (ov._indel_buffer.map GermlineIndelLocusInfo.pos).Pairwise (· ≤ ·) :=
            List.pairwise_map.mpr s1
          rw [← conflictMarked_map_pos] at this
          exact List.pairwise_map.mp this
        · have : (ov._site_buffer.map GermlineDiploidSiteLocusInfo.pos).Pairwise (· ≤ ·) :=
            List.pairwise_map.mpr s3
          rw [← hsbpos] at this
          exact List.pairwise_map.mp this

/-! ## C2: every kept record reaches the sink once -/

theorem buffered_push_site (ov : indel_overlapper) (s : GermlineDiploidSiteLocusInfo) :
    buffered { ov with _site_buffer := ov._site_buffer ++ [s] } = buffered ov ++ [Locus.site s] := by
  simp [buffered]

theorem buffered_push_nonvariant (ov : indel_overlapper) (i : GermlineIndelLocusInfo) :
    List.Perm (buffered { ov with _nonvariant_indel_buffer := ov._nonvariant_indel_buffer ++ [i] })
      (buffered ov ++ [Locus.indel i]) := by
  simp only [buffered, List.map_append, List.map_cons, List.map_nil, List.append_assoc]
  refine List.Perm.append_left _ (List.Perm.append_left _ ?_)
  exact List.perm_append_comm

theorem buffered_push_indel (ov : indel_overlapper) (i : GermlineIndelLocusInfo) (e : Int) :
    List.Perm (buffered { ov with _indel_end_pos := e, _indel_buffer := ov._indel_buffer ++ [i] })
      (buffered ov ++ [Locus.indel i]) := by
  simp only [buffered, List.map_append, List.map_cons, List.map_nil, List.append_assoc]
  refine List.Perm.append_left _ ?_
  exact List.perm_append_comm.trans (by simp)

theorem process_overlaps_ok_consistent (env : Collaborators) (ov ov' : indel_overlapper)
    (h : process_overlaps env ov = .ok ov') (hinv : BuffersConsistent ov) :
    BuffersConsistent ov' ∧
    ((ov' = ov ∧ ov._indel_buffer = [] ∧ ov._nonvariant_indel_buffer = [] ∧ ov._site_buffer = []) ∨
     (ov'._indel_end_pos = 0 ∧ ov'._indel_buffer = [] ∧ ov'._nonvariant_indel_buffer = [] ∧
      ov'._site_buffer = [])) := by
  rcases process_overlaps_ok_effect env ov ov' h with ⟨rfl, h1, h2⟩ | ⟨_, h0, h1, h2, h3, _⟩
  · refine ⟨hinv, Or.inl ⟨rfl, h1, h2, ?_⟩⟩
    by_contra hc
    exact hinv.2 hc h1
  · exact ⟨⟨fun _ => h0, fun hc => absurd h3 hc⟩, Or.inr ⟨h0, h1, h2, h3⟩⟩

theorem process_overlaps_ok_ident (env : Collaborators) (ov ov' : indel_overlapper)
    (hk : ClassifierKeepsPtr env) (h : process_overlaps env ov = .ok ov') :
    List.Perm ((sunk ov'.events ++ buffered ov').map Locus.ident)
      ((sunk ov.events ++ buffered ov).map Locus.ident) := by
  rcases process_overlaps_ok_effect env ov ov' h with ⟨rfl, _, _⟩ |
    ⟨_, _, h1, h2, h3, L, hL, _, hid, _⟩
  · exact List.Perm.refl _
  · have hb : buffered ov' = [] := by simp [buffered, h1, h2, h3]
    rw [hb, hL, List.append_nil, List.map_append, List.map_append]
    exact List.Perm.append_left _ (hid hk)

/-- One submission that returns keeps the buffers consistent and adds the submitted record,
when it is kept, to what the overlapper holds or has handed on. -/
theorem submit_ok_ident (env : Collaborators) (ov ov' : indel_overlapper) (x : Submission)
    (hk : ClassifierKeepsPtr env) (hinv : BuffersConsistent ov)
    (hx : ∀ s, x = Submission.site s → 0 ≤ s.pos)
    (h : submit env ov x = .ok ov') :
    BuffersConsistent ov' ∧
    List.Perm ((sunk ov'.events ++ buffered ov').map Locus.ident)
      ((sunk ov.events ++ buffered ov).map Locus.ident ++
        (if x.kept then [x.ident] else [])) := by
  cases x with
  | site s =>
    simp only [submit] at h
    simp only [Submission.kept, if_true, Submission.ident]
    rcases process_site_ok env ov ov' s h with ⟨hlt, rfl⟩ | ⟨_, ov1, hp, _, _, rfl⟩
    · constructor
      · refine ⟨hinv.1, fun _ hib => ?_⟩
        have := hinv.1 hib
        have := hx s rfl
        simp only at hib
        omega
      · rw [buffered_push_site]
        simp [Locus.ident]
    · obtain ⟨hc1, _⟩ := process_overlaps_ok_consistent env ov ov1 hp hinv
      refine ⟨hc1, ?_⟩
      have hflush := process_overlaps_ok_ident env ov ov1 hk hp
      have hb : buffered { ov1 with events := ov1.events ++ [Event.sink (Locus.site s)] }
          = buffered ov1 := rfl
      have e1 : sunk (ov1.events ++ [Event.sink (Locus.site s)])
          = sunk ov1.events ++ [Locus.site s] := by simp [sunk]
      rw [hb]
      simp only [e1]
      have e2 : List.Perm (((sunk ov1.events ++ [Locus.site s]) ++ buffered ov1).map Locus.ident)
          ((sunk ov1.events ++ buffered ov1).map Locus.ident ++ [Sum.inl s.ptr]) := by
        have hc : List.Perm ([Locus.site s] ++ buffered ov1) (buffered ov1 ++ [Locus.site s]) :=
          List.perm_append_comm
        have := (List.Perm.append_left (sunk ov1.events) hc).map Locus.ident
        simpa [Locus.ident] using this
      exact e2.trans (List.Perm.append_right _ hflush)
  | indel i =>
    simp only [submit] at h
    rcases process_indel_ok env ov ov' i h with ⟨hd, rfl⟩ | ⟨hkept, ov1, hov1, hpush⟩
    · rw [hd]
      simp only [Bool.false_eq_true, if_false, List.append_nil]
      exact ⟨hinv, List.Perm.refl _⟩
    · rw [hkept]
      simp only [if_true, Submission.ident]
      have h1 : BuffersConsistent ov1 ∧
          List.Perm ((sunk ov1.events ++ buffered ov1).map Locus.ident)
            ((sunk ov.events ++ buffered ov).map Locus.ident) := by
        rcases hov1 with ⟨_, hp⟩ | ⟨_, rfl⟩
        · exact ⟨(process_overlaps_ok_consistent env ov ov1 hp hinv).1,
            process_overlaps_ok_ident env ov ov1 hk hp⟩
        · exact ⟨hinv, List.Perm.refl _⟩
      obtain ⟨hc1, hp1⟩ := h1
      rcases hpush with ⟨_, rfl⟩ | ⟨_, rfl⟩
      · constructor
        · exact ⟨hc1.1, hc1.2⟩
        · have hb := buffered_push_nonvariant ov1 i
          have : List.Perm
              ((sunk ov1.events ++ buffered { ov1 with _nonvariant_indel_buffer :=
                  ov1._nonvariant_indel_buffer ++ [i] }).map Locus.ident)
              ((sunk ov1.events ++ buffered ov1).map Locus.ident ++ [Sum.inr i.ptr]) := by
            have := ((List.Perm.append_left (sunk ov1.events) hb).map Locus.ident)
            simpa [Locus.ident] using this
          exact this.trans (List.Perm.append_right _ hp1)
      · constructor
        · exact ⟨fun hnil => by simp at hnil, fun _ => by simp⟩
        · have hb := buffered_push_indel ov1 i (max ov1._indel_end_pos i.end_)
          have : List.Perm
              ((sunk ov1.events ++ buffered { ov1 with
                  _indel_end_pos := max ov1._indel_end_pos i.end_,
                  _indel_buffer := ov1._indel_buffer ++ [i] }).map Locus.ident)
              ((sunk ov1.events ++ buffered ov1).map Locus.ident ++ [Sum.inr i.ptr]) := by
            have := ((List.Perm.append_left (sunk ov1.events) hb).map Locus.ident)
            simpa [Locus.ident] using this
          exact this.trans (List.Perm.append_right _ hp1)

theorem submitAll_ok_ident (env : Collaborators) (hk : ClassifierKeepsPtr env) :
    ∀ (subs : List Submission) (ov ov' : indel_overlapper),
      BuffersConsistent ov → SitesNonNegative subs →
      submitAll env subs ov = .ok ov' →
      BuffersConsistent ov' ∧
      List.Perm ((sunk ov'.events ++ buffered ov').map Locus.ident)
        ((sunk ov.events ++ buffered ov).map Locus.ident ++
          (subs.filter Submission.kept).map Submission.ident) := by
  intro subs
  induction subs with
  | nil =>
    intro ov ov' hinv _ h
    simp only [submitAll] at h
    injection h with h
    subst h
    exact ⟨hinv, by simp⟩
  | cons x rest ih =>
    intro ov ov' hinv hnn h
    unfold submitAll at h
    cases hs : submit env ov x with
    | ok ov1 =>
      simp only [hs] at h
      obtain ⟨hc1, hp1⟩ := submit_ok_ident env ov ov1 x hk hinv
        (fun s hxs => hnn s (by rw [hxs]; exact List.mem_cons_self _ _)) hs
      obtain ⟨hc2, hp2⟩ := ih ov1 ov' hc1
        (fun s hmem => hnn s (List.mem_cons_of_mem _ hmem)) h
      refine ⟨hc2, hp2.trans ?_⟩
      refine (List.Perm.append_right _ hp1).trans ?_
      by_cases hkx : x.kept = true
      · simp [List.filter_cons, hkx]
      · simp [List.filter_cons, hkx]
    | threw e a => simp [hs] at h
    | crashed => simp [hs] at h
    | outOfFuel => simp [hs] at h

/-- C2, the code at its failing input: a site at position `-1` submitted to the empty
overlapper is buffered (`-1 >= 0` is false, line 41) although no indel is buffered, against
the invariant the code asserts at line 240; the final `process_overlaps` returns at once
because both indel buffers are empty (line 223), and the run ends without any failure and
without the submitted site ever reaching the sink: the record is lost. -/
theorem completeness_counterexample :
    ∃ st, runAndFlush quietCollaborators [Submission.site c2Site] = .ok st ∧
      sunk st.events = [] ∧ st._site_buffer = [c2Site] :=
  ⟨{ _indel_end_pos := 0, _indel_buffer := [], _nonvariant_indel_buffer := [],
     _site_buffer := [c2Site], events := [] }, by decide, by decide, rfl⟩

/-- Away from the defect of C2 (a site buffered with no indel buffered, which takes a site
at a negative position): for every sequence of submissions to the empty overlapper whose
sites have non-negative positions, if the run and the final `process_overlaps` return (no exception,
no failed assertion), then the records handed to the sink are, by kind and object identity
and counted with multiplicity, exactly the submitted sites, variant indels and forced-output
non-variant indels; nothing is left in the buffers; and, the submitted objects being
distinct, no non-variant indel submitted without forced output is among them. -/
theorem completeness_no_duplication (env : Collaborators) (subs : List Submission)
    (st : indel_overlapper) (hk : ClassifierKeepsPtr env) (hnn : SitesNonNegative subs)
    (h : runAndFlush env subs = .ok st) :
    List.Perm ((sunk st.events).map Locus.ident)
      ((subs.filter Submission.kept).map Submission.ident) ∧
    buffered st = [] ∧
    ((subs.map Submission.ident).Nodup →
      ∀ x ∈ subs, x.kept = false → x.ident ∉ (sunk st.events).map Locus.ident) := by
  unfold runAndFlush at h
  cases hs : submitAll env subs indel_overlapper.empty with
  | ok ov =>
    simp only [hs] at h
    have hinv0 : BuffersConsistent indel_overlapper.empty :=
      ⟨fun _ => rfl, fun hc => absurd rfl hc⟩
    obtain ⟨hc, hp⟩ := submitAll_ok_ident env hk subs _ ov hinv0 hnn hs
    have hflush := process_overlaps_ok_ident env ov st hk h
    obtain ⟨_, hcase⟩ := process_overlaps_ok_consistent env ov st h hc
    have hb : buffered st = [] := by
      rcases hcase with ⟨rfl, h1, h2, h3⟩ | ⟨_, h1, h2, h3⟩ <;> simp [buffered, h1, h2, h3]
    have hperm : List.Perm ((sunk st.events).map Locus.ident)
        ((subs.filter Submission.kept).map Submission.ident) := by
      have := hflush.trans hp
      rw [hb] at this
      simpa [indel_overlapper.empty, buffered, sunk] using this
    refine ⟨hperm, hb, ?_⟩
    intro hnd x hx hkx hmem
    have hmem2 := hperm.subset hmem
    obtain ⟨y, hy, hxy⟩ := List.mem_map.mp hmem2
    have hy' := List.mem_filter.mp hy
    have : y = x := List.inj_on_of_nodup_map hnd hy'.1 hx hxy
    rw [this, hkx] at hy'
    exact absurd hy'.2 (by simp)
  | threw e a => simp [hs] at h
  | crashed => simp [hs] at h
  | outOfFuel => simp [hs] at h

/-- Completeness at a concrete run with non-negative positions: an indel, a site under it,
a discarded non-variant indel and a site behind the indel. -/
theorem completeness_no_duplication_witness :
    List.Perm ((sunk c10After.events).map Locus.ident)
      ((c2Run.filter Submission.kept).map Submission.ident) ∧
    buffered c10After = [] ∧
    ((c2Run.map Submission.ident).Nodup →
      ∀ x ∈ c2Run, x.kept = false → x.ident ∉ (sunk c10After.events).map Locus.ident) :=
  completeness_no_duplication quietCollaborators c2Run c10After quiet_keeps_ptr
    (by
      intro s hs
      simp [c2Run] at hs
      rcases hs with rfl | rfl <;> decide)
    (by decide)

/-! ## C1: order of the records handed to the sink -/

theorem mem_of_perm_map_pos (l1 l2 : List Locus)
    (h : List.Perm (l1.map Locus.pos) (l2.map Locus.pos)) (z : Locus) (hz : z ∈ l1) :
    ∃ w ∈ l2, w.pos = z.pos := by
  have : z.pos ∈ l2.map Locus.pos := h.subset (List.mem_map_of_mem _ hz)
  obtain ⟨w, hw, hwz⟩ := List.mem_map.mp this
  exact ⟨w, hw, hwz⟩

theorem process_overlaps_ok_ordered (env : Collaborators) (ov ov' : indel_overlapper)
    (hk : ClassifierKeepsPos env) (h : process_overlaps env ov = .ok ov') (ho : Ordered ov) :
    Ordered ov' ∧ List.Perm ((held ov').map Locus.pos) ((held ov).map Locus.pos) := by
  rcases process_overlaps_ok_effect env ov ov' h with ⟨rfl, _, _⟩ |
    ⟨_, _, h1, h2, h3, L, hL, _, _, hpos⟩
  · exact ⟨ho, List.Perm.refl _⟩
  · obtain ⟨hperm, hsorted⟩ := hpos hk
    obtain ⟨o1, o2, o3, o4, o5⟩ := ho
    have hb : buffered ov' = [] := by simp [buffered, h1, h2, h3]
    refine ⟨⟨?_, by rw [h1]; exact List.Pairwise.nil, by rw [h2]; exact List.Pairwise.nil,
      by rw [h3]; exact List.Pairwise.nil, ?_⟩, ?_⟩
    · rw [hL]
      refine List.pairwise_append.mpr ⟨o1, hsorted o2 o3 o4, ?_⟩
      intro a ha b hb'
      obtain ⟨w, hw, hwz⟩ := mem_of_perm_map_pos L (buffered ov) hperm b hb'
      rw [← hwz]
      exact o5 a ha w hw
    · intro a _ b hb'
      rw [hb] at hb'
      cases hb'
    · unfold held
      rw [hb, hL, List.append_nil, List.map_append, List.map_append]
      exact List.Perm.append_left _ hperm

theorem pairwise_snoc {α : Type} (pos : α → Int) (l : List α) (x : α)
    (hl : l.Pairwise (fun a b => pos a ≤ pos b)) (hx : ∀ a ∈ l, pos a ≤ pos x) :
    (l ++ [x]).Pairwise (fun a b => pos a ≤ pos b) := by
  refine List.pairwise_append.mpr ⟨hl, List.pairwise_singleton _ _, ?_⟩
  intro a ha b hb
  rw [List.mem_singleton.mp hb]
  exact hx a ha

theorem mem_held_of_sunk (ov : indel_overlapper) (a : Locus) (h : a ∈ sunk ov.events) :
    a ∈ held ov := List.mem_append_left _ h

theorem mem_held_of_buffered (ov : indel_overlapper) (a : Locus) (h : a ∈ buffered ov) :
    a ∈ held ov := List.mem_append_right _ h

theorem mem_buffered_indel (ov : indel_overlapper) (a : GermlineIndelLocusInfo)
    (h : a ∈ ov._indel_buffer) : Locus.indel a ∈ buffered ov := by
  unfold buffered
  exact List.mem_append_left _ (List.mem_append_left _ (List.mem_map_of_mem _ h))

theorem mem_buffered_nonvariant (ov : indel_overlapper) (a : GermlineIndelLocusInfo)
    (h : a ∈ ov._nonvariant_indel_buffer) : Locus.indel a ∈ buffered ov := by
  unfold buffered
  exact List.mem_append_left _ (List.mem_append_right _ (List.mem_map_of_mem _ h))

theorem mem_buffered_site (ov : indel_overlapper) (a : GermlineDiploidSiteLocusInfo)
    (h : a ∈ ov._site_buffer) : Locus.site a ∈ buffered ov := by
  unfold buffered
  exact List.mem_append_right _ (List.mem_map_of_mem _ h)

/-- One submission that returns, of a record not before anything held, keeps the order. -/
theorem submit_ok_ordered (env : Collaborators) (ov ov' : indel_overlapper) (x : Submission)
    (hk : ClassifierKeepsPos env) (hinv : BuffersConsistent ov) (ho : Ordered ov)
    (hx : ∀ s, x = Submission.site s → 0 ≤ s.pos)
    (hle : x.kept = true → ∀ z ∈ held ov, z.pos ≤ x.pos)
    (h : submit env ov x = .ok ov') :
    BuffersConsistent ov' ∧ Ordered ov' ∧
    (∀ z ∈ held ov', (∃ w ∈ held ov, w.pos = z.pos) ∨ (x.kept = true ∧ z.pos = x.pos)) := by
  cases x with
  | site s =>
    simp only [submit] at h
    have hle' := hle rfl
    simp only [Submission.pos] at hle'
    rcases process_site_ok env ov ov' s h with ⟨hlt, rfl⟩ | ⟨_, ov1, hp, _, _, rfl⟩
    · obtain ⟨o1, o2, o3, o4, o5⟩ := ho
      refine ⟨⟨hinv.1, fun _ hib => ?_⟩, ⟨o1, o2, o3, ?_, ?_⟩, ?_⟩
      · have := hinv.1 hib
        have := hx s rfl
        simp only at hib
        omega
      · exact pairwise_snoc _ _ _ o4 (fun a ha =>
          hle' _ (mem_held_of_buffered ov _ (mem_buffered_site ov a ha)))
      · intro a ha b hb
        rw [buffered_push_site] at hb
        rcases List.mem_append.mp hb with hb | hb
        · exact o5 a ha b hb
        · rw [List.mem_singleton.mp hb]
          exact hle' a (mem_held_of_sunk ov a ha)
      · intro z hz
        unfold held at hz
        rw [buffered_push_site, ← List.append_assoc] at hz
        rcases List.mem_append.mp hz with hz | hz
        · exact Or.inl ⟨z, hz, rfl⟩
        · rw [List.mem_singleton.mp hz]
          exact Or.inr ⟨rfl, rfl⟩
    · obtain ⟨hc1, hcase⟩ := process_overlaps_ok_consistent env ov ov1 hp hinv
      obtain ⟨ho1, hperm⟩ := process_overlaps_ok_ordered env ov ov1 hk hp ho
      have hb1 : buffered ov1 = [] := by
        rcases hcase with ⟨rfl, h1, h2, h3⟩ | ⟨_, h1, h2, h3⟩ <;> simp [buffered, h1, h2, h3]
      have hsunk : sunk (ov1.events ++ [Event.sink (Locus.site s)])
          = sunk ov1.events ++ [Locus.site s] := by simp [sunk]
      have hbuf : buffered { ov1 with events := ov1.events ++ [Event.sink (Locus.site s)] }
          = [] := hb1
      obtain ⟨o1, o2, o3, o4, o5⟩ := ho1
      refine ⟨hc1, ⟨?_, o2, o3, o4, ?_⟩, ?_⟩
      · simp only [hsunk]
        refine pairwise_snoc _ _ _ o1 (fun a ha => ?_)
        obtain ⟨w, hw, hwz⟩ := mem_of_perm_map_pos _ _ hperm a (mem_held_of_sunk ov1 a ha)
        rw [← hwz]
        exact hle' w hw
      · intro a _ b hb
        rw [hbuf] at hb
        cases hb
      · intro z hz
        unfold held at hz
        rw [hbuf, List.append_nil] at hz
        simp only [hsunk] at hz
        rcases List.mem_append.mp hz with hz | hz
        · obtain ⟨w, hw, hwz⟩ := mem_of_perm_map_pos _ _ hperm z (mem_held_of_sunk ov1 z hz)
          exact Or.inl ⟨w, hw, hwz⟩
        · rw [List.mem_singleton.mp hz]
          exact Or.inr ⟨rfl, rfl⟩
  | indel i =>
    simp only [submit] at h
    rcases process_indel_ok env ov ov' i h with ⟨hd, rfl⟩ | ⟨hkept, ov1, hov1, hpush⟩
    · exact ⟨hinv, ho, fun z hz => Or.inl ⟨z, hz, rfl⟩⟩
    · have hle' := hle hkept
      simp only [Submission.pos] at hle'
      have h1 : BuffersConsistent ov1 ∧ Ordered ov1 ∧
          List.Perm ((held ov1).map Locus.pos) ((held ov).map Locus.pos) := by
        rcases hov1 with ⟨_, hp⟩ | ⟨_, rfl⟩
        · exact ⟨(process_overlaps_ok_consistent env ov ov1 hp hinv).1,
            process_overlaps_ok_ordered env ov ov1 hk hp ho⟩
        · exact ⟨hinv, ho, List.Perm.refl _⟩
      obtain ⟨hc1, ⟨o1, o2, o3, o4, o5⟩, hperm⟩ := h1
      have hle1 : ∀ z ∈ held ov1, z.pos ≤ i.pos := by
        intro z hz
        obtain ⟨w, hw, hwz⟩ := mem_of_perm_map_pos _ _ hperm z hz
        rw [← hwz]
        exact hle' w hw
      rcases hpush with ⟨_, rfl⟩ | ⟨_, rfl⟩
      · refine ⟨⟨hc1.1, hc1.2⟩, ⟨o1, o2, ?_, o4, ?_⟩, ?_⟩
        · exact pairwise_snoc _ _ _ o3 (fun a ha =>
            hle1 _ (mem_held_of_buffered ov1 _ (mem_buffered_nonvariant ov1 a ha)))
        · intro a ha b hb
          rcases List.mem_append.mp ((buffered_push_nonvariant ov1 i).subset hb) with hb | hb
          · exact o5 a ha b hb
          · rw [List.mem_singleton.mp hb]
            exact hle1 a (mem_held_of_sunk ov1 a ha)
        · intro z hz
          unfold held at hz
          rcases List.mem_append.mp hz with hz | hz
          · obtain ⟨w, hw, hwz⟩ := mem_of_perm_map_pos _ _ hperm z (mem_held_of_sunk ov1 z hz)
            exact Or.inl ⟨w, hw, hwz⟩
          · rcases List.mem_append.mp ((buffered_push_nonvariant ov1 i).subset hz) with hz | hz
            · obtain ⟨w, hw, hwz⟩ :=
                mem_of_perm_map_pos _ _ hperm z (mem_held_of_buffered ov1 z hz)
              exact Or.inl ⟨w, hw, hwz⟩
            · rw [List.mem_singleton.mp hz]
              exact Or.inr ⟨hkept, rfl⟩
      · refine ⟨⟨fun hnil => by simp at hnil, fun _ => by simp⟩, ⟨o1, ?_, o3, o4, ?_⟩, ?_⟩
        · exact pairwise_snoc _ _ _ o2 (fun a ha =>
            hle1 _ (mem_held_of_buffered ov1 _ (mem_buffered_indel ov1 a ha)))
        · intro a ha b hb
          rcases List.mem_append.mp ((buffered_push_indel ov1 i _).subset hb) with hb | hb
          · exact o5 a ha b hb
          · rw [List.mem_singleton.mp hb]
            exact hle1 a (mem_held_of_sunk ov1 a ha)
        · intro z hz
          unfold held at hz
          rcases List.mem_append.mp hz with hz | hz
          · obtain ⟨w, hw, hwz⟩ := mem_of_perm_map_pos _ _ hperm z (mem_held_of_sunk ov1 z hz)
            exact Or.inl ⟨w, hw, hwz⟩
          · rcases List.mem_append.mp ((buffered_push_indel ov1 i _).subset hz) with hz | hz
            · obtain ⟨w, hw, hwz⟩ :=
                mem_of_perm_map_pos _ _ hperm z (mem_held_of_buffered ov1 z hz)
              exact Or.inl ⟨w, hw, hwz⟩
            · rw [List.mem_singleton.mp hz]
              exact Or.inr ⟨hkept, rfl⟩

theorem submitAll_ok_ordered (env : Collaborators) (hk : ClassifierKeepsPos env) :
    ∀ (subs : List Submission) (ov ov' : indel_overlapper),
      BuffersConsistent ov → Ordered ov → SitesNonNegative subs →
      ((subs.filter Submission.kept).map Submission.pos).Pairwise (· ≤ ·) →
      (∀ z ∈ held ov, ∀ y ∈ subs, y.kept = true → z.pos ≤ y.pos) →
      submitAll env subs ov = .ok ov' →
      BuffersConsistent ov' ∧ Ordered ov' := by
  intro subs
  induction subs with
  | nil =>
    intro ov ov' hinv ho _ _ _ h
    simp only [submitAll] at h
    injection h with h
    subst h
    exact ⟨hinv, ho⟩
  | cons x rest ih =>
    intro ov ov' hinv ho hnn hs hle h
    unfold submitAll at h
    cases hsub : submit env ov x with
    | ok ov1 =>
      simp only [hsub] at h
      obtain ⟨hc1, ho1, hpos1⟩ := submit_ok_ordered env ov ov1 x hk hinv ho
        (fun s hxs => hnn s (by rw [hxs]; exact List.mem_cons_self _ _))
        (fun hkx z hz => hle z hz x (List.mem_cons_self _ _) hkx) hsub
      have hs' : ((rest.filter Submission.kept).map Submission.pos).Pairwise (· ≤ ·) := by
        by_cases hkx : x.kept = true
        · rw [List.filter_cons_of_pos hkx, List.map_cons] at hs
          exact (List.pairwise_cons.mp hs).2
        · rw [List.filter_cons_of_neg hkx] at hs
          exact hs
      refine ih ov1 ov' hc1 ho1 (fun s hmem => hnn s (List.mem_cons_of_mem _ hmem)) hs' ?_ h
      intro z hz y hy hky
      rcases hpos1 z hz with ⟨w, hw, hwz⟩ | ⟨hkx, hzx⟩
      · rw [← hwz]
        exact hle w hw y (List.mem_cons_of_mem _ hy) hky
      · rw [hzx]
        rw [List.filter_cons_of_pos hkx, List.map_cons] at hs
        exact (List.pairwise_cons.mp hs).1 y.pos
          (List.mem_map_of_mem _ (List.mem_filter.mpr ⟨hy, hky⟩))
    | threw e a => simp [hsub] at h
    | crashed => simp [hsub] at h
    | outOfFuel => simp [hsub] at h

/-- C1, as stated, fails, in two ways. A site at 10 followed by a variant indel at 5 is a
sequence in which each kind is in position order; the site is handed to the sink at once and
the indel behind it, so the sink receives positions 10, 5. And in a run that is in position
order across all kinds but begins with a site at `-5`, that site is buffered without any
indel (`-5 >= 0` is false) and comes out in a later resolve cycle, behind the site at 7. -/
theorem order_preservation_counterexample :
    (runAndFlush quietCollaborators [Submission.site c1Site, Submission.indel c1Indel]
        = .ok c1After ∧
      (sunk c1After.events).map Locus.pos = [10, 5] ∧
      ¬ (sunk c1After.events).Pairwise (fun a b => a.pos ≤ b.pos)) ∧
    ((c1NegativeRun.map Submission.pos).Pairwise (· ≤ ·) ∧
      ∃ st, runAndFlush quietCollaborators c1NegativeRun = .ok st ∧
        (sunk st.events).map Locus.pos = [7, -5, 8, 9, 13]) := by
  refine ⟨⟨by decide, by decide, ?_⟩, by decide, ?_⟩
  · intro h
    have : (sunk c1After.events) = [Locus.site c1Site, Locus.indel c1Indel] := by decide
    rw [this] at h
    have := (List.pairwise_cons.mp h).1 (Locus.indel c1Indel) (by simp)
    revert this
    decide
  · refine ⟨_, rfl, ?_⟩
    decide

/-- C1, amended: for every sequence of submissions to the empty overlapper in which the
positions of the records that are not discarded are non-decreasing in submission order
across all kinds and the sites have non-negative positions, if the run and the final
`process_overlaps` return, with a classifier that leaves positions as they are, the records
handed to the sink are in non-decreasing position order. -/
theorem order_preservation_global (env : Collaborators) (subs : List Submission)
    (st : indel_overlapper) (hk : ClassifierKeepsPos env) (hnn : SitesNonNegative subs)
    (hs : ((subs.filter Submission.kept).map Submission.pos).Pairwise (· ≤ ·))
    (h : runAndFlush env subs = .ok st) :
    (sunk st.events).Pairwise (fun a b => a.pos ≤ b.pos) := by
  unfold runAndFlush at h
  cases hsub : submitAll env subs indel_overlapper.empty with
  | ok ov =>
    simp only [hsub] at h
    have hinv0 : BuffersConsistent indel_overlapper.empty :=
      ⟨fun _ => rfl, fun hc => absurd rfl hc⟩
    have ho0 : Ordered indel_overlapper.empty := by
      refine ⟨List.Pairwise.nil, List.Pairwise.nil, List.Pairwise.nil, List.Pairwise.nil, ?_⟩
      intro a ha
      cases ha
    obtain ⟨_, ho⟩ := submitAll_ok_ordered env hk subs _ ov hinv0 ho0 hnn hs
      (fun z hz => by cases hz) hsub
    exact (process_overlaps_ok_ordered env ov st hk h ho).1.1
  | threw e a => simp [hsub] at h
  | crashed => simp [hsub] at h
  | outOfFuel => simp [hsub] at h

/-- C1, amended, at a concrete run. -/
theorem order_preservation_global_witness :
    (sunk c10After.events).Pairwise (fun a b => a.pos ≤ b.pos) :=
  order_preservation_global quietCollaborators c2Run c10After quiet_keeps_pos
    (by
      intro s hs
      simp [c2Run] at hs
      rcases hs with rfl | rfl <;> decide)
    (by decide)
    (by decide)

/-! ## C5: conflict tagging of overlapping indels -/

theorem submitAll_append (env : Collaborators) :
    ∀ (l1 l2 : List Submission) (ov ov' : indel_overlapper),
      submitAll env (l1 ++ l2) ov = .ok ov' →
      ∃ ov1, submitAll env l1 ov = .ok ov1 ∧ submitAll env l2 ov1 = .ok ov' := by
  intro l1
  induction l1 with
  | nil => intro l2 ov ov' h; exact ⟨ov, rfl, h⟩
  | cons x rest ih =>
    intro l2 ov ov' h
    simp only [List.cons_append] at h
    unfold submitAll at h
    cases hs : submit env ov x with
    | ok ova =>
      simp only [hs] at h
      obtain ⟨ov1, h1, h2⟩ := ih l2 ova ov' h
      refine ⟨ov1, ?_, h2⟩
      unfold submitAll
      simp only [hs]
      exact h1
    | threw e a => simp [hs] at h
    | crashed => simp [hs] at h
    | outOfFuel => simp [hs] at h

theorem submitAll_singleton (env : Collaborators) (x : Submission) (ov ov' : indel_overlapper)
    (h : submitAll env [x] ov = .ok ov') : submit env ov x = .ok ov' := by
  unfold submitAll at h
  cases hs : submit env ov x with
  | ok ova =>
    simp only [hs, submitAll] at h
    rw [h]
  | threw e a => simp [hs] at h
  | crashed => simp [hs] at h
  | outOfFuel => simp [hs] at h

theorem runAndFlush_ok (env : Collaborators) (subs : List Submission) (st : indel_overlapper)
    (h : runAndFlush env subs = .ok st) :
    ∃ ov, submitAll env subs indel_overlapper.empty = .ok ov ∧
      process_overlaps env ov = .ok st := by
  unfold runAndFlush at h
  cases hsub : submitAll env subs indel_overlapper.empty with
  | ok ov =>
    rw [hsub] at h
    exact ⟨ov, rfl, h⟩
  | threw e a => rw [hsub] at h; cases h
  | crashed => rw [hsub] at h; cases h
  | outOfFuel => rw [hsub] at h; cases h

/-- While an indel `a` is buffered, a submission before the end of `a` triggers no resolve
cycle: `a` stays buffered. -/
theorem submit_keeps_indel (env : Collaborators) (a : GermlineIndelLocusInfo)
    (ov ov' : indel_overlapper) (x : Submission)
    (hx : x.pos < a.end_) (hmem : List.Sublist [a] ov._indel_buffer)
    (hend : a.end_ ≤ ov._indel_end_pos) (h : submit env ov x = .ok ov') :
    List.Sublist [a] ov'._indel_buffer ∧ a.end_ ≤ ov'._indel_end_pos ∧
    (∀ i, x = Submission.indel i → i.isVariantLocus = true →
      ov'._indel_buffer = ov._indel_buffer ++ [i]) := by
  cases x with
  | site s =>
    simp only [submit] at h
    simp only [Submission.pos] at hx
    rcases process_site_ok env ov ov' s h with ⟨_, rfl⟩ | ⟨hge, _⟩
    · exact ⟨hmem, hend, fun i hi => by cases hi⟩
    · omega
  | indel i =>
    simp only [submit] at h
    simp only [Submission.pos] at hx
    rcases process_indel_ok env ov ov' i h with ⟨hd, rfl⟩ | ⟨_, ov1, hov1, hpush⟩
    · refine ⟨hmem, hend, fun j hj hv => ?_⟩
      injection hj with hj
      subst hj
      simp [Submission.kept, hv] at hd
    · have h1 : ov1 = ov := by
        rcases hov1 with ⟨hgt, _⟩ | ⟨_, rfl⟩
        · omega
        · rfl
      subst h1
      rcases hpush with ⟨hnv, rfl⟩ | ⟨_, rfl⟩
      · refine ⟨hmem, hend, fun j hj hv => ?_⟩
        injection hj with hj
        subst hj
        rw [hnv] at hv
        cases hv
      · refine ⟨hmem.trans (List.sublist_append_left _ _), ?_, fun j hj _ => ?_⟩
        · exact le_trans hend (le_max_left _ _)
        · injection hj with hj
          subst hj
          rfl

theorem submitAll_keeps_indel (env : Collaborators) (a : GermlineIndelLocusInfo) :
    ∀ (subs : List Submission) (ov ov' : indel_overlapper),
      (∀ x ∈ subs, x.pos < a.end_) → List.Sublist [a] ov._indel_buffer →
      a.end_ ≤ ov._indel_end_pos → submitAll env subs ov = .ok ov' →
      List.Sublist [a] ov'._indel_buffer ∧ a.end_ ≤ ov'._indel_end_pos := by
  intro subs
  induction subs with
  | nil =>
    intro ov ov' _ hmem hend h
    simp only [submitAll] at h
    injection h with h
    subst h
    exact ⟨hmem, hend⟩
  | cons x rest ih =>
    intro ov ov' hx hmem hend h
    unfold submitAll at h
    cases hs : submit env ov x with
    | ok ov1 =>
      simp only [hs] at h
      obtain ⟨h1, h2, _⟩ := submit_keeps_indel env a ov ov1 x
        (hx x (List.mem_cons_self _ _)) hmem hend hs
      exact ih ov1 ov' (fun y hy => hx y (List.mem_cons_of_mem _ hy)) h1 h2 h
    | threw e a => simp [hs] at h
    | crashed => simp [hs] at h
    | outOfFuel => simp [hs] at h

theorem process_overlaps_pair (env : Collaborators) (a b : GermlineIndelLocusInfo)
    (ov ov' : indel_overlapper) (h : process_overlaps env ov = .ok ov')
    (hq : PairPending a b ov) :
    List.Sublist [Locus.indel (setIndelConflict a), Locus.indel (setIndelConflict b)]
      (sunk ov'.events) := by
  rcases process_overlaps_ok_effect env ov ov' h with ⟨rfl, hnil, _⟩ |
    ⟨_, _, _, _, _, L, hL, hsub, _, _⟩
  · rcases hq with hq | hq
    · rw [hnil] at hq
      cases hq
    · exact hq
  · rw [hL]
    rcases hq with hq | hq
    · have hlen : ov._indel_buffer.length ≥ 2 := by
        have := hq.length_le
        simpa using this
      have h1 := (hq.map setIndelConflict).map Locus.indel
      exact (h1.trans (hsub hlen)).trans (List.sublist_append_right _ _)
    · exact hq.trans (List.sublist_append_left _ _)

theorem submit_pair (env : Collaborators) (a b : GermlineIndelLocusInfo)
    (ov ov' : indel_overlapper) (x : Submission) (h : submit env ov x = .ok ov')
    (hq : PairPending a b ov) : PairPending a b ov' := by
  cases x with
  | site s =>
    simp only [submit] at h
    rcases process_site_ok env ov ov' s h with ⟨_, rfl⟩ | ⟨_, ov1, hp, _, _, rfl⟩
    · exact hq
    · right
      have := process_overlaps_pair env a b ov ov1 hp hq
      simp only [sunk_append]
      exact this.trans (List.sublist_append_left _ _)
  | indel i =>
    simp only [submit] at h
    rcases process_indel_ok env ov ov' i h with ⟨_, rfl⟩ | ⟨_, ov1, hov1, hpush⟩
    · exact hq
    · have hq1 : PairPending a b ov1 := by
        rcases hov1 with ⟨_, hp⟩ | ⟨_, rfl⟩
        · exact Or.inr (process_overlaps_pair env a b ov ov1 hp hq)
        · exact hq
      rcases hpush with ⟨_, rfl⟩ | ⟨_, rfl⟩
      · exact hq1
      · rcases hq1 with hq1 | hq1
        · exact Or.inl (hq1.trans (List.sublist_append_left _ _))
        · exact Or.inr hq1

theorem submitAll_pair (env : Collaborators) (a b : GermlineIndelLocusInfo) :
    ∀ (subs : List Submission) (ov ov' : indel_overlapper),
      submitAll env subs ov = .ok ov' → PairPending a b ov → PairPending a b ov' := by
  intro subs
  induction subs with
  | nil =>
    intro ov ov' h hq
    simp only [submitAll] at h
    injection h with h
    subst h
    exact hq
  | cons x rest ih =>
    intro ov ov' h hq
    unfold submitAll at h
    cases hs : submit env ov x with
    | ok ov1 =>
      simp only [hs] at h
      exact ih ov1 ov' h (submit_pair env a b ov ov1 x hs hq)
    | threw e a => simp [hs] at h
    | crashed => simp [hs] at h
    | outOfFuel => simp [hs] at h

/-- C5: for every submission sequence whose positions are non-decreasing in submission
order and whose run, final `process_overlaps` included, returns, two submitted variant
indels `a` then `b` with overlapping spans (`a.pos <= b.pos < a.end`) are handed to the sink
as two records, `a` before `b`, each being the submitted record with the `IndelConflict`
flag added. -/
theorem conflict_tagging (env : Collaborators) (pre mid post : List Submission)
    (a b : GermlineIndelLocusInfo) (st : indel_overlapper)
    (ha : a.isVariantLocus = true) (hb : b.isVariantLocus = true)
    (hs : ((pre ++ [Submission.indel a] ++ mid ++ [Submission.indel b] ++ post).map
            Submission.pos).Pairwise (· ≤ ·))
    (hov : a.pos ≤ b.pos ∧ b.pos < a.end_)
    (h : runAndFlush env (pre ++ [Submission.indel a] ++ mid ++ [Submission.indel b] ++ post)
          = .ok st) :
    List.Sublist [Locus.indel (setIndelConflict a), Locus.indel (setIndelConflict b)]
        (sunk st.events) ∧
    index_t.IndelConflict ∈ (setIndelConflict a).filters ∧
    index_t.IndelConflict ∈ (setIndelConflict b).filters := by
  refine ⟨?_, by simp [setIndelConflict], by simp [setIndelConflict]⟩
  obtain ⟨ov5, hsub, h⟩ := runAndFlush_ok env _ st h
  obtain ⟨ov4, h4, hpost⟩ := submitAll_append env _ _ _ _ hsub
  obtain ⟨ov3, h3, hB⟩ := submitAll_append env _ _ _ _ h4
  obtain ⟨ov2, h2, hmid⟩ := submitAll_append env _ _ _ _ h3
  obtain ⟨ov1, _, hA⟩ := submitAll_append env _ _ _ _ h2
  have hA' := submitAll_singleton env _ _ _ hA
  have hB' := submitAll_singleton env _ _ _ hB
  -- after `a` was submitted it is buffered
  have hA2 : List.Sublist [a] ov2._indel_buffer ∧ a.end_ ≤ ov2._indel_end_pos := by
    simp only [submit] at hA'
    rcases process_indel_ok env ov1 ov2 a hA' with ⟨hd, _⟩ | ⟨_, ova, _, hpush⟩
    · simp [Submission.kept, ha] at hd
    · rcases hpush with ⟨hnv, _⟩ | ⟨_, rfl⟩
      · rw [ha] at hnv; cases hnv
      · exact ⟨List.sublist_append_right _ _, le_max_right _ _⟩
  -- every submission between `a` and `b` lies before the end of `a`
  have hmidpos : ∀ x ∈ mid, x.pos < a.end_ := by
    intro x hx
    have hle : x.pos ≤ b.pos := by
      have hs' := hs
      rw [List.map_append, List.map_append] at hs'
      have h1 := (List.pairwise_append.mp (List.pairwise_append.mp hs').1).2.2
      exact h1 x.pos (List.mem_map_of_mem _ (List.mem_append_right _ hx))
        (Submission.indel b).pos (List.mem_map_of_mem _ (List.mem_singleton_self _))
    have := hov.2
    omega
  obtain ⟨hA3, hend3⟩ := submitAll_keeps_indel env a mid ov2 ov3 hmidpos hA2.1 hA2.2 hmid
  obtain ⟨_, _, hpushB⟩ := submit_keeps_indel env a ov3 ov4 (Submission.indel b)
    hov.2 hA3 hend3 hB'
  have hq4 : PairPending a b ov4 := by
    left
    rw [hpushB b rfl hb]
    exact List.Sublist.append hA3 (List.Sublist.refl [b])
  have hq5 := submitAll_pair env a b post ov4 ov5 hpost hq4
  exact process_overlaps_pair env a b ov5 st h hq5

/-- C5 at a concrete run: two indels at position 10 over `[10,15)` and `[10,13)` with a
site at 10 between them. -/
theorem conflict_tagging_witness :
    List.Sublist [Locus.indel (setIndelConflict c7Indel), Locus.indel (setIndelConflict c8Indel)]
        (sunk c5After.events) ∧
    index_t.IndelConflict ∈ (setIndelConflict c7Indel).filters ∧
    index_t.IndelConflict ∈ (setIndelConflict c8Indel).filters :=
  conflict_tagging quietCollaborators [] [Submission.site c8Site] [] c7Indel c8Indel c5After
    (by decide) (by decide) (by decide) (by decide) (by decide)

/-! ## The bound on loop iterations is never reached -/

theorem process_overlaps_ne_outOfFuel (env : Collaborators) (ov : indel_overlapper) :
    process_overlaps env ov ≠ .outOfFuel := by
  unfold process_overlaps
  cases h : process_overlaps_impl env ov with
  | ok a => simp
  | threw e a => simp
  | crashed => simp
  | outOfFuel => exact absurd h (process_overlaps_impl_ne_outOfFuel env ov)

theorem submit_ne_outOfFuel (env : Collaborators) (ov : indel_overlapper) (x : Submission) :
    submit env ov x ≠ .outOfFuel := by
  cases x with
  | site s =>
    simp only [submit, process_site]
    by_cases h1 : s.pos ≥ ov._indel_end_pos
    · rw [if_pos h1]
      cases h : process_overlaps env ov with
      | ok ov1 =>
        rcases sink_call_cases env (Locus.site s) ov1.events with hs | ⟨e, hs⟩ <;>
          simp only [hs] <;> split_ifs <;> simp
      | threw e a => simp
      | crashed => simp
      | outOfFuel => exact absurd h (process_overlaps_ne_outOfFuel env ov)
    · rw [if_neg h1]
      simp
  | indel i =>
    simp only [submit, process_indel]
    by_cases h1 : (!i.isVariantLocus && !i.isAnyForcedOutputAtLocus) = true
    · rw [if_pos h1]
      simp
    · rw [if_neg h1]
      by_cases h2 : i.pos > ov._indel_end_pos
      · rw [if_pos h2]
        cases h : process_overlaps env ov with
        | ok ov1 =>
          simp only
          by_cases h3 : (!i.isVariantLocus) = true
          · rw [if_pos h3]; simp
          · rw [if_neg h3]; simp
        | threw e a => simp
        | crashed => simp
        | outOfFuel => exact absurd h (process_overlaps_ne_outOfFuel env ov)
      · rw [if_neg h2]
        simp only
        by_cases h3 : (!i.isVariantLocus) = true
        · rw [if_pos h3]; simp
        · rw [if_neg h3]; simp

/-- A whole run never ends for want of loop iterations: the bound given to the emission loop
always suffices. -/
theorem runAndFlush_ne_outOfFuel (env : Collaborators) :
    ∀ (subs : List Submission) (ov : indel_overlapper),
      submitAll env subs ov ≠ .outOfFuel ∧
      (match submitAll env subs ov with
        | .ok ov' => process_overlaps env ov'
        | other => other) ≠ .outOfFuel := by
  intro subs
  induction subs with
  | nil =>
    intro ov
    simp only [submitAll]
    exact ⟨by simp, process_overlaps_ne_outOfFuel env ov⟩
  | cons x rest ih =>
    intro ov
    unfold submitAll
    cases h : submit env ov x with
    | ok ov1 => exact ih ov1
    | threw e a => simp
    | crashed => simp
    | outOfFuel => exact absurd h (submit_ne_outOfFuel env ov x)

/-! ## C11: unforced homozygous-reference calls are discarded -/

/-- C11: for every state and every indel locus that is not a variant locus and has no forced
output, `process` returns with the state as it was: the three buffers, `_indel_end_pos` and
the log of calls to the sink and to the classifier are unchanged, whatever the position of
the locus; no overlap resolution is run. -/
theorem discard_unforced (env : Collaborators) (ov : indel_overlapper)
    (indelLocus : GermlineIndelLocusInfo)
    (hnv : indelLocus.isVariantLocus = false)
    (hnf : indelLocus.isAnyForcedOutputAtLocus = false) :
    process_indel env ov indelLocus = .ok ov := by
  unfold process_indel
  simp [hnv, hnf]

/-- C11 at a concrete input: a discarded locus at position 30, behind the buffered indel
over `[10,15)`; a kept locus there would have started a resolve cycle. -/
theorem discard_unforced_witness :
    process_indel raisingCollaborators c9State c11Indel = .ok c9State :=
  discard_unforced raisingCollaborators c9State c11Indel rfl rfl

/-! ## The slots of the emission loop -/

theorem nextVariantType_indel_lt (ib nvb : List GermlineIndelLocusInfo)
    (sb : List GermlineDiploidSiteLocusInfo) (ii ni si : Nat)
    (h : nextVariantType ib nvb sb ii ni si = VARQUEUE.index_t.INDEL) :
    ii < ib.length ∧ ∃ a, ib[ii]? = some a ∧
      (∀ b, nvb[ni]? = some b → a.pos ≤ b.pos) ∧ (∀ s, sb[si]? = some s → a.pos ≤ s.pos) := by
  rw [nextVariantType_eq_rule] at h
  obtain ⟨x, hx, hb, hs⟩ := selectionRule_indel _ _ _ h
  obtain ⟨a, hget, hax, hlt, _⟩ := headPos_some_drop _ _ _ _ hx
  refine ⟨hlt, a, hget, ?_, ?_⟩
  · intro b hb'
    rw [hax]
    exact hb b.pos (by simp [headPos, hb'])
  · intro s hs'
    rw [hax]
    exact hs s.pos (by simp [headPos, hs'])

theorem nextVariantType_nonvariant_lt (ib nvb : List GermlineIndelLocusInfo)
    (sb : List GermlineDiploidSiteLocusInfo) (ii ni si : Nat)
    (h : nextVariantType ib nvb sb ii ni si = VARQUEUE.index_t.NONVARIANT_INDEL) :
    ni < nvb.length ∧ ∃ b, nvb[ni]? = some b ∧
      (∀ a, ib[ii]? = some a → b.pos ≤ a.pos) ∧ (∀ s, sb[si]? = some s → b.pos ≤ s.pos) := by
  rw [nextVariantType_eq_rule] at h
  obtain ⟨x, hx, ha, hs⟩ := selectionRule_nonvariant _ _ _ h
  obtain ⟨b, hget, hbx, hlt, _⟩ := headPos_some_drop _ _ _ _ hx
  refine ⟨hlt, b, hget, ?_, ?_⟩
  · intro a ha'
    rw [hbx]
    exact ha a.pos (by simp [headPos, ha'])
  · intro s hs'
    rw [hbx]
    exact hs s.pos (by simp [headPos, hs'])

theorem nextVariantType_site_lt (ib nvb : List GermlineIndelLocusInfo)
    (sb : List GermlineDiploidSiteLocusInfo) (ii ni si : Nat)
    (h : nextVariantType ib nvb sb ii ni si = VARQUEUE.index_t.SITE) :
    si < sb.length ∧ ∃ s, sb[si]? = some s ∧
      (∀ a, ib[ii]? = some a → s.pos ≤ a.pos) ∧ (∀ b, nvb[ni]? = some b → s.pos ≤ b.pos) := by
  rw [nextVariantType_eq_rule] at h
  obtain ⟨x, hx, ha, hb⟩ := selectionRule_site _ _ _ h
  obtain ⟨s, hget, hsx, hlt, _⟩ := headPos_some_drop _ _ _ _ hx
  refine ⟨hlt, s, hget, ?_, ?_⟩
  · intro a ha'
    rw [hsx]
    exact ha a.pos (by simp [headPos, ha'])
  · intro b hb'
    rw [hsx]
    exact hb b.pos (by simp [headPos, hb'])

theorem nextVariantType_none (ib nvb : List GermlineIndelLocusInfo)
    (sb : List GermlineDiploidSiteLocusInfo) (ii ni si : Nat)
    (h : nextVariantType ib nvb sb ii ni si = VARQUEUE.index_t.NONE) :
    ib.length ≤ ii ∧ nvb.length ≤ ni ∧ sb.length ≤ si := by
  rw [nextVariantType_eq_rule] at h
  obtain ⟨h1, h2, h3⟩ := selectionRule_none _ _ _ h
  simp only [headPos, Option.map_eq_none'] at h1 h2 h3
  exact ⟨List.getElem?_eq_none_iff.mp h1, List.getElem?_eq_none_iff.mp h2,
    List.getElem?_eq_none_iff.mp h3⟩

/-- The loop never reads a buffer outside its range: it cannot end the run. -/
theorem process_overlaps_loop_ne_crashed (env : Collaborators) (c : Bool)
    (ib nvb : List GermlineIndelLocusInfo) (sb : List GermlineDiploidSiteLocusInfo) :
    ∀ (fuel ii ni si : Nat) (events : List Event),
      process_overlaps_loop env c ib nvb sb fuel ii ni si events ≠ .crashed := by
  intro fuel
  induction fuel with
  | zero => intro ii ni si events; simp [process_overlaps_loop]
  | succ n ih =>
    intro ii ni si events
    unfold process_overlaps_loop
    cases hsel : nextVariantType ib nvb sb ii ni si with
    | NONE => simp
    | INDEL =>
      obtain ⟨_, a, hget, _, _⟩ := nextVariantType_indel_lt _ _ _ _ _ _ hsel
      simp only [hget]
      rcases sink_call_cases env (Locus.indel a) events with hs | ⟨e, hs⟩
      · simp only [hs]; exact ih _ _ _ _
      · simp [hs]
    | NONVARIANT_INDEL =>
      obtain ⟨_, a, hget, _, _⟩ := nextVariantType_nonvariant_lt _ _ _ _ _ _ hsel
      simp only [hget]
      rcases sink_call_cases env (Locus.indel a) events with hs | ⟨e, hs⟩
      · simp only [hs]; exact ih _ _ _ _
      · simp [hs]
    | SITE =>
      obtain ⟨_, a, hget, _, _⟩ := nextVariantType_site_lt _ _ _ _ _ _ hsel
      simp only [hget]
      rcases sink_call_cases env (Locus.site a) events with hs | ⟨e, hs⟩
      · simp only [hs]; exact ih _ _ _ _
      · simp [hs]


theorem process_overlaps_loop_eq_trace (env : Collaborators) (c : Bool)
    (ib nvb : List GermlineIndelLocusInfo) (sb : List GermlineDiploidSiteLocusInfo) :
    ∀ (fuel ii ni si : Nat) (events : List Event),
      (ib.length - ii) + (nvb.length - ni) + (sb.length - si) < fuel →
      process_overlaps_loop env c ib nvb sb fuel ii ni si events
        = sinkAll env ((slotTrace c ib nvb sb fuel ii ni si).filterMap (slotRecord ib nvb sb))
            events := by
  intro fuel
  induction fuel with
  | zero => intro ii ni si events h; omega
  | succ n ih =>
    intro ii ni si events h
    unfold process_overlaps_loop slotTrace
    cases hsel : nextVariantType ib nvb sb ii ni si with
    | NONE => simp [sinkAll]
    | INDEL =>
      obtain ⟨hlt, a, hget, _, _⟩ := nextVariantType_indel_lt _ _ _ _ _ _ hsel
      simp only [hget, List.filterMap_cons, slotRecord, Option.map_some', sinkAll]
      cases hcall : sink_call env (Locus.indel a) events with
      | ok events' =>
        simp only []
        cases c with
        | true =>
          simp only [if_true]
          exact ih (ii + 1) ni si events' (by omega)
        | false =>
          have := ih ib.length ni si events' (by omega)
          simpa using this
      | threw e ev => rfl
      | crashed => rfl
      | outOfFuel => rfl
    | NONVARIANT_INDEL =>
      obtain ⟨hlt, a, hget, _, _⟩ := nextVariantType_nonvariant_lt _ _ _ _ _ _ hsel
      simp only [hget, List.filterMap_cons, slotRecord, Option.map_some', sinkAll]
      cases hcall : sink_call env (Locus.indel a) events with
      | ok events' => exact ih ii (ni + 1) si events' (by omega)
      | threw e ev => rfl
      | crashed => rfl
      | outOfFuel => rfl
    | SITE =>
      obtain ⟨hlt, a, hget, _, _⟩ := nextVariantType_site_lt _ _ _ _ _ _ hsel
      simp only [hget, List.filterMap_cons, slotRecord, Option.map_some', sinkAll]
      cases hcall : sink_call env (Locus.site a) events with
      | ok events' => exact ih ii ni (si + 1) events' (by omega)
      | threw e ev => rfl
      | crashed => rfl
      | outOfFuel => rfl

/-- Every slot of the trace is inside its buffer and at or behind the current index of its
buffer. -/
theorem slotTrace_bounds (c : Bool)
    (ib nvb : List GermlineIndelLocusInfo) (sb : List GermlineDiploidSiteLocusInfo) :
    ∀ (fuel ii ni si : Nat) (slot : VARQUEUE.index_t × Nat),
      slot ∈ slotTrace c ib nvb sb fuel ii ni si →
      bufferIndex ii ni si slot.1 ≤ slot.2 ∧ slot.2 < bufferSize ib nvb sb slot.1 := by
  intro fuel
  induction fuel with
  | zero => intro ii ni si slot h; simp [slotTrace] at h
  | succ n ih =>
    intro ii ni si slot h
    unfold slotTrace at h
    cases hsel : nextVariantType ib nvb sb ii ni si with
    | NONE => rw [hsel] at h; simp at h
    | INDEL =>
      rw [hsel] at h
      obtain ⟨hlt, _⟩ := nextVariantType_indel_lt _ _ _ _ _ _ hsel
      rcases List.mem_cons.mp h with rfl | h
      · exact ⟨Nat.le_refl _, hlt⟩
      · obtain ⟨h1, h2⟩ := ih _ _ _ slot h
        refine ⟨?_, h2⟩
        obtain ⟨k, j⟩ := slot
        cases k <;> simp only [bufferIndex] at h1 ⊢ <;> try exact h1
        cases c
        · simp only [Bool.false_eq_true, if_false] at h1
          simp only [bufferSize] at h2
          omega
        · simp only [if_true] at h1; omega
    | NONVARIANT_INDEL =>
      rw [hsel] at h
      obtain ⟨hlt, _⟩ := nextVariantType_nonvariant_lt _ _ _ _ _ _ hsel
      rcases List.mem_cons.mp h with rfl | h
      · exact ⟨Nat.le_refl _, hlt⟩
      · obtain ⟨h1, h2⟩ := ih _ _ _ slot h
        refine ⟨?_, h2⟩
        obtain ⟨k, j⟩ := slot
        cases k <;> simp only [bufferIndex] at h1 ⊢ <;> omega
    | SITE =>
      rw [hsel] at h
      obtain ⟨hlt, _⟩ := nextVariantType_site_lt _ _ _ _ _ _ hsel
      rcases List.mem_cons.mp h with rfl | h
      · exact ⟨Nat.le_refl _, hlt⟩
      · obtain ⟨h1, h2⟩ := ih _ _ _ slot h
        refine ⟨?_, h2⟩
        obtain ⟨k, j⟩ := slot
        cases k <;> simp only [bufferIndex] at h1 ⊢ <;> omega

/-- No slot is moved twice: within one buffer the moved indices strictly increase. -/
theorem slotTrace_increasing (c : Bool)
    (ib nvb : List GermlineIndelLocusInfo) (sb : List GermlineDiploidSiteLocusInfo) :
    ∀ (fuel ii ni si : Nat),
      (slotTrace c ib nvb sb fuel ii ni si).Pairwise (fun p q => p.1 = q.1 → p.2 < q.2) := by
  intro fuel
  induction fuel with
  | zero => intro ii ni si; simp [slotTrace]
  | succ n ih =>
    intro ii ni si
    unfold slotTrace
    cases hsel : nextVariantType ib nvb sb ii ni si with
    | NONE => simp
    | INDEL =>
      obtain ⟨hlt, _⟩ := nextVariantType_indel_lt _ _ _ _ _ _ hsel
      refine List.pairwise_cons.mpr ⟨?_, ih _ _ _⟩
      intro q hq heq
      obtain ⟨h1, h2⟩ := slotTrace_bounds c ib nvb sb _ _ _ _ q hq
      obtain ⟨k, j⟩ := q
      simp only at heq
      subst heq
      simp only [bufferIndex, bufferSize] at h1 h2 ⊢
      cases c
      · simp only [Bool.false_eq_true, if_false] at h1; omega
      · simp only [if_true] at h1; omega
    | NONVARIANT_INDEL =>
      refine List.pairwise_cons.mpr ⟨?_, ih _ _ _⟩
      intro q hq heq
      obtain ⟨h1, h2⟩ := slotTrace_bounds c ib nvb sb _ _ _ _ q hq
      obtain ⟨k, j⟩ := q
      simp only at heq
      subst heq
      simp only [bufferIndex] at h1 ⊢
      omega
    | SITE =>
      refine List.pairwise_cons.mpr ⟨?_, ih _ _ _⟩
      intro q hq heq
      obtain ⟨h1, h2⟩ := slotTrace_bounds c ib nvb sb _ _ _ _ q hq
      obtain ⟨k, j⟩ := q
      simp only at heq
      subst heq
      simp only [bufferIndex] at h1 ⊢
      omega


/-! ## C19: the selected head is present -/

/-- C19: for every triple of buffers and indices, `nextVariantType` returns `INDEL` only
when `indel_index` is inside the indel buffer, `NONVARIANT_INDEL` only when
`nonvariant_indel_index` is inside the non-variant buffer, and `SITE` only when `site_index`
is inside the site buffer. Hence the emission loop never reads outside a buffer (it cannot
end in `crashed`, whatever the bound on iterations, the sink and the conflict flag); the
records it hands to the sink are those of the slots of `slotTrace`, each of which is inside
its buffer, holds a record, is not before the index its buffer had when the trace began, and
within one buffer the moved slots have strictly increasing indices, so that no slot is read
again after its record was moved out. -/
theorem selected_head_present (is_conflict : Bool)
    (indel_buffer nonvariant_indel_buffer : List GermlineIndelLocusInfo)
    (site_buffer : List GermlineDiploidSiteLocusInfo) :
    (∀ indel_index nonvariant_indel_index site_index : Nat,
      (nextVariantType indel_buffer nonvariant_indel_buffer site_buffer
          indel_index nonvariant_indel_index site_index = VARQUEUE.index_t.INDEL →
        indel_index < indel_buffer.length) ∧
      (nextVariantType indel_buffer nonvariant_indel_buffer site_buffer
          indel_index nonvariant_indel_index site_index = VARQUEUE.index_t.NONVARIANT_INDEL →
        nonvariant_indel_index < nonvariant_indel_buffer.length) ∧
      (nextVariantType indel_buffer nonvariant_indel_buffer site_buffer
          indel_index nonvariant_indel_index site_index = VARQUEUE.index_t.SITE →
        site_index < site_buffer.length)) ∧
    (∀ (env : Collaborators) (fuel ii ni si : Nat) (events : List Event),
      process_overlaps_loop env is_conflict indel_buffer nonvariant_indel_buffer site_buffer
        fuel ii ni si events ≠ .crashed) ∧
    (∀ (env : Collaborators) (fuel ii ni si : Nat) (events : List Event),
      (indel_buffer.length - ii) + (nonvariant_indel_buffer.length - ni)
        + (site_buffer.length - si) < fuel →
      process_overlaps_loop env is_conflict indel_buffer nonvariant_indel_buffer site_buffer
        fuel ii ni si events
        = sinkAll env
            ((slotTrace is_conflict indel_buffer nonvariant_indel_buffer site_buffer
                fuel ii ni si).filterMap
              (slotRecord indel_buffer nonvariant_indel_buffer site_buffer)) events) ∧
    (∀ fuel ii ni si : Nat,
      (∀ slot ∈ slotTrace is_conflict indel_buffer nonvariant_indel_buffer site_buffer
            fuel ii ni si,
        bufferIndex ii ni si slot.1 ≤ slot.2 ∧
        slot.2 < bufferSize indel_buffer nonvariant_indel_buffer site_buffer slot.1 ∧
        (slotRecord indel_buffer nonvariant_indel_buffer site_buffer slot).isSome = true) ∧
      (slotTrace is_conflict indel_buffer nonvariant_indel_buffer site_buffer
          fuel ii ni si).Pairwise (fun p q => p.1 = q.1 → p.2 < q.2)) := by
  refine ⟨?_, ?_, ?_, ?_⟩
  · intro ii ni si
    exact ⟨fun h => (nextVariantType_indel_lt _ _ _ _ _ _ h).1,
      fun h => (nextVariantType_nonvariant_lt _ _ _ _ _ _ h).1,
      fun h => (nextVariantType_site_lt _ _ _ _ _ _ h).1⟩
  · intro env fuel ii ni si events
    exact process_overlaps_loop_ne_crashed env is_conflict _ _ _ fuel ii ni si events
  · intro env fuel ii ni si events h
    exact process_overlaps_loop_eq_trace env is_conflict _ _ _ fuel ii ni si events h
  · intro fuel ii ni si
    refine ⟨?_, slotTrace_increasing is_conflict _ _ _ fuel ii ni si⟩
    intro slot hslot
    obtain ⟨h1, h2⟩ := slotTrace_bounds is_conflict _ _ _ fuel ii ni si slot hslot
    refine ⟨h1, h2, ?_⟩
    obtain ⟨k, j⟩ := slot
    cases k with
    | NONE => simp [bufferSize] at h2
    | INDEL =>
      simp only [bufferSize] at h2
      simp [slotRecord, List.getElem?_eq_getElem h2]
    | NONVARIANT_INDEL =>
      simp only [bufferSize] at h2
      simp [slotRecord, List.getElem?_eq_getElem h2]
    | SITE =>
      simp only [bufferSize] at h2
      simp [slotRecord, List.getElem?_eq_getElem h2]

/-! ## C20: the emission loop terminates after one sink call per buffered record -/

theorem process_overlaps_loop_step (env : Collaborators) (c : Bool)
    (ib nvb : List GermlineIndelLocusInfo) (sb : List GermlineDiploidSiteLocusInfo)
    (fuel ii ni si : Nat) (events : List Event) :
    (nextVariantType ib nvb sb ii ni si = VARQUEUE.index_t.NONE →
      process_overlaps_loop env c ib nvb sb (fuel + 1) ii ni si events = .ok events) ∧
    (nextVariantType ib nvb sb ii ni si = VARQUEUE.index_t.INDEL →
      ∃ a ii', ib[ii]? = some a ∧ ii < ii' ∧
        process_overlaps_loop env c ib nvb sb (fuel + 1) ii ni si events
          = match sink_call env (Locus.indel a) events with
            | .ok events' => process_overlaps_loop env c ib nvb sb fuel ii' ni si events'
            | other => other) ∧
    (nextVariantType ib nvb sb ii ni si = VARQUEUE.index_t.NONVARIANT_INDEL →
      ∃ b ni', nvb[ni]? = some b ∧ ni < ni' ∧
        process_overlaps_loop env c ib nvb sb (fuel + 1) ii ni si events
          = match sink_call env (Locus.indel b) events with
            | .ok events' => process_overlaps_loop env c ib nvb sb fuel ii ni' si events'
            | other => other) ∧
    (nextVariantType ib nvb sb ii ni si = VARQUEUE.index_t.SITE →
      ∃ s si', sb[si]? = some s ∧ si < si' ∧
        process_overlaps_loop env c ib nvb sb (fuel + 1) ii ni si events
          = match sink_call env (Locus.site s) events with
            | .ok events' => process_overlaps_loop env c ib nvb sb fuel ii ni si' events'
            | other => other) := by
  refine ⟨?_, ?_, ?_, ?_⟩
  · intro h
    unfold process_overlaps_loop
    simp [h]
  · intro h
    obtain ⟨hlt, a, hget, _, _⟩ := nextVariantType_indel_lt _ _ _ _ _ _ h
    refine ⟨a, (if c then ii + 1 else ib.length), hget, ?_, ?_⟩
    · cases c
      · simpa using hlt
      · simp
    · conv => lhs; unfold process_overlaps_loop
      simp only [h, hget]
  · intro h
    obtain ⟨hlt, b, hget, _, _⟩ := nextVariantType_nonvariant_lt _ _ _ _ _ _ h
    refine ⟨b, ni + 1, hget, Nat.lt_succ_self _, ?_⟩
    conv => lhs; unfold process_overlaps_loop
    simp only [h, hget]
  · intro h
    obtain ⟨hlt, s, hget, _, _⟩ := nextVariantType_site_lt _ _ _ _ _ _ h
    refine ⟨s, si + 1, hget, Nat.lt_succ_self _, ?_⟩
    conv => lhs; unfold process_overlaps_loop
    simp only [h, hget]

theorem process_overlaps_loop_ne_outOfFuel (env : Collaborators) (c : Bool)
    (ib nvb : List GermlineIndelLocusInfo) (sb : List GermlineDiploidSiteLocusInfo)
    (fuel ii ni si : Nat) (events : List Event)
    (h : (ib.length - ii) + (nvb.length - ni) + (sb.length - si) < fuel) :
    process_overlaps_loop env c ib nvb sb fuel ii ni si events ≠ .outOfFuel := by
  rw [process_overlaps_loop_eq env c ib nvb sb fuel ii ni si events h]
  exact (sinkAll_ne_crashed env _ events).2

theorem process_overlaps_loop_count (env : Collaborators) (c : Bool)
    (ib nvb : List GermlineIndelLocusInfo) (sb : List GermlineDiploidSiteLocusInfo)
    (events : List Event) (hc : c = true ∨ ib.length ≤ 1) :
    ∃ L : List Locus,
      List.Perm L (ib.map Locus.indel ++ nvb.map Locus.indel ++ sb.map Locus.site) ∧
      L.length = ib.length + nvb.length + sb.length ∧
      (process_overlaps_loop env c ib nvb sb (ib.length + nvb.length + sb.length + 1) 0 0 0
          events = .ok (events ++ L.map Event.sink) ∨
       ∃ e k, k < L.length ∧
        process_overlaps_loop env c ib nvb sb (ib.length + nvb.length + sb.length + 1) 0 0 0
          events = .threw e (events ++ (L.take (k + 1)).map Event.sink)) := by
  have hp := mergedOrderAux_perm c (ib.length + nvb.length + sb.length + 1) ib nvb sb
    (by omega) hc
  refine ⟨_, hp, ?_, ?_⟩
  · have := hp.length_eq
    simpa [Nat.add_assoc] using this
  · rw [process_overlaps_loop_eq env c ib nvb sb _ 0 0 0 events (by simp)]
    simp only [List.drop_zero]
    exact sinkAll_cases env _ events

/-- C20: for every buffer state the emission loop ends within one iteration per record
left plus one, it never uses up the bound on iterations (for any indices and any conflict
flag); an iteration that selects `NONE` ends the loop, and an iteration that selects a
buffer hands the record at that buffer's index to the sink and, when the sink accepts it,
goes on with that index strictly increased and the two other indices as they were. Run
from the indices `0, 0, 0` with the conflict flag of `process_overlaps_impl` (set exactly
when the indel buffer holds more than one record), the loop makes exactly
`|indel_buffer| + |nonvariant_indel_buffer| + |site_buffer|` sink calls, one per buffered
record, when no call raises, and stops at the first call that raises otherwise; outside
conflict mode the indel buffer has at most one element, so the jump of `indel_index` to the
buffer size skips no record. -/
theorem emission_loop_terminates (env : Collaborators)
    (indel_buffer nonvariant_indel_buffer : List GermlineIndelLocusInfo)
    (site_buffer : List GermlineDiploidSiteLocusInfo) :
    (∀ (c : Bool) (fuel ii ni si : Nat) (events : List Event),
      (indel_buffer.length - ii) + (nonvariant_indel_buffer.length - ni)
        + (site_buffer.length - si) < fuel →
      process_overlaps_loop env c indel_buffer nonvariant_indel_buffer site_buffer
        fuel ii ni si events ≠ .outOfFuel) ∧
    (∀ (c : Bool) (fuel ii ni si : Nat) (events : List Event),
      (nextVariantType indel_buffer nonvariant_indel_buffer site_buffer ii ni si
          = VARQUEUE.index_t.NONE →
        process_overlaps_loop env c indel_buffer nonvariant_indel_buffer site_buffer
          (fuel + 1) ii ni si events = .ok events) ∧
      (nextVariantType indel_buffer nonvariant_indel_buffer site_buffer ii ni si
          = VARQUEUE.index_t.INDEL →
        ∃ a ii', indel_buffer[ii]? = some a ∧ ii < ii' ∧
          process_overlaps_loop env c indel_buffer nonvariant_indel_buffer site_buffer
              (fuel + 1) ii ni si events
            = match sink_call env (Locus.indel a) events with
              | .ok events' =>
                process_overlaps_loop env c indel_buffer nonvariant_indel_buffer site_buffer
                  fuel ii' ni si events'
              | other => other) ∧
      (nextVariantType indel_buffer nonvariant_indel_buffer site_buffer ii ni si
          = VARQUEUE.index_t.NONVARIANT_INDEL →
        ∃ b ni', nonvariant_indel_buffer[ni]? = some b ∧ ni < ni' ∧
          process_overlaps_loop env c indel_buffer nonvariant_indel_buffer site_buffer
              (fuel + 1) ii ni si events
            = match sink_call env (Locus.indel b) events with
              | .ok events' =>
                process_overlaps_loop env c indel_buffer nonvariant_indel_buffer site_buffer
                  fuel ii ni' si events'
              | other => other) ∧
      (nextVariantType indel_buffer nonvariant_indel_buffer site_buffer ii ni si
          = VARQUEUE.index_t.SITE →
        ∃ s si', site_buffer[si]? = some s ∧ si < si' ∧
          process_overlaps_loop env c indel_buffer nonvariant_indel_buffer site_buffer
              (fuel + 1) ii ni si events
            = match sink_call env (Locus.site s) events with
              | .ok events' =>
                process_overlaps_loop env c indel_buffer nonvariant_indel_buffer site_buffer
                  fuel ii ni si' events'
              | other => other)) ∧
    (∀ events : List Event, ∃ L : List Locus,
      List.Perm L (indel_buffer.map Locus.indel ++ nonvariant_indel_buffer.map Locus.indel
        ++ site_buffer.map Locus.site) ∧
      L.length = indel_buffer.length + nonvariant_indel_buffer.length + site_buffer.length ∧
      (process_overlaps_loop env (decide (indel_buffer.length > 1)) indel_buffer
          nonvariant_indel_buffer site_buffer
          (indel_buffer.length + nonvariant_indel_buffer.length + site_buffer.length + 1)
          0 0 0 events = .ok (events ++ L.map Event.sink) ∨
       ∃ e k, k < L.length ∧
        process_overlaps_loop env (decide (indel_buffer.length > 1)) indel_buffer
          nonvariant_indel_buffer site_buffer
          (indel_buffer.length + nonvariant_indel_buffer.length + site_buffer.length + 1)
          0 0 0 events = .threw e (events ++ (L.take (k + 1)).map Event.sink))) := by
  refine ⟨?_, ?_, ?_⟩
  · intro c fuel ii ni si events h
    exact process_overlaps_loop_ne_outOfFuel env c _ _ _ fuel ii ni si events h
  · intro c fuel ii ni si events
    exact process_overlaps_loop_step env c _ _ _ fuel ii ni si events
  · intro events
    refine process_overlaps_loop_count env _ _ _ _ events ?_
    by_cases h : indel_buffer.length > 1
    · exact Or.inl (by simpa using h)
    · exact Or.inr (by omega)


/-! ## C15: the classifier is called before anything is handed to the sink -/

theorem conflictMarked_singleton (a : GermlineIndelLocusInfo) : conflictMarked [a] = [a] := by
  simp [conflictMarked]

/-- The calls of one resolve cycle with a single indel that does not carry `IndelConflict`:
classifier calls on the merged sites, in buffer order, then sink calls. -/
theorem process_overlaps_impl_single_events (env : Collaborators) (ov : indel_overlapper)
    (a : GermlineIndelLocusInfo) (hib : ov._indel_buffer = [a])
    (hc : index_t.IndelConflict ∉ a.filters) :
    (∀ ov', process_overlaps_impl env ov = .ok ov' →
      ∃ (ms : List GermlineDiploidSiteLocusInfo) (L : List Locus), ov'.events = ov.events ++ ms.map Event.classify ++ L.map Event.sink ∧
        List.Forall₂ (fun s m => overlapSiteMerge a s = some m) ov._site_buffer ms) ∧
    (∀ e mid, process_overlaps_impl env ov = .threw e mid →
      ∃ (ms : List GermlineDiploidSiteLocusInfo) (L : List Locus), mid.events = ov.events ++ ms.map Event.classify ++ L.map Event.sink ∧
        List.Forall₂ (fun s m => overlapSiteMerge a s = some m)
          (ov._site_buffer.take ms.length) ms ∧
        (L ≠ [] → ms.length = ov._site_buffer.length)) := by
  have hcm : conflictMarked ov._indel_buffer = [a] := by rw [hib]; exact conflictMarked_singleton a
  have hok : ∀ sb' ev1,
      modify_buffered_sites env (conflictMarked ov._indel_buffer) ov._site_buffer ov.events
        = .ok (sb', ev1) →
      ∃ ms, ev1 = ov.events ++ ms.map Event.classify ∧
        List.Forall₂ (fun s m => overlapSiteMerge a s = some m) ov._site_buffer ms := by
    intro sb' ev1 hm
    rw [hcm] at hm
    obtain ⟨_, hfront, _⟩ := modify_buffered_sites_ok env [a] _ _ _ _ hm
    obtain ⟨_, ms, hev, _, hms⟩ := hfront a rfl
    exact ⟨ms, hev, hms hc⟩
  rcases process_overlaps_impl_cases env ov with ⟨h1, _, _⟩ | ⟨_, hcase⟩
  · rw [hib] at h1; cases h1
  rcases hcase with hcr | ⟨sb', ev1, hm, himpl⟩ | ⟨sb', ev1, e0, k, hm, hk, himpl⟩ |
    ⟨sb', ev1, e0, hm, himpl⟩
  · refine ⟨?_, ?_⟩
    · intro ov' h; rw [hcr] at h; cases h
    · intro e mid h; rw [hcr] at h; cases h
  · refine ⟨?_, ?_⟩
    · intro ov' h
      rw [himpl] at h
      injection h with h
      subst h
      obtain ⟨ms, hev, hms⟩ := hok sb' ev1 hm
      subst hev
      exact ⟨ms, _, rfl, hms⟩
    · intro e mid h; rw [himpl] at h; cases h
  · refine ⟨?_, ?_⟩
    · intro ov' h; rw [himpl] at h; cases h
    · intro e mid h
      rw [himpl] at h
      injection h with _ h
      subst h
      obtain ⟨ms, hev, hms⟩ := hok sb' ev1 hm
      have hlen : ms.length = ov._site_buffer.length := hms.length_eq.symm
      subst hev
      refine ⟨ms, _, rfl, ?_, fun _ => hlen⟩
      rw [hlen, List.take_length]
      exact hms
  · refine ⟨?_, ?_⟩
    · intro ov' h; rw [himpl] at h; cases h
    · intro e mid h
      rw [himpl] at h
      injection h with _ h
      subst h
      rw [hcm] at hm
      obtain ⟨front, hfront, _, ms, last, hev, _, hms, _⟩ :=
        modify_buffered_sites_threw env [a] _ _ _ _ _ hm
      have hfa : front = a := by
        simp only [List.head?_cons, Option.some.injEq] at hfront
        exact hfront.symm
      subst hfa
      refine ⟨ms ++ [last], [], by simp [hev], ?_, fun h => absurd rfl h⟩
      simpa using hms

/-- C15: in a resolve cycle with exactly one buffered variant indel that does not carry
`IndelConflict`, the calls the cycle makes to its collaborators are, in order, classifier
calls followed by sink calls, no sink call before a classifier call. When the cycle
returns, the classifier was called once per buffered site, in buffer order, each time on
the site as merged with the indel. When an exception escapes, the classifier was called on
a leading part of the buffered sites, on all of them if anything was handed to the sink.
A merged site has its derived features cleared, `SiteConflict` added to its locus filters
when the indel has filters, its quality clamped by the indel's quality and, at every sample
index, the sample tagged and its `gqx` clamped. -/
theorem classifier_before_emission (env : Collaborators) (ov : indel_overlapper)
    (a : GermlineIndelLocusInfo) (hib : ov._indel_buffer = [a])
    (hc : index_t.IndelConflict ∉ a.filters) :
    (∀ ov', process_overlaps env ov = .ok ov' →
      ∃ (ms : List GermlineDiploidSiteLocusInfo) (L : List Locus), ov'.events = ov.events ++ ms.map Event.classify ++ L.map Event.sink ∧
        List.Forall₂ (fun s m => overlapSiteMerge a s = some m) ov._site_buffer ms) ∧
    (∀ e ov', process_overlaps env ov = .threw e ov' →
      ∃ (ms : List GermlineDiploidSiteLocusInfo) (L : List Locus), ov'.events = ov.events ++ ms.map Event.classify ++ L.map Event.sink ∧
        List.Forall₂ (fun s m => overlapSiteMerge a s = some m)
          (ov._site_buffer.take ms.length) ms ∧
        (L ≠ [] → ms.length = ov._site_buffer.length)) ∧
    (∀ s m : GermlineDiploidSiteLocusInfo, overlapSiteMerge a s = some m →
      m.evsFeatures = [] ∧
      m.filters = (if a.filters = ∅ then s.filters else insert index_t.SiteConflict s.filters) ∧
      m.anyVariantAlleleQuality = min s.anyVariantAlleleQuality a.anyVariantAlleleQuality ∧
      ∀ (i : Nat) (siteSample : LocusSampleInfo), s.samples[i]? = some siteSample →
        ∃ indelSample, a.samples[i]? = some indelSample ∧
          m.samples[i]? = some (gqxSampleBody indelSample (tagSampleBody indelSample siteSample))) := by
  obtain ⟨hok, hthrew⟩ := process_overlaps_impl_single_events env ov a hib hc
  refine ⟨?_, ?_, ?_⟩
  · intro ov' h
    exact hok ov' ((process_overlaps_ok_iff env ov ov').mp h)
  · intro e ov' h
    obtain ⟨mid, hmid, hov'⟩ := process_overlaps_threw env ov ov' e h
    obtain ⟨ms, L, hev, hms, hL⟩ := hthrew e mid hmid
    refine ⟨ms, L, ?_, hms, hL⟩
    rw [hov']
    exact hev
  · intro s m h
    obtain ⟨h1, _, _, _, h5, h6, _, h8⟩ := overlapSiteMerge_spec a s m h
    exact ⟨h6, h1, h5, h8⟩

/-- C15 at a concrete cycle: the indel over `[10,15)` and the site at 12. -/
theorem classifier_before_emission_witness :
    (∀ ov', process_overlaps quietCollaborators c9State = .ok ov' →
      ∃ (ms : List GermlineDiploidSiteLocusInfo) (L : List Locus), ov'.events = c9State.events ++ ms.map Event.classify ++ L.map Event.sink ∧
        List.Forall₂ (fun s m => overlapSiteMerge c7Indel s = some m) c9State._site_buffer ms) ∧
    (∀ e ov', process_overlaps quietCollaborators c9State = .threw e ov' →
      ∃ (ms : List GermlineDiploidSiteLocusInfo) (L : List Locus), ov'.events = c9State.events ++ ms.map Event.classify ++ L.map Event.sink ∧
        List.Forall₂ (fun s m => overlapSiteMerge c7Indel s = some m)
          (c9State._site_buffer.take ms.length) ms ∧
        (L ≠ [] → ms.length = c9State._site_buffer.length)) ∧
    (∀ s m : GermlineDiploidSiteLocusInfo, overlapSiteMerge c7Indel s = some m →
      m.evsFeatures = [] ∧
      m.filters = (if c7Indel.filters = ∅ then s.filters
                   else insert index_t.SiteConflict s.filters) ∧
      m.anyVariantAlleleQuality
        = min s.anyVariantAlleleQuality c7Indel.anyVariantAlleleQuality ∧
      ∀ (i : Nat) (siteSample : LocusSampleInfo), s.samples[i]? = some siteSample →
        ∃ indelSample, c7Indel.samples[i]? = some indelSample ∧
          m.samples[i]? = some (gqxSampleBody indelSample (tagSampleBody indelSample siteSample))) :=
  classifier_before_emission quietCollaborators c9State c7Indel rfl (by decide)


/-! ## States reached by sequences of calls -/

theorem process_overlaps_ok_shape (env : Collaborators) (ov ov' : indel_overlapper)
    (h : process_overlaps env ov = .ok ov') :
    (ov' = ov ∧ ov._indel_buffer = [] ∧ ov._nonvariant_indel_buffer = []) ∨
    (ov'._indel_end_pos = 0 ∧ ov'._indel_buffer = [] ∧ ov'._nonvariant_indel_buffer = [] ∧
      ov'._site_buffer = []) := by
  rcases process_overlaps_ok_effect env ov ov' h with h1 | ⟨_, h1, h2, h3, h4, _⟩
  · exact Or.inl h1
  · exact Or.inr ⟨h1, h2, h3, h4⟩

/-- How `process` lets an exception escape: from the resolve cycle, which leaves the buffers
cleared, or, for a site, from the sink call of line 54, behind a resolve cycle that
returned. -/
theorem submit_threw_cases (env : Collaborators) (ov ov' : indel_overlapper) (x : Submission)
    (e : Exception) (h : submit env ov x = .threw e ov') :
    process_overlaps env ov = .threw e ov' ∨
    (∃ s ov1, x = Submission.site s ∧ process_overlaps env ov = .ok ov1 ∧
      ov' = { ov1 with events := ov1.events ++ [Event.sink (Locus.site s)] }) := by
  cases x with
  | site s =>
    simp only [submit] at h
    unfold process_site at h
    by_cases hpos : s.pos ≥ ov._indel_end_pos
    · rw [if_pos hpos] at h
      cases hp : process_overlaps env ov with
      | ok ov1 =>
        right
        simp only [hp] at h
        by_cases h1 : s.pos ≥ ov1._indel_end_pos
        · by_cases h2 : ov1._nonvariant_indel_buffer = []
          · simp only [h1, not_true_eq_false, if_false, h2, List.isEmpty_nil] at h
            rcases sink_call_cases env (Locus.site s) ov1.events with hs | ⟨e', hs⟩
            · simp [hs] at h
            · simp only [hs] at h
              injection h with _ h
              exact ⟨s, ov1, rfl, rfl, by rw [h2]; exact h.symm⟩
          · simp [h1, List.isEmpty_iff, h2] at h
        · simp [h1] at h
      | threw e' a =>
        left
        simp only [hp] at h
        exact h
      | crashed => simp [hp] at h
      | outOfFuel => simp [hp] at h
    · rw [if_neg hpos] at h
      cases h
  | indel i =>
    left
    simp only [submit] at h
    unfold process_indel at h
    by_cases hd : (!i.isVariantLocus && !i.isAnyForcedOutputAtLocus) = true
    · simp only [hd, if_true] at h
      cases h
    · simp only [hd, if_false] at h
      by_cases hpos : i.pos > ov._indel_end_pos
      · rw [if_pos hpos] at h
        cases hp : process_overlaps env ov with
        | ok ov1 =>
          simp only [hp] at h
          cases hv : i.isVariantLocus <;> simp [hv] at h
        | threw e' a =>
          simp only [hp] at h
          exact h
        | crashed => simp [hp] at h
        | outOfFuel => simp [hp] at h
      · rw [if_neg hpos] at h
        cases hv : i.isVariantLocus <;> simp [hv] at h

/-- A property of states that holds of every state with cleared buffers, does not depend
on the log of calls, and is kept by each of the three ways `process` buffers a record, holds
along every sequence of calls. -/
theorem calls_invariant (env : Collaborators) (I : indel_overlapper → Prop)
    (P : Submission → Prop)
    (hclr : ∀ ov : indel_overlapper, ov._indel_end_pos = 0 → ov._indel_buffer = [] →
      ov._nonvariant_indel_buffer = [] → ov._site_buffer = [] → I ov)
    (hev : ∀ (ov : indel_overlapper) (ev : List Event), I ov → I { ov with events := ev })
    (hsite : ∀ (ov : indel_overlapper) (s : GermlineDiploidSiteLocusInfo),
      P (Submission.site s) → I ov → s.pos < ov._indel_end_pos →
      I { ov with _site_buffer := ov._site_buffer ++ [s] })
    (hnv : ∀ (ov : indel_overlapper) (i : GermlineIndelLocusInfo), I ov →
      I { ov with _nonvariant_indel_buffer := ov._nonvariant_indel_buffer ++ [i] })
    (hvar : ∀ (ov : indel_overlapper) (i : GermlineIndelLocusInfo), I ov →
      (ov._indel_buffer = [] ∨ i.pos ≤ ov._indel_end_pos) →
      I { ov with _indel_end_pos := max ov._indel_end_pos i.end_,
                  _indel_buffer := ov._indel_buffer ++ [i] }) :
    ∀ (ov : indel_overlapper) (xs : List Submission) (ov' : indel_overlapper),
      Calls env ov xs ov' → (∀ x ∈ xs, P x) → I ov → I ov' := by
  have hflush : ∀ ov ov' : indel_overlapper, process_overlaps env ov = .ok ov' → I ov → I ov' := by
    intro ov ov' h hI
    rcases process_overlaps_ok_shape env ov ov' h with ⟨h1, _, _⟩ | ⟨h1, h2, h3, h4⟩
    · rw [h1]; exact hI
    · exact hclr ov' h1 h2 h3 h4
  have hthrew : ∀ (ov ov' : indel_overlapper) (e : Exception),
      process_overlaps env ov = .threw e ov' → I ov' := by
    intro ov ov' e h
    obtain ⟨mid, _, hov'⟩ := process_overlaps_threw env ov ov' e h
    rw [hov']
    exact hclr _ rfl rfl rfl rfl
  intro ov xs ov' hcalls
  induction hcalls with
  | start => intro _ hI; exact hI
  | @submit_ok ov1 ov2 xs x h hx ih =>
    intro hP hI
    have hI1 : I ov1 := ih (fun y hy => hP y (List.mem_append_left _ hy)) hI
    have hPx : P x := hP x (by simp)
    cases x with
    | site s =>
      rcases process_site_ok env ov1 ov2 s hx with ⟨hlt, heq⟩ | ⟨_, ov1', hp, _, _, heq⟩
      · rw [heq]; exact hsite ov1 s hPx hI1 hlt
      · rw [heq]; exact hev ov1' _ (hflush ov1 ov1' hp hI1)
    | indel i =>
      rcases process_indel_ok env ov1 ov2 i hx with ⟨_, heq⟩ | ⟨_, ov1', hpre, hpost⟩
      · rw [heq]; exact hI1
      · have hbase : I ov1' ∧ (ov1'._indel_buffer = [] ∨ i.pos ≤ ov1'._indel_end_pos) := by
          rcases hpre with ⟨_, hp⟩ | ⟨hle, heq⟩
          · refine ⟨hflush ov1 ov1' hp hI1, Or.inl ?_⟩
            rcases process_overlaps_ok_shape env ov1 ov1' hp with ⟨h1, h2, _⟩ | ⟨_, h2, _, _⟩
            · rw [h1]; exact h2
            · exact h2
          · rw [heq]
            exact ⟨hI1, Or.inr (by omega)⟩
        rcases hpost with ⟨_, heq⟩ | ⟨_, heq⟩
        · rw [heq]; exact hnv ov1' i hbase.1
        · rw [heq]; exact hvar ov1' i hbase.1 hbase.2
  | @submit_threw ov1 ov2 xs x e h hx ih =>
    intro hP hI
    have hI1 : I ov1 := ih (fun y hy => hP y (List.mem_append_left _ hy)) hI
    rcases submit_threw_cases env ov1 ov2 x e hx with hp | ⟨s, ov1', _, hp, heq⟩
    · exact hthrew ov1 ov2 e hp
    · rw [heq]; exact hev ov1' _ (hflush ov1 ov1' hp hI1)
  | @flush_ok ov1 ov2 xs h hx ih =>
    intro hP hI
    exact hflush ov1 ov2 hx (ih hP hI)
  | @flush_threw ov1 ov2 xs e h hx ih =>
    intro hP hI
    exact hthrew ov1 ov2 e hx


/-! ## The invariants of the buffers -/

theorem maxEnd_nil : maxEnd [] = 0 := rfl

theorem maxEnd_append (ib : List GermlineIndelLocusInfo) (i : GermlineIndelLocusInfo) :
    maxEnd (ib ++ [i]) = max (maxEnd ib) i.end_ := by
  simp [maxEnd, List.foldl_append]

theorem maxEnd_nonneg (ib : List GermlineIndelLocusInfo) : 0 ≤ maxEnd ib := by
  induction ib using List.reverseRecOn with
  | nil => simp [maxEnd]
  | append_singleton l a ih =>
    rw [maxEnd_append]
    exact le_trans ih (le_max_left _ _)

theorem maxEnd_ge (ib : List GermlineIndelLocusInfo) :
    ∀ i ∈ ib, i.end_ ≤ maxEnd ib := by
  induction ib using List.reverseRecOn with
  | nil => intro i hi; cases hi
  | append_singleton l a ih =>
    intro i hi
    rw [maxEnd_append]
    rcases List.mem_append.mp hi with h | h
    · exact le_trans (ih i h) (le_max_left _ _)
    · simp only [List.mem_singleton] at h
      rw [h]
      exact le_max_right _ _

theorem maxEnd_attained (ib : List GermlineIndelLocusInfo) :
    maxEnd ib = 0 ∨ ∃ i ∈ ib, i.end_ = maxEnd ib := by
  induction ib using List.reverseRecOn with
  | nil => exact Or.inl rfl
  | append_singleton l a ih =>
    rw [maxEnd_append]
    rcases max_cases (maxEnd l) a.end_ with ⟨h, _⟩ | ⟨h, _⟩
    · rw [h]
      rcases ih with h0 | ⟨i, hi, hie⟩
      · exact Or.inl h0
      · exact Or.inr ⟨i, List.mem_append_left _ hi, hie⟩
    · rw [h]
      exact Or.inr ⟨a, by simp, rfl⟩

theorem chained_snoc (ib : List GermlineIndelLocusInfo) (i : GermlineIndelLocusInfo)
    (hc : Chained ib) (hi : ib = [] ∨ i.pos ≤ maxEnd ib) : Chained (ib ++ [i]) := by
  intro earlier later x hsplit hne
  rcases List.eq_nil_or_concat later with hl | ⟨l, b, hl⟩
  · subst hl
    have h2 : ib ++ [i] = earlier ++ [x] := hsplit
    obtain ⟨h3, h4⟩ := List.append_inj' h2 rfl
    simp only [List.cons.injEq, and_true] at h4
    subst h3
    subst h4
    rcases hi with h | h
    · exact absurd h hne
    · exact h
  · subst hl
    have h2 : ib ++ [i] = (earlier ++ x :: l) ++ [b] := by
      rw [hsplit]; simp
    obtain ⟨h3, _⟩ := List.append_inj' h2 rfl
    exact hc earlier l x h3 hne

/-- Along every sequence of calls from the empty overlapper: `_indel_end_pos` is the fold
of `max` over the buffered `end()` from `0`, the indel buffer is chained, and every buffered
site lies before `_indel_end_pos`. -/
theorem calls_chain (env : Collaborators) (xs : List Submission) (ov : indel_overlapper)
    (h : Calls env indel_overlapper.empty xs ov) :
    ov._indel_end_pos = maxEnd ov._indel_buffer ∧ Chained ov._indel_buffer ∧
      ∀ s ∈ ov._site_buffer, s.pos < ov._indel_end_pos := by
  refine calls_invariant env
    (fun st => st._indel_end_pos = maxEnd st._indel_buffer ∧ Chained st._indel_buffer ∧
      ∀ s ∈ st._site_buffer, s.pos < st._indel_end_pos)
    (fun _ => True) ?_ ?_ ?_ ?_ ?_ indel_overlapper.empty xs ov h (fun _ _ => trivial) ?_
  · intro st h1 h2 _ h4
    refine ⟨by rw [h1, h2]; rfl, ?_, ?_⟩
    · rw [h2]
      intro earlier later x hsplit _
      cases earlier <;> cases hsplit
    · rw [h4]
      intro s hs
      cases hs
  · intro st ev hI
    exact hI
  · intro st s _ hI hlt
    refine ⟨hI.1, hI.2.1, ?_⟩
    intro s' hs'
    rcases List.mem_append.mp hs' with h' | h'
    · exact hI.2.2 s' h'
    · simp only [List.mem_singleton] at h'
      rw [h']
      exact hlt
  · intro st i hI
    exact hI
  · intro st i hI hi
    refine ⟨?_, ?_, ?_⟩
    · show max st._indel_end_pos i.end_ = maxEnd (st._indel_buffer ++ [i])
      rw [maxEnd_append, hI.1]
    · refine chained_snoc st._indel_buffer i hI.2.1 ?_
      rcases hi with h' | h'
      · exact Or.inl h'
      · exact Or.inr (by rw [← hI.1]; exact h')
    · intro s hs
      exact lt_of_lt_of_le (hI.2.2 s hs) (le_max_left _ _)
  · refine ⟨rfl, ?_, ?_⟩
    · intro earlier later x hsplit _
      cases earlier <;> cases hsplit
    · intro s hs
      cases hs

/-- Along every sequence of calls from the empty overlapper in which the submitted sites
have non-negative positions, `_indel_end_pos` is `0` while the indel buffer is empty and a
site is buffered only under a buffered variant indel. -/
theorem calls_consistent (env : Collaborators) (xs : List Submission) (ov : indel_overlapper)
    (h : Calls env indel_overlapper.empty xs ov) (hnn : SitesNonNegative xs) :
    BuffersConsistent ov := by
  refine calls_invariant env BuffersConsistent
    (fun x => ∀ s, x = Submission.site s → 0 ≤ s.pos) ?_ ?_ ?_ ?_ ?_
    indel_overlapper.empty xs ov h ?_ ?_
  · intro st h1 h2 _ h4
    exact ⟨fun _ => h1, fun hs => absurd h4 hs⟩
  · intro st ev hI
    exact hI
  · intro st s hP hI hlt
    refine ⟨hI.1, ?_⟩
    intro _ hib
    have h0 : st._indel_end_pos = 0 := hI.1 hib
    have hs : 0 ≤ s.pos := hP s rfl
    rw [h0] at hlt
    omega
  · intro st i hI
    exact hI
  · intro st i hI _
    refine ⟨?_, ?_⟩
    · intro hnil
      simp at hnil
    · intro _
      simp
  · intro x hx s hs
    subst hs
    exact hnn s hx
  · exact ⟨fun _ => rfl, fun hs => absurd rfl hs⟩


theorem c13Mid_calls :
    Calls quietCollaborators indel_overlapper.empty [Submission.indel c7Indel] c13Mid :=
  Calls.submit_ok (Submission.indel c7Indel) (Calls.start _) rfl

theorem c9State_calls :
    Calls quietCollaborators indel_overlapper.empty
      [Submission.indel c7Indel, Submission.site c7Site] c9State :=
  Calls.submit_ok (Submission.site c7Site) c13Mid_calls rfl

theorem c12After_calls :
    Calls quietCollaborators indel_overlapper.empty [Submission.site c12Site] c12After :=
  Calls.submit_ok (Submission.site c12Site) (Calls.start _) rfl

theorem c13After_calls :
    Calls quietCollaborators indel_overlapper.empty
      [Submission.indel c7Indel, Submission.indel c13Indel] c13After :=
  Calls.submit_ok (Submission.indel c13Indel) c13Mid_calls rfl

theorem c14After_calls :
    Calls quietCollaborators indel_overlapper.empty [Submission.indel c14Indel] c14After :=
  Calls.submit_ok (Submission.indel c14Indel) (Calls.start _) rfl

/-! ## C12: the site-buffer invariant -/

/-- C12, the code at its failing input: a site at position `-5` submitted to the empty
overlapper is buffered (`-5 >= 0` is false, line 41) although no indel is buffered; when a
forced-output non-variant indel at 3 follows, the final `process_overlaps` finds a site
buffered with an empty indel buffer and the code fails its own assertion of line 240, the
one that guards `_indel_buffer.front()`. -/
theorem site_buffer_invariant_counterexample :
    Calls quietCollaborators indel_overlapper.empty [Submission.site c12Site] c12After ∧
    c12After._site_buffer ≠ [] ∧ c12After._indel_buffer = [] ∧
    (c12After._site_buffer.isEmpty || !(conflictMarked c12After._indel_buffer).isEmpty)
      = false ∧
    runAndFlush quietCollaborators [Submission.site c12Site, Submission.indel c12NonVariant]
      = .crashed := by
  refine ⟨c12After_calls, by decide, rfl, by decide, by decide⟩

/-- Away from the defect of C12 (a site buffered with no indel buffered, which takes a site
at a negative position): in every state reached from the empty overlapper by a sequence of
calls of `process` for a site, `process` for an indel and `process_overlaps` (returning or raising),
every buffered site has `pos < _indel_end_pos`; and when the submitted sites have
non-negative positions, the site buffer is non-empty only if the indel buffer is non-empty,
so that the assertion of line 240 holds and `_indel_buffer.front()` exists whenever a site
is buffered. -/
theorem site_buffer_invariant (env : Collaborators) (xs : List Submission)
    (ov : indel_overlapper) (h : Calls env indel_overlapper.empty xs ov) :
    (∀ s ∈ ov._site_buffer, s.pos < ov._indel_end_pos) ∧
    (SitesNonNegative xs →
      (ov._site_buffer ≠ [] → ov._indel_buffer ≠ []) ∧
      (ov._site_buffer.isEmpty || !(conflictMarked ov._indel_buffer).isEmpty) = true ∧
      (ov._site_buffer ≠ [] → ∃ front, (conflictMarked ov._indel_buffer).head? = some front)) := by
  refine ⟨(calls_chain env xs ov h).2.2, ?_⟩
  intro hnn
  obtain ⟨_, hsb⟩ := calls_consistent env xs ov h hnn
  have hfront : ov._site_buffer ≠ [] →
      ∃ front, (conflictMarked ov._indel_buffer).head? = some front := by
    intro hs
    have hib : conflictMarked ov._indel_buffer ≠ [] :=
      fun hc => hsb hs ((conflictMarked_eq_nil _).mp hc)
    cases hcm : conflictMarked ov._indel_buffer with
    | nil => exact absurd hcm hib
    | cons a rest => exact ⟨a, rfl⟩
  refine ⟨hsb, ?_, hfront⟩
  by_cases hs : ov._site_buffer = []
  · simp [hs]
  · obtain ⟨front, hf⟩ := hfront hs
    cases hcm : conflictMarked ov._indel_buffer with
    | nil => rw [hcm] at hf; cases hf
    | cons a rest => simp

/-- The invariants of the site buffer at the state that buffers the indel over `[10,15)` and
the site at 12. -/
theorem site_buffer_invariant_witness :
    (∀ s ∈ c9State._site_buffer, s.pos < c9State._indel_end_pos) ∧
    (c9State._site_buffer ≠ [] → c9State._indel_buffer ≠ []) ∧
    (c9State._site_buffer.isEmpty || !(conflictMarked c9State._indel_buffer).isEmpty) = true ∧
    (c9State._site_buffer ≠ [] →
      ∃ front, (conflictMarked c9State._indel_buffer).head? = some front) :=
  ⟨(site_buffer_invariant quietCollaborators _ c9State c9State_calls).1,
   (site_buffer_invariant quietCollaborators _ c9State c9State_calls).2
    (by
      intro s hs
      simp at hs
      subst hs
      decide)⟩

/-! ## C13: the chain of buffered indels -/

/-- C13, as stated, fails. The indel over `[15,20)` starts exactly where the buffered indel
over `[10,15)` ends; `15 > 15` is false, so it is buffered with it (line 68): its position is
not strictly less than the largest earlier end, and the two spans are disjoint. -/
theorem overlap_chain_counterexample :
    Calls quietCollaborators indel_overlapper.empty
      [Submission.indel c7Indel, Submission.indel c13Indel] c13After ∧
    c13After._indel_buffer = [c7Indel, c13Indel] ∧
    ¬ (c13Indel.pos < maxEnd [c7Indel]) ∧
    c7Indel.pos < c7Indel.end_ ∧ c7Indel.end_ ≤ c13Indel.pos ∧ c13Indel.pos < c13Indel.end_ := by
  refine ⟨c13After_calls, rfl, by decide, by decide, by decide, by decide⟩

/-- C13, amended: in every state reached from the empty overlapper by a sequence of calls,
every record of the indel buffer other than the first has a position less than or equal to
(not strictly less than) the largest `end()` of the records buffered before it, folded from
`0`: it starts at or before position `0` or at or before the end of an earlier buffered
indel. -/
theorem overlap_chain (env : Collaborators) (xs : List Submission)
    (ov : indel_overlapper) (h : Calls env indel_overlapper.empty xs ov)
    (earlier later : List GermlineIndelLocusInfo) (x : GermlineIndelLocusInfo)
    (hsplit : ov._indel_buffer = earlier ++ x :: later) (hne : earlier ≠ []) :
    x.pos ≤ maxEnd earlier ∧ (x.pos ≤ 0 ∨ ∃ y ∈ earlier, x.pos ≤ y.end_) := by
  have hx : x.pos ≤ maxEnd earlier := (calls_chain env xs ov h).2.1 earlier later x hsplit hne
  refine ⟨hx, ?_⟩
  rcases maxEnd_attained earlier with h0 | ⟨y, hy, hye⟩
  · exact Or.inl (by rw [h0] at hx; exact hx)
  · exact Or.inr ⟨y, hy, by rw [hye]; exact hx⟩

/-- C13, amended, at the state that buffers the indels over `[10,15)` and `[15,20)`. -/
theorem overlap_chain_witness :
    c13Indel.pos ≤ maxEnd [c7Indel] ∧
      (c13Indel.pos ≤ 0 ∨ ∃ y ∈ [c7Indel], c13Indel.pos ≤ y.end_) :=
  overlap_chain quietCollaborators _ c13After c13After_calls [c7Indel] [] c13Indel rfl
    (by simp)

/-! ## C14: the value of `_indel_end_pos` -/

/-- C14, as stated, fails. After the variant indel over `[-5,-3)` is submitted to the empty
overlapper, `_indel_end_pos` is `max(0, -3) = 0`, which is the `end()` of no buffered
record. -/
theorem indel_end_pos_counterexample :
    Calls quietCollaborators indel_overlapper.empty [Submission.indel c14Indel] c14After ∧
    c14After._indel_buffer = [c14Indel] ∧ c14After._indel_end_pos = 0 ∧
    c14Indel.end_ = -3 ∧
    ¬ ∃ i ∈ c14After._indel_buffer, i.end_ = c14After._indel_end_pos := by
  refine ⟨c14After_calls, rfl, rfl, rfl, ?_⟩
  rintro ⟨i, hi, hie⟩
  simp only [c14After, List.mem_singleton] at hi hie
  subst hi
  revert hie
  decide

/-- C14, amended: in every state reached from the empty overlapper by a sequence of calls,
`_indel_end_pos` is the maximum of `0` and the `end()` of the records in the indel buffer
(`0` when the buffer is empty, and the largest `end()` as soon as one buffered `end()` is
non-negative). In every state, `process` for an indel that is kept first runs the resolve
cycle when `pos > _indel_end_pos`; buffering a non-variant indel then leaves `_indel_end_pos`
and the indel buffer as they are, and buffering a variant indel sets `_indel_end_pos` to the
maximum of its value and the new `end()`. -/
theorem indel_end_pos_invariant (env : Collaborators) (xs : List Submission)
    (ov : indel_overlapper) (h : Calls env indel_overlapper.empty xs ov) :
    ov._indel_end_pos = maxEnd ov._indel_buffer ∧
    (ov._indel_buffer = [] → ov._indel_end_pos = 0) ∧
    (∀ i ∈ ov._indel_buffer, i.end_ ≤ ov._indel_end_pos) ∧
    (ov._indel_end_pos = 0 ∨ ∃ i ∈ ov._indel_buffer, i.end_ = ov._indel_end_pos) ∧
    ((∃ i ∈ ov._indel_buffer, 0 ≤ i.end_) →
      ∃ i ∈ ov._indel_buffer, i.end_ = ov._indel_end_pos) ∧
    (∀ (st st' : indel_overlapper) (i : GermlineIndelLocusInfo),
      (Submission.indel i).kept = true → process_indel env st i = .ok st' →
      ∃ st1, ((i.pos > st._indel_end_pos ∧ process_overlaps env st = .ok st1) ∨
              (¬ i.pos > st._indel_end_pos ∧ st1 = st)) ∧
        (i.isVariantLocus = false →
          st'._indel_end_pos = st1._indel_end_pos ∧ st'._indel_buffer = st1._indel_buffer ∧
          st'._nonvariant_indel_buffer = st1._nonvariant_indel_buffer ++ [i]) ∧
        (i.isVariantLocus = true →
          st'._indel_end_pos = max st1._indel_end_pos i.end_ ∧
          st'._indel_buffer = st1._indel_buffer ++ [i])) := by
  have hend : ov._indel_end_pos = maxEnd ov._indel_buffer := (calls_chain env xs ov h).1
  refine ⟨hend, ?_, ?_, ?_, ?_, ?_⟩
  · intro hnil
    rw [hend, hnil]
    rfl
  · intro i hi
    rw [hend]
    exact maxEnd_ge _ i hi
  · rw [hend]
    exact maxEnd_attained _
  · rintro ⟨i, hi, h0⟩
    rw [hend]
    rcases maxEnd_attained ov._indel_buffer with hz | hex
    · refine ⟨i, hi, ?_⟩
      have := maxEnd_ge _ i hi
      omega
    · exact hex
  · intro st st' i hk hp
    rcases process_indel_ok env st st' i hp with ⟨hd, _⟩ | ⟨_, st1, hpre, hpost⟩
    · rw [hk] at hd; cases hd
    · refine ⟨st1, hpre, ?_, ?_⟩
      · intro hv
        rcases hpost with ⟨_, heq⟩ | ⟨hv', _⟩
        · rw [heq]; exact ⟨rfl, rfl, rfl⟩
        · rw [hv] at hv'; cases hv'
      · intro hv
        rcases hpost with ⟨hv', _⟩ | ⟨_, heq⟩
        · rw [hv] at hv'; cases hv'
        · rw [heq]; exact ⟨rfl, rfl⟩

/-- C14, amended, at the state that buffers the indels over `[10,15)` and `[15,20)`. -/
theorem indel_end_pos_invariant_witness :
    c13After._indel_end_pos = maxEnd c13After._indel_buffer ∧
    (c13After._indel_buffer = [] → c13After._indel_end_pos = 0) ∧
    (∀ i ∈ c13After._indel_buffer, i.end_ ≤ c13After._indel_end_pos) ∧
    (c13After._indel_end_pos = 0 ∨
      ∃ i ∈ c13After._indel_buffer, i.end_ = c13After._indel_end_pos) ∧
    ((∃ i ∈ c13After._indel_buffer, 0 ≤ i.end_) →
      ∃ i ∈ c13After._indel_buffer, i.end_ = c13After._indel_end_pos) ∧
    (∀ (st st' : indel_overlapper) (i : GermlineIndelLocusInfo),
      (Submission.indel i).kept = true → process_indel quietCollaborators st i = .ok st' →
      ∃ st1, ((i.pos > st._indel_end_pos ∧ process_overlaps quietCollaborators st = .ok st1) ∨
              (¬ i.pos > st._indel_end_pos ∧ st1 = st)) ∧
        (i.isVariantLocus = false →
          st'._indel_end_pos = st1._indel_end_pos ∧ st'._indel_buffer = st1._indel_buffer ∧
          st'._nonvariant_indel_buffer = st1._nonvariant_indel_buffer ++ [i]) ∧
        (i.isVariantLocus = true →
          st'._indel_end_pos = max st1._indel_end_pos i.end_ ∧
          st'._indel_buffer = st1._indel_buffer ++ [i])) :=
  indel_end_pos_invariant quietCollaborators _ c13After c13After_calls


/-! ## What reaches the sink is what was buffered or submitted -/

theorem mergedOrder_ident_mem (env : Collaborators) (hk : ClassifierKeepsPtr env)
    (ov : indel_overlapper) (sb' : List GermlineDiploidSiteLocusInfo) (ev1 : List Event)
    (hm : modify_buffered_sites env (conflictMarked ov._indel_buffer) ov._site_buffer ov.events
      = .ok (sb', ev1)) (c : Bool) :
    ∀ z ∈ mergedOrder c (conflictMarked ov._indel_buffer) ov._nonvariant_indel_buffer sb',
      z.ident ∈ (buffered ov).map Locus.ident := by
  intro z hz
  unfold mergedOrder at hz
  rcases mergedOrderAux_mem c _ _ _ _ z hz with ⟨a, ha, rfl⟩ | ⟨b, hb, rfl⟩ | ⟨s, hs, rfl⟩
  · have h1 : a.ptr ∈ (conflictMarked ov._indel_buffer).map GermlineIndelLocusInfo.ptr :=
      List.mem_map_of_mem _ ha
    rw [conflictMarked_map_ptr] at h1
    obtain ⟨a0, ha0, hptr⟩ := List.mem_map.mp h1
    exact List.mem_map.mpr ⟨Locus.indel a0, mem_buffered_indel ov a0 ha0, by
      simp [Locus.ident, hptr]⟩
  · exact List.mem_map_of_mem _ (mem_buffered_nonvariant ov b hb)
  · have h1 : s.ptr ∈ sb'.map GermlineDiploidSiteLocusInfo.ptr := List.mem_map_of_mem _ hs
    rw [modify_buffered_sites_map_ptr env hk _ _ _ _ _ hm] at h1
    obtain ⟨s0, hs0, hptr⟩ := List.mem_map.mp h1
    exact List.mem_map.mpr ⟨Locus.site s0, mem_buffered_site ov s0 hs0, by
      simp [Locus.ident, hptr]⟩

theorem modify_buffered_sites_threw_sunk (env : Collaborators)
    (ib : List GermlineIndelLocusInfo) (sb sb' : List GermlineDiploidSiteLocusInfo)
    (ev ev' : List Event) (e : Exception)
    (h : modify_buffered_sites env ib sb ev = .threw e (sb', ev')) :
    sunk ev' = sunk ev := by
  obtain ⟨_, _, _, ms, last, hev, _⟩ := modify_buffered_sites_threw env ib _ _ _ _ _ h
  rw [hev]
  simp [sunk]

/-- A resolve cycle that returns or raises hands to the sink only records it had buffered
(by kind and object identity), and leaves nothing buffered that was not. -/
theorem process_overlaps_sunk_subset (env : Collaborators) (hk : ClassifierKeepsPtr env)
    (ov ov' : indel_overlapper)
    (h : process_overlaps env ov = .ok ov' ∨ ∃ e, process_overlaps env ov = .threw e ov') :
    ∃ L, sunk ov'.events = sunk ov.events ++ L ∧
      (∀ z ∈ L, z.ident ∈ (buffered ov).map Locus.ident) ∧
      (∀ z ∈ buffered ov', z ∈ buffered ov) := by
  rcases h with h | ⟨e, h⟩
  · rcases process_overlaps_ok_effect env ov ov' h with ⟨h1, _, _⟩ |
      ⟨_, _, h2, h3, h4, L, hL, _, hident, _⟩
    · subst h1
      exact ⟨[], by simp, (fun z hz => by cases hz), fun z hz => hz⟩
    · refine ⟨L, hL, ?_, ?_⟩
      · intro z hz
        exact ((hident hk).mem_iff).mp (List.mem_map_of_mem _ hz)
      · intro z hz
        simp [buffered, h2, h3, h4] at hz
  · obtain ⟨mid, hmid, hov'⟩ := process_overlaps_threw env ov ov' e h
    subst hov'
    have hbuf : ∀ z ∈ buffered (clearBuffers mid), z ∈ buffered ov := by
      intro z hz
      simp [buffered, clearBuffers] at hz
    rcases process_overlaps_impl_cases env ov with ⟨_, _, h1⟩ | ⟨_, hcase⟩
    · rw [h1] at hmid; cases hmid
    rcases hcase with hcr | ⟨sb', ev1, hm, himpl⟩ | ⟨sb', ev1, e0, k, hm, hk', himpl⟩ |
      ⟨sb', ev1, e0, hm, himpl⟩
    · rw [hcr] at hmid; cases hmid
    · rw [himpl] at hmid; cases hmid
    · rw [himpl] at hmid
      injection hmid with _ hmid
      subst hmid
      refine ⟨(mergedOrder (decide (ov._indel_buffer.length > 1))
        (conflictMarked ov._indel_buffer) ov._nonvariant_indel_buffer sb').take (k + 1),
        ?_, ?_, hbuf⟩
      · simp only [clearBuffers, sunk_append, sunk_map_sink,
          modify_buffered_sites_sunk env _ _ _ _ _ hm]
      · intro z hz
        exact mergedOrder_ident_mem env hk ov sb' ev1 hm _ z (List.mem_of_mem_take hz)
    · rw [himpl] at hmid
      injection hmid with _ hmid
      subst hmid
      refine ⟨[], ?_, (fun z hz => by cases hz), hbuf⟩
      simp only [clearBuffers, List.append_nil]
      exact modify_buffered_sites_threw_sunk env _ _ _ _ _ _ hm

/-- One call of `process` that returns or raises hands to the sink only records that were
buffered or the submitted record, and leaves nothing else buffered. -/
theorem submit_sunk_subset (env : Collaborators) (hk : ClassifierKeepsPtr env)
    (ov ov' : indel_overlapper) (x : Submission)
    (h : submit env ov x = .ok ov' ∨ ∃ e, submit env ov x = .threw e ov') :
    ∃ L, sunk ov'.events = sunk ov.events ++ L ∧
      (∀ z ∈ L ++ buffered ov',
        z.ident ∈ (buffered ov).map Locus.ident ∨ z.ident = x.ident) := by
  have hflushsink : ∀ (s : GermlineDiploidSiteLocusInfo) (ov1 : indel_overlapper),
      x = Submission.site s → process_overlaps env ov = .ok ov1 →
      ov' = { ov1 with events := ov1.events ++ [Event.sink (Locus.site s)] } →
      ∃ L, sunk ov'.events = sunk ov.events ++ L ∧
        (∀ z ∈ L ++ buffered ov',
          z.ident ∈ (buffered ov).map Locus.ident ∨ z.ident = x.ident) := by
    intro s ov1 hx hp heq
    obtain ⟨L, hL, hLi, hb⟩ := process_overlaps_sunk_subset env hk ov ov1 (Or.inl hp)
    refine ⟨L ++ [Locus.site s], ?_, ?_⟩
    · rw [heq]
      simp only [sunk_append, hL, sunk, List.append_assoc]
    · intro z hz
      rw [heq] at hz
      simp only [List.mem_append, List.mem_singleton] at hz
      rcases hz with (hz | hz) | hz
      · exact Or.inl (hLi z hz)
      · right; rw [hz, hx]; rfl
      · exact Or.inl (List.mem_map_of_mem _ (hb z hz))
  rcases h with h | ⟨e, h⟩
  · cases x with
    | site s =>
      rcases process_site_ok env ov ov' s h with ⟨_, heq⟩ | ⟨_, ov1, hp, _, _, heq⟩
      · refine ⟨[], by rw [heq]; simp, ?_⟩
        intro z hz
        rw [heq, buffered_push_site] at hz
        simp only [List.nil_append, List.mem_append, List.mem_singleton] at hz
        rcases hz with hz | hz
        · exact Or.inl (List.mem_map_of_mem _ hz)
        · right; rw [hz]; rfl
      · exact hflushsink s ov1 rfl hp heq
    | indel i =>
      rcases process_indel_ok env ov ov' i h with ⟨_, heq⟩ | ⟨_, ov1, hpre, hpost⟩
      · subst heq
        exact ⟨[], by simp, fun z hz => Or.inl (List.mem_map_of_mem _ (by simpa using hz))⟩
      · have hbase : ∃ L, sunk ov1.events = sunk ov.events ++ L ∧
            (∀ z ∈ L, z.ident ∈ (buffered ov).map Locus.ident) ∧
            (∀ z ∈ buffered ov1, z ∈ buffered ov) := by
          rcases hpre with ⟨_, hp⟩ | ⟨_, heq⟩
          · exact process_overlaps_sunk_subset env hk ov ov1 (Or.inl hp)
          · subst heq
            exact ⟨[], by simp, (fun z hz => by cases hz), fun z hz => hz⟩
        obtain ⟨L, hL, hLi, hb⟩ := hbase
        have hpush : ∀ z ∈ buffered ov', z ∈ buffered ov1 ∨ z = Locus.indel i := by
          intro z hz
          rcases hpost with ⟨_, heq⟩ | ⟨_, heq⟩
          · rw [heq] at hz
            have := (buffered_push_nonvariant ov1 i).mem_iff.mp hz
            simpa using this
          · rw [heq] at hz
            have := (buffered_push_indel ov1 i _).mem_iff.mp hz
            simpa using this
        have hev : ov'.events = ov1.events := by
          rcases hpost with ⟨_, heq⟩ | ⟨_, heq⟩ <;> rw [heq]
        refine ⟨L, by rw [hev]; exact hL, ?_⟩
        intro z hz
        rcases List.mem_append.mp hz with hz | hz
        · exact Or.inl (hLi z hz)
        · rcases hpush z hz with hz | hz
          · exact Or.inl (List.mem_map_of_mem _ (hb z hz))
          · right; rw [hz]; rfl
  · rcases submit_threw_cases env ov ov' x e h with hp | ⟨s, ov1, hx, hp, heq⟩
    · obtain ⟨L, hL, hLi, hb⟩ := process_overlaps_sunk_subset env hk ov ov' (Or.inr ⟨e, hp⟩)
      refine ⟨L, hL, ?_⟩
      intro z hz
      rcases List.mem_append.mp hz with hz | hz
      · exact Or.inl (hLi z hz)
      · exact Or.inl (List.mem_map_of_mem _ (hb z hz))
    · exact hflushsink s ov1 hx hp heq

/-- Along a sequence of calls, what is handed to the sink or still buffered was buffered at
the start or submitted on the way. -/
theorem calls_sunk_subset (env : Collaborators) (hk : ClassifierKeepsPtr env) :
    ∀ (ov : indel_overlapper) (xs : List Submission) (ov' : indel_overlapper),
      Calls env ov xs ov' →
      ∃ L, sunk ov'.events = sunk ov.events ++ L ∧
        (∀ z ∈ L ++ buffered ov',
          z.ident ∈ (buffered ov).map Locus.ident ∨ z.ident ∈ xs.map Submission.ident) := by
  intro ov xs ov' hcalls
  induction hcalls with
  | start =>
    exact ⟨[], by simp, fun z hz => Or.inl (List.mem_map_of_mem _ (by simpa using hz))⟩
  | @submit_ok ov1 ov2 xs x h hx ih =>
    obtain ⟨L, hL, hLi⟩ := ih
    obtain ⟨L', hL', hLi'⟩ := submit_sunk_subset env hk ov1 ov2 x (Or.inl hx)
    refine ⟨L ++ L', by rw [hL', hL, List.append_assoc], ?_⟩
    intro z hz
    have hz' : z ∈ L ∨ z ∈ L' ++ buffered ov2 := by
      simp only [List.mem_append] at hz ⊢
      tauto
    rcases hz' with hz' | hz'
    · rcases hLi z (List.mem_append_left _ hz') with h1 | h1
      · exact Or.inl h1
      · exact Or.inr (by rw [List.map_append]; exact List.mem_append_left _ h1)
    · rcases hLi' z hz' with h1 | h1
      · obtain ⟨w, hw, hwz⟩ := List.mem_map.mp h1
        rcases hLi w (List.mem_append_right _ hw) with h2 | h2
        · exact Or.inl (hwz ▸ h2)
        · exact Or.inr (by rw [List.map_append]; exact List.mem_append_left _ (hwz ▸ h2))
      · exact Or.inr (by rw [List.map_append, h1]; simp)
  | @submit_threw ov1 ov2 xs x e h hx ih =>
    obtain ⟨L, hL, hLi⟩ := ih
    obtain ⟨L', hL', hLi'⟩ := submit_sunk_subset env hk ov1 ov2 x (Or.inr ⟨e, hx⟩)
    refine ⟨L ++ L', by rw [hL', hL, List.append_assoc], ?_⟩
    intro z hz
    have hz' : z ∈ L ∨ z ∈ L' ++ buffered ov2 := by
      simp only [List.mem_append] at hz ⊢
      tauto
    rcases hz' with hz' | hz'
    · rcases hLi z (List.mem_append_left _ hz') with h1 | h1
      · exact Or.inl h1
      · exact Or.inr (by rw [List.map_append]; exact List.mem_append_left _ h1)
    · rcases hLi' z hz' with h1 | h1
      · obtain ⟨w, hw, hwz⟩ := List.mem_map.mp h1
        rcases hLi w (List.mem_append_right _ hw) with h2 | h2
        · exact Or.inl (hwz ▸ h2)
        · exact Or.inr (by rw [List.map_append]; exact List.mem_append_left _ (hwz ▸ h2))
      · exact Or.inr (by rw [List.map_append, h1]; simp)
  | @flush_ok ov1 ov2 xs h hx ih =>
    obtain ⟨L, hL, hLi⟩ := ih
    obtain ⟨L', hL', hLi', hb⟩ := process_overlaps_sunk_subset env hk ov1 ov2 (Or.inl hx)
    refine ⟨L ++ L', by rw [hL', hL, List.append_assoc], ?_⟩
    intro z hz
    simp only [List.mem_append] at hz
    rcases hz with (hz | hz) | hz
    · exact hLi z (List.mem_append_left _ hz)
    · obtain ⟨w, hw, hwz⟩ := List.mem_map.mp (hLi' z hz)
      rcases hLi w (List.mem_append_right _ hw) with h2 | h2
      · exact Or.inl (hwz ▸ h2)
      · exact Or.inr (hwz ▸ h2)
    · exact hLi z (List.mem_append_right _ (hb z hz))
  | @flush_threw ov1 ov2 xs e h hx ih =>
    obtain ⟨L, hL, hLi⟩ := ih
    obtain ⟨L', hL', hLi', hb⟩ := process_overlaps_sunk_subset env hk ov1 ov2 (Or.inr ⟨e, hx⟩)
    refine ⟨L ++ L', by rw [hL', hL, List.append_assoc], ?_⟩
    intro z hz
    simp only [List.mem_append] at hz
    rcases hz with (hz | hz) | hz
    · exact hLi z (List.mem_append_left _ hz)
    · obtain ⟨w, hw, hwz⟩ := List.mem_map.mp (hLi' z hz)
      rcases hLi w (List.mem_append_right _ hw) with h2 | h2
      · exact Or.inl (hwz ▸ h2)
      · exact Or.inr (hwz ▸ h2)
    · exact hLi z (List.mem_append_right _ (hb z hz))


/-! ## C18: nothing is emitted when the classifier raises -/

theorem raising_keeps_ptr : ClassifierKeepsPtr raisingCollaborators := by
  intro a b h
  simp [raisingCollaborators] at h

theorem process_overlaps_sites_threw (env : Collaborators) (ov : indel_overlapper)
    (e : Exception) (sb' : List GermlineDiploidSiteLocusInfo) (ev1 : List Event)
    (hraise : modify_buffered_sites env (conflictMarked ov._indel_buffer) ov._site_buffer
      ov.events = .threw e (sb', ev1)) :
    process_overlaps env ov = .threw e
      { _indel_end_pos := 0, _indel_buffer := [], _nonvariant_indel_buffer := [],
        _site_buffer := [], events := ev1 } := by
  obtain ⟨front, hfront, _⟩ := modify_buffered_sites_threw env _ _ _ _ _ _ hraise
  have hib : ov._indel_buffer ≠ [] := by
    intro hnil
    rw [(conflictMarked_eq_nil _).mpr hnil] at hfront
    cases hfront
  have himpl : process_overlaps_impl env ov = .threw e
      { ov with _indel_buffer := conflictMarked ov._indel_buffer, _site_buffer := sb',
                events := ev1 } := by
    rw [process_overlaps_impl_eq, if_neg (fun h => hib h.1), if_neg (fun h => hib h.2), hraise]
  unfold process_overlaps
  rw [himpl]
  rfl

/-- C18: for every state, if the loop over the buffered sites of a resolve cycle ends with
an exception, which only the classifier can raise there, then `process_overlaps` lets this
exception escape; the sink has been handed nothing in this cycle; the three buffers are
empty afterwards; and in every later sequence of calls, whatever the sink is handed is, by
kind and object identity, one of the records submitted in these later calls (the classifier
returning the object it was given), so that no record that was buffered when the classifier
raised is ever emitted. -/
theorem classifier_failure_emits_nothing (env : Collaborators) (hk : ClassifierKeepsPtr env)
    (ov : indel_overlapper) (e : Exception) (sb' : List GermlineDiploidSiteLocusInfo)
    (ev1 : List Event)
    (hraise : modify_buffered_sites env (conflictMarked ov._indel_buffer) ov._site_buffer
      ov.events = .threw e (sb', ev1)) :
    (∃ merged, env.classify_site merged = .error e) ∧
    ∃ ov', process_overlaps env ov = .threw e ov' ∧
      sunk ov'.events = sunk ov.events ∧
      ov'._indel_buffer = [] ∧ ov'._nonvariant_indel_buffer = [] ∧ ov'._site_buffer = [] ∧
      ∀ (xs : List Submission) (st : indel_overlapper), Calls env ov' xs st →
        ∃ L, sunk st.events = sunk ov.events ++ L ∧
          (∀ z ∈ L, z.ident ∈ xs.map Submission.ident) ∧
          (∀ b ∈ buffered ov, b.ident ∉ xs.map Submission.ident →
            b.ident ∉ L.map Locus.ident) := by
  obtain ⟨_, _, _, ms, last, _, hlast, _⟩ := modify_buffered_sites_threw env _ _ _ _ _ _ hraise
  refine ⟨⟨last, hlast⟩, _, process_overlaps_sites_threw env ov e sb' ev1 hraise, ?_, rfl, rfl,
    rfl, ?_⟩
  · exact modify_buffered_sites_threw_sunk env _ _ _ _ _ _ hraise
  · intro xs st hcalls
    obtain ⟨L, hL, hLi⟩ := calls_sunk_subset env hk _ xs st hcalls
    have hsub : ∀ z ∈ L, z.ident ∈ xs.map Submission.ident := by
      intro z hz
      rcases hLi z (List.mem_append_left _ hz) with h1 | h1
      · simp [buffered] at h1
      · exact h1
    refine ⟨L, ?_, hsub, ?_⟩
    · rw [hL]
      simp only [modify_buffered_sites_threw_sunk env _ _ _ _ _ _ hraise]
    · intro b _ hb hmem
      obtain ⟨z, hz, hzb⟩ := List.mem_map.mp hmem
      exact hb (hzb ▸ hsub z hz)

/-- C18 at a concrete cycle: the site at 12 under the indel over `[10,15)`, with a classifier
that raises. -/
theorem classifier_failure_emits_nothing_witness :
    (∃ merged, raisingCollaborators.classify_site merged = .error 7) ∧
    ∃ ov', process_overlaps raisingCollaborators c9State = .threw 7 ov' ∧
      sunk ov'.events = sunk c9State.events ∧
      ov'._indel_buffer = [] ∧ ov'._nonvariant_indel_buffer = [] ∧ ov'._site_buffer = [] ∧
      ∀ (xs : List Submission) (st : indel_overlapper), Calls raisingCollaborators ov' xs st →
        ∃ L, sunk st.events = sunk c9State.events ++ L ∧
          (∀ z ∈ L, z.ident ∈ xs.map Submission.ident) ∧
          (∀ b ∈ buffered c9State, b.ident ∉ xs.map Submission.ident →
            b.ident ∉ L.map Locus.ident) :=
  classifier_failure_emits_nothing raisingCollaborators raising_keeps_ptr c9State 7
    [c7Merged] [Event.classify c7Merged] rfl


/-! ## When a resolve cycle cannot fail an assertion -/

theorem forEachSample_isSome (indelLocus : GermlineIndelLocusInfo)
    (body : LocusSampleInfo → LocusSampleInfo → LocusSampleInfo) :
    ∀ (samples : List LocusSampleInfo) (start : Nat),
      start + samples.length ≤ indelLocus.samples.length →
      ∃ out, forEachSample indelLocus body samples start = some out := by
  intro samples
  induction samples with
  | nil => intro start _; exact ⟨[], rfl⟩
  | cons s0 rest ih =>
    intro start h
    simp only [List.length_cons] at h
    obtain ⟨rest', hrest⟩ := ih (start + 1) (by omega)
    have hlt : start < indelLocus.samples.length := by omega
    unfold forEachSample
    rw [List.getElem?_eq_getElem hlt, hrest]
    exact ⟨_, rfl⟩

/-- The merge of lines 333-365 goes through when the site is not before the indel and the
indel has a sample for every sample of the site. -/
theorem overlapSiteMerge_isSome (indelLocus : GermlineIndelLocusInfo)
    (siteLocus : GermlineDiploidSiteLocusInfo) (hpos : indelLocus.pos ≤ siteLocus.pos)
    (hlen : siteLocus.samples.length ≤ indelLocus.samples.length) :
    ∃ merged, overlapSiteMerge indelLocus siteLocus = some merged := by
  cases hT : tagSiteConflict indelLocus siteLocus with
  | none =>
    exfalso
    unfold tagSiteConflict at hT
    by_cases hf : indelLocus.filters = ∅
    · obtain ⟨out, hout⟩ := forEachSample_isSome indelLocus tagSampleBody siteLocus.samples 0
        (by omega)
      simp [hf, hout] at hT
    · obtain ⟨out, hout⟩ := forEachSample_isSome indelLocus tagSampleBody siteLocus.samples 0
        (by omega)
      simp [hf, hout] at hT
  | some s2 =>
    obtain ⟨_, _, hp, _, _, hl, _⟩ := tagSiteConflict_spec _ _ _ hT
    obtain ⟨out, hout⟩ := forEachSample_isSome indelLocus gqxSampleBody s2.samples 0
      (by omega)
    unfold overlapSiteMerge
    simp only [hT]
    have hoff : s2.pos - indelLocus.pos ≥ 0 := by omega
    simp only [hoff, not_true_eq_false, if_false, hout]
    exact ⟨_, rfl⟩

theorem modify_overlapping_site_ne_crashed (env : Collaborators)
    (front : GermlineIndelLocusInfo) (s : GermlineDiploidSiteLocusInfo) (ev : List Event)
    (h : index_t.IndelConflict ∈ front.filters ∨ ∃ m, overlapSiteMerge front s = some m) :
    modify_overlapping_site env front s ev ≠ .crashed := by
  unfold modify_overlapping_site
  by_cases hc : index_t.IndelConflict ∈ front.filters
  · simp [hc]
  · rcases h with h | ⟨m, hm⟩
    · exact absurd h hc
    · simp only [hc, if_false]
      unfold modify_indel_overlap_site
      rw [hm]
      cases hcl : env.classify_site m <;> simp [hcl]

theorem modify_buffered_sites_ne_crashed (env : Collaborators)
    (ib : List GermlineIndelLocusInfo) (front : GermlineIndelLocusInfo)
    (hf : ib.head? = some front) :
    ∀ (sb : List GermlineDiploidSiteLocusInfo) (ev : List Event),
      (∀ s ∈ sb, index_t.IndelConflict ∈ front.filters ∨
        ∃ m, overlapSiteMerge front s = some m) →
      modify_buffered_sites env ib sb ev ≠ .crashed := by
  intro sb
  induction sb with
  | nil => intro ev _; simp [modify_buffered_sites]
  | cons s rest ih =>
    intro ev h
    unfold modify_buffered_sites
    rw [hf]
    simp only
    have h1 := modify_overlapping_site_ne_crashed env front s ev (h s (by simp))
    cases hm : modify_overlapping_site env front s ev with
    | ok r =>
      obtain ⟨s', ev'⟩ := r
      simp only
      have h2 := ih ev' (fun t ht => h t (List.mem_cons_of_mem _ ht))
      cases hr : modify_buffered_sites env ib rest ev' with
      | ok r2 => obtain ⟨a, b⟩ := r2; simp
      | threw e r2 => obtain ⟨a, b⟩ := r2; simp
      | crashed => exact absurd hr h2
      | outOfFuel => simp
    | threw e r => obtain ⟨a, b⟩ := r; simp
    | crashed => exact absurd hm h1
    | outOfFuel => simp

/-- A resolve cycle fails no assertion and reads no missing sample when a site is buffered
only under an indel, every buffered site lies at or behind the first buffered indel, and
the indels have a sample for every sample of a site. -/
theorem process_overlaps_ne_crashed (env : Collaborators) (ov : indel_overlapper)
    (sampleCount : Nat) (hc : ov._site_buffer ≠ [] → ov._indel_buffer ≠ [])
    (hfront : FrontBeforeSites ov) (hsamples : SamplesWithin sampleCount ov) :
    process_overlaps env ov ≠ .crashed := by
  have himpl : process_overlaps_impl env ov ≠ .crashed := by
    rw [process_overlaps_impl_eq]
    by_cases h1 : ov._indel_buffer = [] ∧ ov._nonvariant_indel_buffer = []
    · rw [if_pos h1]; simp
    · rw [if_neg h1]
      by_cases h2 : ov._site_buffer ≠ [] ∧ ov._indel_buffer = []
      · exact absurd h2.2 (hc h2.1)
      · rw [if_neg h2]
        have hm : modify_buffered_sites env (conflictMarked ov._indel_buffer) ov._site_buffer
            ov.events ≠ .crashed := by
          cases hib : ov._indel_buffer with
          | nil =>
            have hsb : ov._site_buffer = [] := by
              by_contra hne
              exact hc hne hib
            rw [hsb]
            simp [modify_buffered_sites]
          | cons a rest =>
            cases rest with
            | nil =>
              rw [conflictMarked_singleton]
              refine modify_buffered_sites_ne_crashed env [a] a rfl _ _ ?_
              intro s hs
              right
              refine overlapSiteMerge_isSome a s (hfront a (by rw [hib]; rfl) s hs) ?_
              have h3 := hsamples.1 s hs
              have h4 := hsamples.2 a (by rw [hib]; simp)
              omega
            | cons b rest' =>
              have hcm : conflictMarked (a :: b :: rest')
                  = (a :: b :: rest').map setIndelConflict := by
                simp [conflictMarked]
              rw [hcm]
              refine modify_buffered_sites_ne_crashed env
                ((a :: b :: rest').map setIndelConflict) (setIndelConflict a) rfl _ _ ?_
              intro s _
              left
              simp [setIndelConflict]
        cases hr : modify_buffered_sites env (conflictMarked ov._indel_buffer) ov._site_buffer
            ov.events with
        | ok r =>
          obtain ⟨sb', ev1⟩ := r
          simp only
          have hs := (sinkAll_ne_crashed env (mergedOrder (decide (ov._indel_buffer.length > 1))
            (conflictMarked ov._indel_buffer) ov._nonvariant_indel_buffer sb') ev1).1
          cases hsink : sinkAll env (mergedOrder (decide (ov._indel_buffer.length > 1))
            (conflictMarked ov._indel_buffer) ov._nonvariant_indel_buffer sb') ev1 with
          | ok a => simp
          | threw e a => simp
          | crashed => exact absurd hsink hs
          | outOfFuel => simp
        | threw e r => obtain ⟨sb', ev1⟩ := r; simp
        | crashed => exact absurd hr hm
        | outOfFuel => simp
  unfold process_overlaps
  cases hr : process_overlaps_impl env ov with
  | ok a => simp
  | threw e a => simp
  | crashed => exact absurd hr himpl
  | outOfFuel => simp


/-! ## Runs in one position order with non-negative positions -/

theorem process_overlaps_ok_empty (env : Collaborators) (ov ov1 : indel_overlapper)
    (h : process_overlaps env ov = .ok ov1) (hinv : BuffersConsistent ov) :
    ov1._indel_end_pos = 0 ∧ ov1._indel_buffer = [] ∧ ov1._nonvariant_indel_buffer = [] ∧
      ov1._site_buffer = [] := by
  rcases (process_overlaps_ok_consistent env ov ov1 h hinv).2 with ⟨h1, h2, h3, h4⟩ | h1
  · subst h1
    exact ⟨hinv.1 h2, h2, h3, h4⟩
  · exact h1

theorem inv_of_empty (sampleCount : Nat) (ov : indel_overlapper)
    (h : ov._indel_end_pos = 0 ∧ ov._indel_buffer = [] ∧ ov._nonvariant_indel_buffer = [] ∧
      ov._site_buffer = []) :
    (BuffersConsistent ov ∧ FrontBeforeSites ov ∧ SamplesWithin sampleCount ov) ∧
      buffered ov = [] := by
  obtain ⟨h1, h2, h3, h4⟩ := h
  refine ⟨⟨⟨fun _ => h1, fun hs => absurd h4 hs⟩, ?_, ?_, ?_⟩, by simp [buffered, h2, h3, h4]⟩
  · intro front _ s hs
    rw [h4] at hs
    cases hs
  · intro s hs
    rw [h4] at hs
    cases hs
  · intro i hi
    rw [h2] at hi
    cases hi

/-- How `process` can end the run: in the resolve cycle, or, for a site, at one of the two
assertions behind a resolve cycle that returned. -/
theorem submit_crashed_cases (env : Collaborators) (ov : indel_overlapper) (x : Submission)
    (h : submit env ov x = .crashed) :
    process_overlaps env ov = .crashed ∨
    (∃ s ov1, x = Submission.site s ∧ s.pos ≥ ov._indel_end_pos ∧
      process_overlaps env ov = .ok ov1 ∧
      (¬ s.pos ≥ ov1._indel_end_pos ∨ ov1._nonvariant_indel_buffer ≠ [])) := by
  cases x with
  | site s =>
    simp only [submit] at h
    unfold process_site at h
    by_cases hpos : s.pos ≥ ov._indel_end_pos
    · rw [if_pos hpos] at h
      cases hp : process_overlaps env ov with
      | ok ov1 =>
        right
        simp only [hp] at h
        by_cases h1 : s.pos ≥ ov1._indel_end_pos
        · by_cases h2 : ov1._nonvariant_indel_buffer = []
          · simp only [h1, not_true_eq_false, if_false, h2, List.isEmpty_nil] at h
            rcases sink_call_cases env (Locus.site s) ov1.events with hs | ⟨e', hs⟩
            · simp [hs] at h
            · simp [hs] at h
          · exact ⟨s, ov1, rfl, hpos, rfl, Or.inr h2⟩
        · exact ⟨s, ov1, rfl, hpos, rfl, Or.inl h1⟩
      | threw e' a => simp [hp] at h
      | crashed => exact Or.inl rfl
      | outOfFuel => simp [hp] at h
    · rw [if_neg hpos] at h
      cases h
  | indel i =>
    left
    simp only [submit] at h
    unfold process_indel at h
    by_cases hd : (!i.isVariantLocus && !i.isAnyForcedOutputAtLocus) = true
    · simp only [hd, if_true] at h
      cases h
    · simp only [hd, if_false] at h
      by_cases hpos : i.pos > ov._indel_end_pos
      · rw [if_pos hpos] at h
        cases hp : process_overlaps env ov with
        | ok ov1 =>
          simp only [hp] at h
          cases hv : i.isVariantLocus <;> simp [hv] at h
        | threw e' a => simp [hp] at h
        | crashed => rfl
        | outOfFuel => simp [hp] at h
      · rw [if_neg hpos] at h
        cases hv : i.isVariantLocus <;> simp [hv] at h

/-- One submission of a record at a non-negative position that is not before anything
buffered: when the call returns the buffers are consistent, the buffered sites lie at or
behind the first buffered indel, and whatever is buffered was buffered before or lies at
the position of the submitted record. -/
theorem submit_sorted_inv (env : Collaborators) (ov : indel_overlapper) (x : Submission)
    (hcons : BuffersConsistent ov) (hfront : FrontBeforeSites ov)
    (hbefore : ∀ z ∈ buffered ov, z.pos ≤ x.pos) (hx0 : 0 ≤ x.pos)
    (ov' : indel_overlapper) (hok : submit env ov x = .ok ov') :
    (BuffersConsistent ov' ∧ FrontBeforeSites ov') ∧
      (∀ z ∈ buffered ov', z ∈ buffered ov ∨ z.pos = x.pos) := by
  cases x with
  | site s =>
    rcases process_site_ok env ov ov' s hok with ⟨hlt, heq⟩ | ⟨_, ov1, hp, _, _, heq⟩
    · subst heq
      have hib : ov._indel_buffer ≠ [] := by
        intro hnil
        have h0 := hcons.1 hnil
        have : 0 ≤ s.pos := hx0
        omega
      refine ⟨⟨⟨hcons.1, fun _ => hib⟩, ?_⟩, ?_⟩
      · intro front hf t ht
        rcases List.mem_append.mp ht with ht | ht
        · exact hfront front hf t ht
        · simp only [List.mem_singleton] at ht
          subst ht
          exact hbefore _ (mem_buffered_indel ov front (List.mem_of_mem_head? hf))
      · intro z hz
        rw [buffered_push_site] at hz
        rcases List.mem_append.mp hz with hz | hz
        · exact Or.inl hz
        · simp only [List.mem_singleton] at hz
          subst hz
          exact Or.inr rfl
    · subst heq
      have hempty := process_overlaps_ok_empty env ov ov1 hp hcons
      obtain ⟨hinv, hbuf⟩ := inv_of_empty 0
        { ov1 with events := ov1.events ++ [Event.sink (Locus.site s)] } hempty
      refine ⟨⟨hinv.1, hinv.2.1⟩, ?_⟩
      intro z hz
      rw [hbuf] at hz
      cases hz
  | indel i =>
    rcases process_indel_ok env ov ov' i hok with ⟨_, heq⟩ | ⟨_, ov1, hpre, hpost⟩
    · subst heq
      exact ⟨⟨hcons, hfront⟩, fun z hz => Or.inl hz⟩
    · have hbase : (BuffersConsistent ov1 ∧ FrontBeforeSites ov1) ∧
          (∀ z ∈ buffered ov1, z ∈ buffered ov) := by
        rcases hpre with ⟨_, hp⟩ | ⟨_, heq⟩
        · obtain ⟨hinv, hbuf⟩ := inv_of_empty 0 ov1
            (process_overlaps_ok_empty env ov ov1 hp hcons)
          refine ⟨⟨hinv.1, hinv.2.1⟩, ?_⟩
          intro z hz
          rw [hbuf] at hz
          cases hz
        · subst heq
          exact ⟨⟨hcons, hfront⟩, fun z hz => hz⟩
      obtain ⟨⟨hcons1, hfront1⟩, hbuf1⟩ := hbase
      rcases hpost with ⟨_, heq⟩ | ⟨_, heq⟩
      · subst heq
        refine ⟨⟨hcons1, hfront1⟩, ?_⟩
        intro z hz
        have := (buffered_push_nonvariant ov1 i).mem_iff.mp hz
        rcases List.mem_append.mp this with h1 | h1
        · exact Or.inl (hbuf1 z h1)
        · simp only [List.mem_singleton] at h1
          subst h1
          exact Or.inr rfl
      · subst heq
        refine ⟨⟨⟨?_, ?_⟩, ?_⟩, ?_⟩
        · intro hnil
          simp at hnil
        · intro _
          simp
        · intro front hf t ht
          cases hib : ov1._indel_buffer with
          | nil =>
            have hsb : ov1._site_buffer = [] := by
              by_contra hne
              exact hcons1.2 hne hib
            have ht' : t ∈ ov1._site_buffer := ht
            rw [hsb] at ht'
            cases ht'
          | cons a rest =>
            have hf' : (ov1._indel_buffer ++ [i]).head? = some front := hf
            rw [hib] at hf'
            simp only [List.cons_append, List.head?_cons, Option.some.injEq] at hf'
            subst hf'
            exact hfront1 a (by rw [hib]; rfl) t ht
        · intro z hz
          have := (buffered_push_indel ov1 i _).mem_iff.mp hz
          rcases List.mem_append.mp this with h1 | h1
          · exact Or.inl (hbuf1 z h1)
          · simp only [List.mem_singleton] at h1
            subst h1
            exact Or.inr rfl

/-- One submission keeps the bound on the sample counts of the buffered records. -/
theorem submit_sorted_samples (env : Collaborators) (sampleCount : Nat)
    (ov : indel_overlapper) (x : Submission)
    (hcons : BuffersConsistent ov) (hsamp : SamplesWithin sampleCount ov)
    (hxs : ∀ s, x = Submission.site s → s.samples.length ≤ sampleCount)
    (hxi : ∀ i, x = Submission.indel i → sampleCount ≤ i.samples.length)
    (ov' : indel_overlapper) (hok : submit env ov x = .ok ov') :
    SamplesWithin sampleCount ov' := by
  cases x with
  | site s =>
    rcases process_site_ok env ov ov' s hok with ⟨hlt, heq⟩ | ⟨_, ov1, hp, _, _, heq⟩
    · subst heq
      refine ⟨?_, hsamp.2⟩
      intro t ht
      rcases List.mem_append.mp ht with ht | ht
      · exact hsamp.1 t ht
      · simp only [List.mem_singleton] at ht
        subst ht
        exact hxs t rfl
    · subst heq
      exact (inv_of_empty sampleCount
        { ov1 with events := ov1.events ++ [Event.sink (Locus.site s)] }
        (process_overlaps_ok_empty env ov ov1 hp hcons)).1.2.2
  | indel i =>
    rcases process_indel_ok env ov ov' i hok with ⟨_, heq⟩ | ⟨_, ov1, hpre, hpost⟩
    · subst heq
      exact hsamp
    · have hsamp1 : SamplesWithin sampleCount ov1 := by
        rcases hpre with ⟨_, hp⟩ | ⟨_, heq⟩
        · exact (inv_of_empty sampleCount ov1
            (process_overlaps_ok_empty env ov ov1 hp hcons)).1.2.2
        · subst heq
          exact hsamp
      rcases hpost with ⟨_, heq⟩ | ⟨_, heq⟩
      · subst heq
        exact hsamp1
      · subst heq
        refine ⟨hsamp1.1, ?_⟩
        intro j hj
        have hj' : j ∈ ov1._indel_buffer ++ [i] := hj
        rcases List.mem_append.mp hj' with h1 | h1
        · exact hsamp1.2 j h1
        · simp only [List.mem_singleton] at h1
          subst h1
          exact hxi j rfl

/-- One submission of a record at a non-negative position fails no assertion. -/
theorem submit_sorted_ne_crashed (env : Collaborators) (sampleCount : Nat)
    (ov : indel_overlapper) (x : Submission)
    (hcons : BuffersConsistent ov) (hfront : FrontBeforeSites ov)
    (hsamp : SamplesWithin sampleCount ov) (hx0 : 0 ≤ x.pos) :
    submit env ov x ≠ .crashed := by
  intro hcr
  rcases submit_crashed_cases env ov x hcr with hp | ⟨s, ov1, hx, hge, hp, hbad⟩
  · exact process_overlaps_ne_crashed env ov sampleCount hcons.2 hfront hsamp hp
  · obtain ⟨h1, _, h3, _⟩ := process_overlaps_ok_empty env ov ov1 hp hcons
    rcases hbad with hbad | hbad
    · apply hbad
      rw [h1]
      subst hx
      exact hx0
    · exact hbad h3

/-- A run in one position order with non-negative positions, from a state whose buffers
are consistent and hold nothing behind the run: at its end the buffers are consistent and
every buffered site lies at or behind the first buffered indel. -/
theorem submitAll_sorted_inv (env : Collaborators) :
    ∀ (subs : List Submission) (ov ov' : indel_overlapper),
      BuffersConsistent ov → FrontBeforeSites ov →
      (∀ z ∈ buffered ov, ∀ y ∈ subs, z.pos ≤ y.pos) →
      (subs.map Submission.pos).Pairwise (· ≤ ·) → (∀ x ∈ subs, 0 ≤ x.pos) →
      submitAll env subs ov = .ok ov' →
      BuffersConsistent ov' ∧ FrontBeforeSites ov' := by
  intro subs
  induction subs with
  | nil =>
    intro ov ov' hcons hfront _ _ _ h
    simp only [submitAll] at h
    injection h with h
    subst h
    exact ⟨hcons, hfront⟩
  | cons x rest ih =>
    intro ov ov' hcons hfront hbefore hs hnn h
    simp only [submitAll] at h
    cases hx : submit env ov x with
    | ok ov1 =>
      simp only [hx] at h
      simp only [List.map_cons, List.pairwise_cons] at hs
      obtain ⟨⟨hcons1, hfront1⟩, hbuf1⟩ := submit_sorted_inv env ov x hcons hfront
        (fun z hz => hbefore z hz x (by simp)) (hnn x (by simp)) ov1 hx
      refine ih ov1 ov' hcons1 hfront1 ?_ hs.2 (fun y hy => hnn y (List.mem_cons_of_mem _ hy)) h
      intro z hz y hy
      rcases hbuf1 z hz with h1 | h1
      · exact hbefore z h1 y (List.mem_cons_of_mem _ hy)
      · rw [h1]
        exact hs.1 y.pos (List.mem_map_of_mem _ hy)
    | threw e a => simp [hx] at h
    | crashed => simp [hx] at h
    | outOfFuel => simp [hx] at h

/-- A run in one position order with non-negative positions, the indels having a sample
for every sample of a site, fails no assertion, and neither does the resolve cycle behind
it. -/
theorem submitAll_sorted_ne_crashed (env : Collaborators) (sampleCount : Nat) :
    ∀ (subs : List Submission) (ov : indel_overlapper),
      BuffersConsistent ov → FrontBeforeSites ov → SamplesWithin sampleCount ov →
      (∀ z ∈ buffered ov, ∀ y ∈ subs, z.pos ≤ y.pos) →
      (subs.map Submission.pos).Pairwise (· ≤ ·) → (∀ x ∈ subs, 0 ≤ x.pos) →
      (∀ s, Submission.site s ∈ subs → s.samples.length ≤ sampleCount) →
      (∀ i, Submission.indel i ∈ subs → sampleCount ≤ i.samples.length) →
      submitAll env subs ov ≠ .crashed ∧
      ∀ ov', submitAll env subs ov = .ok ov' → process_overlaps env ov' ≠ .crashed := by
  intro subs
  induction subs with
  | nil =>
    intro ov hcons hfront hsamp _ _ _ _ _
    refine ⟨by simp [submitAll], ?_⟩
    intro ov' h
    simp only [submitAll] at h
    injection h with h
    subst h
    exact process_overlaps_ne_crashed env ov sampleCount hcons.2 hfront hsamp
  | cons x rest ih =>
    intro ov hcons hfront hsamp hbefore hs hnn hxs hxi
    have hx0 : 0 ≤ x.pos := hnn x (by simp)
    have hstep := submit_sorted_ne_crashed env sampleCount ov x hcons hfront hsamp hx0
    simp only [submitAll]
    cases hx : submit env ov x with
    | ok ov1 =>
      simp only
      simp only [List.map_cons, List.pairwise_cons] at hs
      obtain ⟨⟨hcons1, hfront1⟩, hbuf1⟩ := submit_sorted_inv env ov x hcons hfront
        (fun z hz => hbefore z hz x (by simp)) hx0 ov1 hx
      have hsamp1 := submit_sorted_samples env sampleCount ov x hcons hsamp
        (fun s hs' => hxs s (by rw [hs']; simp)) (fun i hi' => hxi i (by rw [hi']; simp)) ov1 hx
      refine ih ov1 hcons1 hfront1 hsamp1 ?_ hs.2
        (fun y hy => hnn y (List.mem_cons_of_mem _ hy))
        (fun s hs' => hxs s (List.mem_cons_of_mem _ hs'))
        (fun i hi' => hxi i (List.mem_cons_of_mem _ hi'))
      intro z hz y hy
      rcases hbuf1 z hz with h1 | h1
      · exact hbefore z h1 y (List.mem_cons_of_mem _ hy)
      · rw [h1]
        exact hs.1 y.pos (List.mem_map_of_mem _ hy)
    | threw e a => simp
    | crashed => exact absurd hx hstep
    | outOfFuel => simp


/-! ## C16: sorted output for input in one position order -/

/-- C16, the code at its failing input: in a run that is in position order across all kinds
and begins with a site at `-3`, that site is buffered with no indel buffered (`-3 >= 0` is
false, line 41), against the invariant the code asserts at line 240; the site at 2 is handed
to the sink at once, and the site at `-3` comes out in the resolve cycle of the two indels:
the sink receives positions 2, -3, 4, 5, and no call fails. -/
theorem sorted_output_counterexample :
    (c16Run.map Submission.pos).Pairwise (· ≤ ·) ∧
    ∃ st, runAndFlush quietCollaborators c16Run = .ok st ∧
      (sunk st.events).map Locus.pos = [2, -3, 4, 5] ∧
      ¬ ((sunk st.events).map Locus.pos).Pairwise (· ≤ ·) := by
  refine ⟨by decide, _, rfl, by decide, by decide⟩

/-- Away from the defect of C16 (a site buffered with no indel buffered, which takes a site
at a negative position): for every sequence of submissions to the empty overlapper whose
positions are non-decreasing in submission order across all kinds and whose sites have non-negative
positions, if the run and the final `process_overlaps` return, with a classifier that leaves
positions as they are, the records handed to the sink are in non-decreasing position order.
And for all buffers and indices, the head `nextVariantType` selects exists and has a position
less than or equal to that of each of the two other heads that exist. -/
theorem sorted_output (env : Collaborators) (subs : List Submission) (st : indel_overlapper)
    (hk : ClassifierKeepsPos env) (hnn : SitesNonNegative subs)
    (hs : (subs.map Submission.pos).Pairwise (· ≤ ·))
    (h : runAndFlush env subs = .ok st) :
    (sunk st.events).Pairwise (fun a b => a.pos ≤ b.pos) ∧
    (∀ (ib nvb : List GermlineIndelLocusInfo) (sb : List GermlineDiploidSiteLocusInfo)
        (ii ni si : Nat),
      (nextVariantType ib nvb sb ii ni si = VARQUEUE.index_t.INDEL →
        ∃ a, ib[ii]? = some a ∧ (∀ b, nvb[ni]? = some b → a.pos ≤ b.pos) ∧
          (∀ s, sb[si]? = some s → a.pos ≤ s.pos)) ∧
      (nextVariantType ib nvb sb ii ni si = VARQUEUE.index_t.NONVARIANT_INDEL →
        ∃ b, nvb[ni]? = some b ∧ (∀ a, ib[ii]? = some a → b.pos ≤ a.pos) ∧
          (∀ s, sb[si]? = some s → b.pos ≤ s.pos)) ∧
      (nextVariantType ib nvb sb ii ni si = VARQUEUE.index_t.SITE →
        ∃ s, sb[si]? = some s ∧ (∀ a, ib[ii]? = some a → s.pos ≤ a.pos) ∧
          (∀ b, nvb[ni]? = some b → s.pos ≤ b.pos))) := by
  refine ⟨?_, ?_⟩
  · obtain ⟨ov, hsub, hflush⟩ := runAndFlush_ok env subs st h
    have hinv0 : BuffersConsistent indel_overlapper.empty :=
      ⟨fun _ => rfl, fun hc => absurd rfl hc⟩
    have ho0 : Ordered indel_overlapper.empty := by
      refine ⟨List.Pairwise.nil, List.Pairwise.nil, List.Pairwise.nil, List.Pairwise.nil, ?_⟩
      intro a ha
      cases ha
    have hkept : ((subs.filter Submission.kept).map Submission.pos).Pairwise (· ≤ ·) :=
      List.Pairwise.sublist ((List.filter_sublist subs).map Submission.pos) hs
    obtain ⟨_, ho⟩ := submitAll_ok_ordered env hk subs _ ov hinv0 ho0 hnn hkept
      (fun z hz => by cases hz) hsub
    exact (process_overlaps_ok_ordered env ov st hk hflush ho).1.1
  · intro ib nvb sb ii ni si
    exact ⟨fun h1 => (nextVariantType_indel_lt _ _ _ _ _ _ h1).2,
      fun h1 => (nextVariantType_nonvariant_lt _ _ _ _ _ _ h1).2,
      fun h1 => (nextVariantType_site_lt _ _ _ _ _ _ h1).2⟩

/-- Sorted output at the run of an indel, a site and a forced non-variant indel, all at
position 100. -/
theorem sorted_output_witness :
    (sunk c3After.events).Pairwise (fun a b => a.pos ≤ b.pos) ∧
    (∀ (ib nvb : List GermlineIndelLocusInfo) (sb : List GermlineDiploidSiteLocusInfo)
        (ii ni si : Nat),
      (nextVariantType ib nvb sb ii ni si = VARQUEUE.index_t.INDEL →
        ∃ a, ib[ii]? = some a ∧ (∀ b, nvb[ni]? = some b → a.pos ≤ b.pos) ∧
          (∀ s, sb[si]? = some s → a.pos ≤ s.pos)) ∧
      (nextVariantType ib nvb sb ii ni si = VARQUEUE.index_t.NONVARIANT_INDEL →
        ∃ b, nvb[ni]? = some b ∧ (∀ a, ib[ii]? = some a → b.pos ≤ a.pos) ∧
          (∀ s, sb[si]? = some s → b.pos ≤ s.pos)) ∧
      (nextVariantType ib nvb sb ii ni si = VARQUEUE.index_t.SITE →
        ∃ s, sb[si]? = some s ∧ (∀ a, ib[ii]? = some a → s.pos ≤ a.pos) ∧
          (∀ b, nvb[ni]? = some b → s.pos ≤ b.pos))) :=
  sorted_output quietCollaborators c16Sorted c3After quiet_keeps_pos
    (by
      intro s hs
      simp [c16Sorted] at hs
      subst hs
      decide)
    (by decide)
    (by decide)

/-! ## C17: the offset of a buffered site is never negative -/

theorem conflictMarked_head_pos (ib : List GermlineIndelLocusInfo)
    (front : GermlineIndelLocusInfo) (h : (conflictMarked ib).head? = some front) :
    ∃ front0, ib.head? = some front0 ∧ front0.pos = front.pos := by
  have h1 : ((conflictMarked ib).map GermlineIndelLocusInfo.pos).head?
      = (ib.map GermlineIndelLocusInfo.pos).head? := by
    rw [conflictMarked_map_pos]
  rw [List.head?_map, List.head?_map, h] at h1
  cases hib : ib.head? with
  | none => rw [hib] at h1; cases h1
  | some front0 =>
    rw [hib] at h1
    simp only [Option.map_some', Option.some.injEq] at h1
    exact ⟨front0, rfl, h1.symm⟩

/-- C17: for every sequence of submissions to the empty overlapper whose positions are
non-negative and non-decreasing in submission order across all kinds, in the state after
every part of the run that returned, a site is buffered only under a buffered indel, and for
every buffered site the offset `siteLocus.pos - indelLocus.pos` to the first buffered variant
indel, which is the indel `modify_indel_overlap_site` is called with, is `>= 0`; and when a
resolve cycle returns in such a state, the two assertions of `process` for a site at a
non-negative position hold. With an indel sample for every sample of a site (at least
`sampleCount` samples in every indel, at most `sampleCount` in every site), the whole run with
its final `process_overlaps` fails no assertion at all. -/
theorem offset_assertion_valid (env : Collaborators) (subs : List Submission)
    (hnn : ∀ x ∈ subs, 0 ≤ x.pos) (hs : (subs.map Submission.pos).Pairwise (· ≤ ·)) :
    (∀ (pre post : List Submission) (ov : indel_overlapper), subs = pre ++ post →
      submitAll env pre indel_overlapper.empty = .ok ov →
      (ov._site_buffer ≠ [] → ov._indel_buffer ≠ []) ∧
      (∀ front s, ov._indel_buffer.head? = some front → s ∈ ov._site_buffer →
        s.pos - front.pos ≥ 0) ∧
      (∀ front s, (conflictMarked ov._indel_buffer).head? = some front →
        s ∈ ov._site_buffer → s.pos - front.pos ≥ 0) ∧
      (∀ (si : GermlineDiploidSiteLocusInfo) (ov1 : indel_overlapper), 0 ≤ si.pos →
        process_overlaps env ov = .ok ov1 →
        si.pos ≥ ov1._indel_end_pos ∧ ov1._nonvariant_indel_buffer = [])) ∧
    (∀ sampleCount : Nat,
      (∀ s, Submission.site s ∈ subs → s.samples.length ≤ sampleCount) →
      (∀ i, Submission.indel i ∈ subs → sampleCount ≤ i.samples.length) →
      runAndFlush env subs ≠ .crashed) := by
  have hinv0 : BuffersConsistent indel_overlapper.empty :=
    ⟨fun _ => rfl, fun hc => absurd rfl hc⟩
  have hfront0 : FrontBeforeSites indel_overlapper.empty := by
    intro front hf
    cases hf
  refine ⟨?_, ?_⟩
  · intro pre post ov hsplit hsub
    subst hsplit
    rw [List.map_append] at hs
    obtain ⟨hcons, hfront⟩ := submitAll_sorted_inv env pre _ ov hinv0 hfront0
      (fun z hz => by cases hz) (List.pairwise_append.mp hs).1
      (fun x hx => hnn x (List.mem_append_left _ hx)) hsub
    refine ⟨hcons.2, ?_, ?_, ?_⟩
    · intro front s hf hmem
      have := hfront front hf s hmem
      omega
    · intro front s hf hmem
      obtain ⟨front0, hf0, hpos⟩ := conflictMarked_head_pos _ front hf
      have := hfront front0 hf0 s hmem
      omega
    · intro si ov1 h0 hp
      obtain ⟨h1, _, h3, _⟩ := process_overlaps_ok_empty env ov ov1 hp hcons
      exact ⟨by rw [h1]; exact h0, h3⟩
  · intro sampleCount hxs hxi
    have hsamp0 : SamplesWithin sampleCount indel_overlapper.empty :=
      ⟨(fun s hmem => by cases hmem), (fun i hmem => by cases hmem)⟩
    obtain ⟨h1, h2⟩ := submitAll_sorted_ne_crashed env sampleCount subs _ hinv0 hfront0 hsamp0
      (fun z hz => by cases hz) hs hnn hxs hxi
    unfold runAndFlush
    cases hsub : submitAll env subs indel_overlapper.empty with
    | ok ov => exact h2 ov hsub
    | threw e a => simp
    | crashed => exact absurd hsub h1
    | outOfFuel => simp

/-- C17 at a concrete run: the indel over `[10,15)`, the site at 12 and the site at 20, one
sample each. -/
theorem offset_assertion_valid_witness :
    (∀ (pre post : List Submission) (ov : indel_overlapper), c17Run = pre ++ post →
      submitAll quietCollaborators pre indel_overlapper.empty = .ok ov →
      (ov._site_buffer ≠ [] → ov._indel_buffer ≠ []) ∧
      (∀ front s, ov._indel_buffer.head? = some front → s ∈ ov._site_buffer →
        s.pos - front.pos ≥ 0) ∧
      (∀ front s, (conflictMarked ov._indel_buffer).head? = some front →
        s ∈ ov._site_buffer → s.pos - front.pos ≥ 0) ∧
      (∀ (si : GermlineDiploidSiteLocusInfo) (ov1 : indel_overlapper), 0 ≤ si.pos →
        process_overlaps quietCollaborators ov = .ok ov1 →
        si.pos ≥ ov1._indel_end_pos ∧ ov1._nonvariant_indel_buffer = [])) ∧
    runAndFlush quietCollaborators c17Run ≠ .crashed :=
  ⟨(offset_assertion_valid quietCollaborators c17Run (by decide) (by decide)).1,
   (offset_assertion_valid quietCollaborators c17Run (by decide) (by decide)).2 1
    (by
      intro s hs
      simp [c17Run] at hs
      rcases hs with rfl | rfl <;> decide)
    (by
      intro i hi
      simp [c17Run] at hi
      subst hi
      decide)⟩
